import Mathlib

/-!
# Post-order heap (variable degree): shallow embedding of `postorder_heap.cpp`

The container of the source (`postorder_heap<T, Container, Compare>`) is embedded with
`T = int` as `Int`, the backing `Container` as `List Int`, and the size ledger
`std::vector<int> _sizes` as `List Nat` (its entries are never negative).  Buffer indices are
`int` in the source and may become negative (`root_cursor` ends at `-1`), so they are `Int`
here.  Every read, write or `back()`/`pop_back()` that would leave the bounds of a vector is
undefined behaviour in the source; in the embedding such an access yields `none`, and so does a
division by a zero degree.  The `while` loop of `heapify` is driven by a fuel argument;
running out of fuel yields `none` as well.

Index arithmetic is unbounded: the embedding assumes that the buffer has fewer than `2^31`
elements, so that no `int` index of the source overflows.

The constructor and `insert` of the second variant, `post_order_heap.cpp`, are embedded the
same way in the namespace `post_order_heap`.  Neither source file contains a `throw` or an
assertion; `Outcome` records how a call ends (returned, signalled an error, undefined
behaviour) where that distinction matters.
-/

namespace postorder_heap

/-- Read `c[i]` for an `int` index: `none` when the index is outside the vector. -/
def readAt {α : Type} (l : List α) (i : Int) : Option α :=
  if i < 0 then none else l[i.toNat]?

/-- Write `c[i] = v` for an `int` index: `none` when the index is outside the vector. -/
def writeAt {α : Type} (l : List α) (i : Int) (v : α) : Option (List α) :=
  if i < 0 then none
  else if i.toNat < l.length then some (l.set i.toNat v) else none

/-- Call `pop_back()` the given number of times: `none` when the vector runs empty. -/
def popBackN {α : Type} : Nat → List α → Option (List α)
  | 0, l => some l
  | n + 1, l => if l.isEmpty then none else popBackN n l.dropLast

end postorder_heap

/-- State of a `postorder_heap<int, std::vector<int>, Compare>`: the members `_container`,
`_degree` and `_sizes`.  The member `_comparator` is passed to the operations as an argument. -/
structure postorder_heap where
  _container : List Int
  _degree : Nat
  _sizes : List Nat
deriving DecidableEq

namespace postorder_heap

/-- The constructor `postorder_heap(Compare compare, int degree)`: empty buffer, empty ledger. -/
def new (degree : Nat) : postorder_heap :=
  { _container := [], _degree := degree, _sizes := [] }

/-- The `for (child_offset = ...; child_offset < _degree; child_offset++)` loop of `heapify`.
The first argument counts the iterations that remain. -/
def heapifyChildren (_comparator : Int → Int → Bool) (c : List Int) (right_child_index : Int)
    (size_of_subtree : Nat) : Nat → Nat → Int → Int → Option (Int × Int)
  | 0, _, prioritised_child_index, prioritised_child =>
    some (prioritised_child_index, prioritised_child)
  | n + 1, child_offset, prioritised_child_index, prioritised_child =>
    let childIndex : Int := right_child_index - ((child_offset : Int) * (size_of_subtree : Int))
    match readAt c childIndex with
    | none => none
    | some child =>
      if _comparator child prioritised_child then
        heapifyChildren _comparator c right_child_index size_of_subtree n (child_offset + 1)
          childIndex child
      else
        heapifyChildren _comparator c right_child_index size_of_subtree n (child_offset + 1)
          prioritised_child_index prioritised_child

/-- The `while (size_of_subtree > 1)` loop of `heapify` followed by the final
`_container[index] = initial_root`.  The first argument is the fuel. -/
def heapifyLoop (_comparator : Int → Int → Bool) (_degree : Nat) (initial_root : Int) :
    Nat → List Int → Int → Nat → Option (List Int)
  | 0, _, _, _ => none
  | fuel + 1, c, index, size_of_subtree =>
    if size_of_subtree > 1 then
      if _degree = 0 then none
      else
        let size_of_subtree1 := size_of_subtree / _degree
        let right_child_index : Int := index - 1
        match readAt c right_child_index with
        | none => none
        | some right_child =>
          match heapifyChildren _comparator c right_child_index size_of_subtree1
              (_degree - 1) 1 right_child_index right_child with
          | none => none
          | some (prioritised_child_index, prioritised_child) =>
            if !_comparator prioritised_child initial_root then
              writeAt c index initial_root
            else
              match writeAt c index prioritised_child with
              | none => none
              | some c1 =>
                heapifyLoop _comparator _degree initial_root fuel c1 prioritised_child_index
                  size_of_subtree1
    else writeAt c index initial_root

/-- The method `heapify(index, size_of_subtree)` acting on the buffer. -/
def heapify (_comparator : Int → Int → Bool) (_degree : Nat) (c : List Int) (index : Int)
    (size_of_subtree : Nat) : Option (List Int) :=
  match readAt c index with
  | none => none
  | some initial_root =>
    heapifyLoop _comparator _degree initial_root (size_of_subtree + 1) c index size_of_subtree

/-- The `for (offset = ...; offset < _degree; offset++)` loop of `push`, which accumulates
`should_merge_trees`.  The first argument counts the iterations that remain. -/
def pushShouldMerge (sizes : List Nat) : Nat → Nat → Bool → Option Bool
  | 0, _, should_merge_trees => some should_merge_trees
  | n + 1, offset, should_merge_trees =>
    let tree_index : Int := (sizes.length : Int) - (offset : Int)
    match readAt sizes tree_index, readAt sizes (tree_index - 1) with
    | some a, some b => pushShouldMerge sizes n (offset + 1) (should_merge_trees && (a == b))
    | _, _ => none

/-- The method `push(element)`. -/
def push (_comparator : Int → Int → Bool) (h : postorder_heap) (element : Int) :
    Option postorder_heap :=
  let container := h._container ++ [element]
  if h._degree ≤ h._sizes.length then
    match pushShouldMerge h._sizes (h._degree - 1) 1 true with
    | none => none
    | some should_merge_trees =>
      if should_merge_trees then
        match readAt h._sizes ((h._sizes.length : Int) - 1) with
        | none => none
        | some last_size =>
          let size_of_subtree := 1 + h._degree * last_size
          let root_of_subtree : Int := (container.length : Int) - 1
          match popBackN h._degree h._sizes with
          | none => none
          | some sizes1 =>
            match heapify _comparator h._degree container root_of_subtree size_of_subtree with
            | none => none
            | some container1 =>
              some { _container := container1, _degree := h._degree,
                     _sizes := sizes1 ++ [size_of_subtree] }
      else some { _container := container, _degree := h._degree, _sizes := h._sizes ++ [1] }
  else some { _container := container, _degree := h._degree, _sizes := h._sizes ++ [1] }

/-- The root scan of `top`: `for (size_index = ...; size_index >= 0; size_index--)`.  The first
argument is `size_index + 1`.  `largest_root` is never reassigned in the source. -/
def topScan (_comparator : Int → Int → Bool) (c : List Int) (sizes : List Nat)
    (largest_root : Int) : Nat → Int → Int → Option Int
  | 0, _, prioritised_root_index => some prioritised_root_index
  | size_index + 1, root_cursor, prioritised_root_index =>
    match sizes[size_index]?, readAt c root_cursor with
    | some next_size, some root =>
      if _comparator root largest_root then
        topScan _comparator c sizes largest_root size_index (root_cursor - (next_size : Int))
          root_cursor
      else
        topScan _comparator c sizes largest_root size_index (root_cursor - (next_size : Int))
          prioritised_root_index
    | _, _ => none

/-- The method `top()`.  The value is returned together with the state after the call. -/
def top (_comparator : Int → Int → Bool) (h : postorder_heap) : Option (Int × postorder_heap) :=
  let prioritised_root_index : Int := (h._container.length : Int) - 1
  match h._sizes.getLast?, readAt h._container prioritised_root_index with
  | some back, some largest_root =>
    let root_cursor : Int := prioritised_root_index - (back : Int)
    match topScan _comparator h._container h._sizes largest_root
        ((h._sizes.length : Int) - (h._degree : Int) + 1).toNat root_cursor
        prioritised_root_index with
    | none => none
    | some i =>
      match readAt h._container i with
      | none => none
      | some v => some (v, h)
  | _, _ => none

/-- The root scan of `poll`: `for (size_index = ...; size_index >= 0; size_index--)`.  The
first argument is `size_index + 1`; the result is
`(prioritised_root, prioritised_root_index, size)`. -/
def pollScan (_comparator : Int → Int → Bool) (c : List Int) (sizes : List Nat) :
    Nat → Int → Int → Int → Nat → Option (Int × Int × Nat)
  | 0, _, prioritised_root, prioritised_root_index, size =>
    some (prioritised_root, prioritised_root_index, size)
  | size_index + 1, root_cursor, prioritised_root, prioritised_root_index, size =>
    match sizes[size_index]?, readAt c root_cursor with
    | some next_size, some element =>
      if _comparator element prioritised_root then
        pollScan _comparator c sizes size_index (root_cursor - (next_size : Int))
          element root_cursor next_size
      else
        pollScan _comparator c sizes size_index (root_cursor - (next_size : Int))
          prioritised_root prioritised_root_index size
    | _, _ => none

/-- The method `poll()`: the returned value and the state after the call. -/
def poll (_comparator : Int → Int → Bool) (h : postorder_heap) : Option (Int × postorder_heap) :=
  let prioritised_root_index : Int := (h._container.length : Int) - 1
  match h._sizes.getLast?, readAt h._container prioritised_root_index with
  | some back, some prioritised_root0 =>
    let root_cursor : Int := prioritised_root_index - (back : Int)
    match pollScan _comparator h._container h._sizes
        ((h._sizes.length : Int) - (h._degree : Int) + 1).toNat root_cursor
        prioritised_root0 prioritised_root_index back with
    | none => none
    | some (prioritised_root, prioritised_root_index1, size) =>
      if h._degree = 0 then none
      else
        let size_of_subtree := back / h._degree
        let sizes1 := h._sizes.dropLast
        let sizes2 :=
          if size_of_subtree ≠ 0 then sizes1 ++ List.replicate h._degree size_of_subtree
          else sizes1
        match h._container.getLast? with
        | none => none
        | some last =>
          let container1 := h._container.dropLast
          if prioritised_root_index1 < (container1.length : Int) then
            match writeAt container1 prioritised_root_index1 last with
            | none => none
            | some container2 =>
              match heapify _comparator h._degree container2 prioritised_root_index1 size with
              | none => none
              | some container3 =>
                some (prioritised_root,
                  { _container := container3, _degree := h._degree, _sizes := sizes2 })
          else
            some (prioritised_root,
              { _container := container1, _degree := h._degree, _sizes := sizes2 })
  | _, _ => none

/-- The method `pop()`: `poll()` with the result discarded. -/
def pop (_comparator : Int → Int → Bool) (h : postorder_heap) : Option postorder_heap :=
  match poll _comparator h with
  | none => none
  | some (_, h1) => some h1

/-- The method `size()`. -/
def size (h : postorder_heap) : Nat := h._container.length

/-- The method `empty()`. -/
def empty (h : postorder_heap) : Bool := h.size == 0

/-- Push the values of a list one by one, left to right. -/
def pushAll (_comparator : Int → Int → Bool) : postorder_heap → List Int → Option postorder_heap
  | h, [] => some h
  | h, x :: xs =>
    match push _comparator h x with
    | none => none
    | some h1 => pushAll _comparator h1 xs

/-- Call `poll()` the given number of times, collecting the returned values in call order. -/
def pollN (_comparator : Int → Int → Bool) : Nat → postorder_heap →
    Option (List Int × postorder_heap)
  | 0, h => some ([], h)
  | n + 1, h =>
    match poll _comparator h with
    | none => none
    | some (v, h1) =>
      match pollN _comparator n h1 with
      | none => none
      | some (vs, h2) => some (v :: vs, h2)

/-- Repeat `top()` followed by `pop()` the given number of times, collecting the values that
`top()` returned. -/
def topPopN (_comparator : Int → Int → Bool) : Nat → postorder_heap →
    Option (List Int × postorder_heap)
  | 0, h => some ([], h)
  | n + 1, h =>
    match top _comparator h with
    | none => none
    | some (v, h0) =>
      match pop _comparator h0 with
      | none => none
      | some h1 =>
        match topPopN _comparator n h1 with
        | none => none
        | some (vs, h2) => some (v :: vs, h2)

/-- The comparator `left < right` of the tests. -/
def ltCmp (left right : Int) : Bool := decide (left < right)

/-- The comparator `left > right` of the tests. -/
def gtCmp (left right : Int) : Bool := decide (left > right)

/-! ## Specification-level definitions -/

/-- Number of nodes of the complete tree of the given degree with `h + 1` levels. -/
def treeSize (d : Nat) : Nat → Nat
  | 0 => 1
  | h + 1 => 1 + d * treeSize d h

/-- A list is the post-order layout of a complete tree of the given degree with `h + 1`
levels in which no node is smaller than its parent: the spans of the children come first, in
order, and the root is the last element. -/
def IsHeap (d : Nat) : Nat → List Int → Prop
  | 0, l => ∃ v, l = [v]
  | h + 1, l => ∃ (cs : List (List Int)) (v : Int), l = cs.flatten ++ [v] ∧ cs.length = d ∧
      ∀ c ∈ cs, IsHeap d h c ∧ ∀ y ∈ c, v ≤ y

/-- The list is the concatenation of the child spans of a tree with `h + 1` levels, each of
them heap-ordered. -/
def SubHeaps (d : Nat) : Nat → List Int → Prop
  | 0, body => body = []
  | h + 1, body => ∃ cs : List (List Int), body = cs.flatten ∧ cs.length = d ∧
      ∀ c ∈ cs, IsHeap d h c

/-- The effect of `push` on the ledger alone: when the ledger has at least `d` entries and
its last `d` entries are equal they are replaced by the size of the merged tree, otherwise
a tree of size one is appended. -/
def pushLedger (d : Nat) (L : List Nat) : List Nat :=
  if d ≤ L.length ∧ ∀ y ∈ L.drop (L.length - d), y = L.getLastD 0 then
    L.take (L.length - d) ++ [1 + d * L.getLastD 0]
  else L ++ [1]

/-- The state is the concatenation of the given tree spans, with the ledger listing their
lengths. -/
def Rep (st : postorder_heap) (ts : List (List Int)) : Prop :=
  st._container = ts.flatten ∧ st._sizes = ts.map List.length

/-- Every span has the size of a complete tree. -/
def Shape (d : Nat) (ts : List (List Int)) : Prop :=
  ∀ t ∈ ts, ∃ h, t.length = treeSize d h

/-- Every span is a heap-ordered complete tree in post-order. -/
def Heaps (d : Nat) (ts : List (List Int)) : Prop :=
  ∀ t ∈ ts, ∃ h, IsHeap d h t

/-- The degree is `d`, the ledger entries add up to the buffer length, and every ledger entry
is the size of a complete tree. -/
def ShapeInv (d : Nat) (st : postorder_heap) : Prop :=
  st._degree = d ∧ st._sizes.sum = st._container.length ∧
    ∀ s ∈ st._sizes, ∃ h, s = treeSize d h

/-- The effect of `poll` on the ledger alone: the last entry is removed and, when it is the
size of a tree with children, replaced by `d` entries for the child trees. -/
def pollLedger (d : Nat) (L : List Nat) : List Nat :=
  if L.getLastD 0 / d ≠ 0 then L.dropLast ++ List.replicate d (L.getLastD 0 / d)
  else L.dropLast

/-- The ledger fits the buffer: its entries add up to the buffer length and are positive. -/
def ledgerFits (st : postorder_heap) : Bool :=
  decide (st._sizes.sum = st._container.length) && st._sizes.all (fun s => decide (0 < s))

/-- Call `pop()` the given number of times. -/
def popN (_comparator : Int → Int → Bool) : Nat → postorder_heap → Option postorder_heap
  | 0, h => some h
  | n + 1, h =>
    match pop _comparator h with
    | none => none
    | some h1 => popN _comparator n h1

/-- The states reached from the empty heap of degree `d` by calls of `push` and `poll`. -/
inductive Reachable (cmp : Int → Int → Bool) (d : Nat) : postorder_heap → Prop
  | init : Reachable cmp d (postorder_heap.new d)
  | step_push {st st1 : postorder_heap} {x : Int} :
      Reachable cmp d st → postorder_heap.push cmp st x = some st1 → Reachable cmp d st1
  | step_poll {st st1 : postorder_heap} {v : Int} :
      Reachable cmp d st → postorder_heap.poll cmp st = some (v, st1) → Reachable cmp d st1

/-- Cut a buffer into consecutive spans of the given lengths; `none` when the lengths do not
add up to the length of the buffer. -/
def cutSpans : List Nat → List Int → Option (List (List Int))
  | [], [] => some []
  | [], _ :: _ => none
  | s :: L, buf =>
    if s ≤ buf.length then
      match cutSpans L (buf.drop s) with
      | none => none
      | some spans => some (buf.take s :: spans)
    else none

/-- Heap order of the tree of `s` nodes whose root sits at index `r` of the buffer, checked
through the post-order child addresses: either the tree is a single node, or
`s = 1 + d * cs` with `cs > 0` and for every `k = 1, ..., d` the node at index
`r - 1 - (k - 1) * cs` is not smaller than the node at `r` and is the root of a heap-ordered
tree of `cs` nodes.  The first argument bounds the depth of the descent. -/
def heapOrderedAt (d : Nat) (buf : List Int) : Nat → Int → Nat → Bool
  | 0, _, _ => false
  | fuel + 1, r, s =>
    if s = 1 then (readAt buf r).isSome
    else
      let cs := (s - 1) / d
      decide (s = 1 + d * cs) && decide (0 < cs) &&
        (List.range d).all (fun k0 =>
          let ci : Int := r - 1 - (k0 : Int) * (cs : Int)
          (match readAt buf r, readAt buf ci with
            | some p, some c => !ltCmp c p
            | _, _ => false) && heapOrderedAt d buf fuel ci cs)

/-- The span is a heap-ordered complete tree of degree `d` in post-order: its root is its last
slot and the tree fills the span. -/
def isHeapSpan (d : Nat) (span : List Int) : Bool :=
  heapOrderedAt d span span.length ((span.length : Int) - 1) span.length

/-- Push the values into the empty heap of the given degree, then call `poll()` the given
number of times: the values returned by the polls. -/
def pushThenPoll (_comparator : Int → Int → Bool) (degree : Nat) (xs : List Int) (n : Nat) :
    Option (List Int) :=
  match pushAll _comparator (new degree) xs with
  | none => none
  | some st =>
    match pollN _comparator n st with
    | none => none
    | some (vs, _) => some vs

/-- Push the values into the empty heap of the given degree, then read `top()` and call
`pop()` until the heap is empty: the values returned by `top()`. -/
def pushThenTopPop (_comparator : Int → Int → Bool) (degree : Nat) (xs : List Int) :
    Option (List Int) :=
  match pushAll _comparator (new degree) xs with
  | none => none
  | some st =>
    match topPopN _comparator xs.length st with
    | none => none
    | some (vs, _) => some vs

/-- The ledger invariant: the entries are sizes of complete trees in non-increasing order, no
size occurs more than `d` times, and a size that occurs `d` times is the smallest one. -/
def LedgerInv (d : Nat) (L : List Nat) : Prop :=
  List.Pairwise (fun a b : Nat => b ≤ a) L ∧ (∀ s ∈ L, ∃ h, s = treeSize d h) ∧
    (∀ s, L.count s ≤ d) ∧ (∀ s, L.count s = d → ∀ y ∈ L, s ≤ y)

/-- The ledger has at least `n` entries and its last `n` entries are all equal. -/
def lastAllEqual (n : Nat) (L : List Nat) : Bool :=
  decide (n ≤ L.length) && (L.drop (L.length - n)).all (fun y => y == L.getLastD 0)

/-- The `n` slots of the buffer that start at index `a`. -/
def slice (buf : List Int) (a n : Nat) : List Int := (buf.drop a).take n

/-- The comparator is a strict weak ordering: irreflexive, transitive, and with a transitive
incomparability-or-after relation. -/
def StrictWeakOrder (cmp : Int → Int → Bool) : Prop :=
  (∀ a, cmp a a = false) ∧ (∀ a b c, cmp a b = true → cmp b c = true → cmp a c = true) ∧
    (∀ a b c, cmp a b = false → cmp b c = false → cmp a c = false)

/-- A list is the post-order layout of a complete tree of the given degree with `h + 1`
levels that is heap-ordered under the comparator: no node of a child span has priority over
the root, and the child spans are heap-ordered in the same sense. -/
def IsHeapC (cmp : Int → Int → Bool) (d : Nat) : Nat → List Int → Prop
  | 0, l => ∃ v, l = [v]
  | h + 1, l => ∃ (cs : List (List Int)) (v : Int), l = cs.flatten ++ [v] ∧ cs.length = d ∧
      ∀ c ∈ cs, IsHeapC cmp d h c ∧ ∀ y ∈ c, cmp y v = false

/-- The list is the concatenation of the child spans of a tree with `h + 1` levels, each of
them heap-ordered under the comparator. -/
def SubHeapsC (cmp : Int → Int → Bool) (d : Nat) : Nat → List Int → Prop
  | 0, body => body = []
  | h + 1, body => ∃ cs : List (List Int), body = cs.flatten ∧ cs.length = d ∧
      ∀ c ∈ cs, IsHeapC cmp d h c

/-- Heap order, under the comparator, of the tree of `s` nodes whose root sits at index `r`
of the buffer, checked through the post-order child addresses: either the tree is a single
node, or `s = 1 + d * cs` with `cs > 0` and for every `k = 1, ..., d` the node at index
`r - 1 - (k - 1) * cs` does not have priority over the node at `r` and is the root of a
heap-ordered tree of `cs` nodes.  The first argument bounds the depth of the descent. -/
def heapOrderedAtC (cmp : Int → Int → Bool) (d : Nat) (buf : List Int) :
    Nat → Int → Nat → Bool
  | 0, _, _ => false
  | fuel + 1, r, s =>
    if s = 1 then (readAt buf r).isSome
    else
      let cs := (s - 1) / d
      decide (s = 1 + d * cs) && decide (0 < cs) &&
        (List.range d).all (fun k0 =>
          let ci : Int := r - 1 - (k0 : Int) * (cs : Int)
          (match readAt buf r, readAt buf ci with
            | some p, some c => !cmp c p
            | _, _ => false) && heapOrderedAtC cmp d buf fuel ci cs)

/-- Heap order, under the comparator, of the tree of `s` nodes whose root sits at index `r`
of the buffer, with the depth of the descent bounded by `s`. -/
def heapOrderedTree (cmp : Int → Int → Bool) (d : Nat) (buf : List Int) (r : Int) (s : Nat) :
    Bool :=
  heapOrderedAtC cmp d buf s r s

/-- How a call of the source ends: it returns a result, it leaves by signalling an error (a
thrown exception or a failed assertion), or its behaviour is undefined (an access outside a
vector, `back()` of an empty vector, a division by zero, a loop that never ends). -/
inductive Outcome (α : Type) where
  | returned (result : α)
  | signalled
  | undefined
deriving DecidableEq

/-- Outcome of a call that is embedded as an `Option`.  The source contains no `throw` and no
assertion, so such a call either returns or has undefined behaviour; it never signals. -/
def Outcome.ofOption {α : Type} : Option α → Outcome α
  | some result => Outcome.returned result
  | none => Outcome.undefined

/-- Outcome of the constructor call `postorder_heap(compare, degree)`: the member initialisers
run and the empty body returns; no statement inspects the degree. -/
def construct (degree : Nat) : Outcome postorder_heap := Outcome.returned (new degree)

/-- Outcome of the call `top()`. -/
def topOutcome (_comparator : Int → Int → Bool) (h : postorder_heap) :
    Outcome (Int × postorder_heap) :=
  Outcome.ofOption (top _comparator h)

/-- Outcome of the call `poll()`. -/
def pollOutcome (_comparator : Int → Int → Bool) (h : postorder_heap) :
    Outcome (Int × postorder_heap) :=
  Outcome.ofOption (poll _comparator h)

/-- Outcome of the call `pop()`. -/
def popOutcome (_comparator : Int → Int → Bool) (h : postorder_heap) : Outcome postorder_heap :=
  Outcome.ofOption (pop _comparator h)

end postorder_heap

/-- State of a `post_order_heap<int, std::vector<int>, Compare>`, the variant of
`post_order_heap.cpp`: the members `_container`, `_degree` and `_sizes`.  The member
`_comparator` is passed to the operations as an argument. -/
structure post_order_heap where
  _container : List Int
  _degree : Nat
  _sizes : List Nat
deriving DecidableEq

namespace post_order_heap

/-- The constructor `post_order_heap(Compare compare, int degree)`: empty buffer, empty
ledger. -/
def new (degree : Nat) : post_order_heap :=
  { _container := [], _degree := degree, _sizes := [] }

/-- Outcome of the constructor call `post_order_heap(compare, degree)`: the member
initialisers run and the empty body returns; no statement inspects the degree. -/
def construct (degree : Nat) : postorder_heap.Outcome post_order_heap :=
  postorder_heap.Outcome.returned (new degree)

/-- The `for (child_offset = 1; index < _degree; child_offset++)` loop of `heapify` in
`post_order_heap.cpp`.  Its condition tests `index`, which the body never changes, and the
body updates `prioritised_child_index` but not `prioritised_child`.  The first argument is the
fuel; the result is `prioritised_child_index`. -/
def heapifyChildren (_comparator : Int → Int → Bool) (_degree : Nat) (c : List Int)
    (index right_child_index : Int) (size_of_subtree : Nat) (prioritised_child : Int) :
    Nat → Nat → Int → Option Int
  | 0, _, _ => none
  | fuel + 1, child_offset, prioritised_child_index =>
    if index < (_degree : Int) then
      let childIndex : Int := right_child_index - ((child_offset : Int) * (size_of_subtree : Int))
      match postorder_heap.readAt c childIndex with
      | none => none
      | some child =>
        if _comparator child prioritised_child then
          heapifyChildren _comparator _degree c index right_child_index size_of_subtree
            prioritised_child fuel (child_offset + 1) childIndex
        else
          heapifyChildren _comparator _degree c index right_child_index size_of_subtree
            prioritised_child fuel (child_offset + 1) prioritised_child_index
    else some prioritised_child_index

/-- The `while (size_of_subtree > 1)` loop of `heapify` in `post_order_heap.cpp` followed by
the final `_container[index] = value`.  The first argument is the fuel. -/
def heapifyLoop (_comparator : Int → Int → Bool) (_degree : Nat) (value : Int) :
    Nat → List Int → Int → Nat → Option (List Int)
  | 0, _, _, _ => none
  | fuel + 1, c, index, size_of_subtree =>
    if size_of_subtree > 1 then
      if _degree = 0 then none
      else
        let size_of_subtree1 := size_of_subtree / _degree
        let right_child_index : Int := index - 1
        match postorder_heap.readAt c right_child_index with
        | none => none
        | some prioritised_child =>
          match heapifyChildren _comparator _degree c index right_child_index size_of_subtree1
              prioritised_child (c.length + 2) 1 right_child_index with
          | none => none
          | some prioritised_child_index =>
            if !_comparator prioritised_child value then
              postorder_heap.writeAt c index value
            else
              match postorder_heap.writeAt c index prioritised_child with
              | none => none
              | some c1 =>
                heapifyLoop _comparator _degree value fuel c1 prioritised_child_index
                  size_of_subtree1
    else postorder_heap.writeAt c index value

/-- The method `heapify(index, size_of_subtree)` of `post_order_heap.cpp` acting on the
buffer. -/
def heapify (_comparator : Int → Int → Bool) (_degree : Nat) (c : List Int) (index : Int)
    (size_of_subtree : Nat) : Option (List Int) :=
  match postorder_heap.readAt c index with
  | none => none
  | some value =>
    heapifyLoop _comparator _degree value (size_of_subtree + 1) c index size_of_subtree

/-- The method `insert(element)` of `post_order_heap.cpp`.  Its merge test is the loop of
`postorder_heap::push`, statement for statement. -/
def insert (_comparator : Int → Int → Bool) (h : post_order_heap) (element : Int) :
    Option post_order_heap :=
  let container := h._container ++ [element]
  if h._degree ≤ h._sizes.length then
    match postorder_heap.pushShouldMerge h._sizes (h._degree - 1) 1 true with
    | none => none
    | some should_merge_trees =>
      if should_merge_trees then
        match postorder_heap.readAt h._sizes ((h._sizes.length : Int) - 1) with
        | none => none
        | some last_size =>
          let size_of_subtree := 1 + h._degree * last_size
          let root_of_subtree : Int := (container.length : Int) - 1
          match postorder_heap.popBackN h._degree h._sizes with
          | none => none
          | some sizes1 =>
            match heapify _comparator h._degree container root_of_subtree size_of_subtree with
            | none => none
            | some container1 =>
              some { _container := container1, _degree := h._degree,
                     _sizes := sizes1 ++ [size_of_subtree] }
      else some { _container := container, _degree := h._degree, _sizes := h._sizes ++ [1] }
  else some { _container := container, _degree := h._degree, _sizes := h._sizes ++ [1] }

/-- Insert the values of a list one by one, left to right. -/
def insertAll (_comparator : Int → Int → Bool) : post_order_heap → List Int →
    Option post_order_heap
  | h, [] => some h
  | h, x :: xs =>
    match insert _comparator h x with
    | none => none
    | some h1 => insertAll _comparator h1 xs

end post_order_heap

namespace postorder_heap

/-! ## Reading and writing in the middle of a buffer -/

theorem readAt_mid {α : Type} (A : List α) (x : α) (B : List α) (i : Int)
    (hi : i = (A.length : Int)) : readAt (A ++ x :: B) i = some x := by
  subst hi
  have h : (A ++ x :: B)[A.length]? = some x := by
    rw [List.getElem?_append_right (Nat.le_refl _)]
    simp
  simpa [readAt] using h

theorem writeAt_mid {α : Type} (A : List α) (x : α) (B : List α) (y : α) (i : Int)
    (hi : i = (A.length : Int)) : writeAt (A ++ x :: B) i y = some (A ++ y :: B) := by
  subst hi
  simp [writeAt]

theorem readAt_eq_some_iff {α : Type} (l : List α) (i : Int) (x : α) :
    readAt l i = some x ↔ ∃ A B, l = A ++ x :: B ∧ i = (A.length : Int) := by
  constructor
  · intro h
    unfold readAt at h
    split at h
    · simp at h
    · rename_i hneg
      obtain ⟨hlt, hx⟩ := List.getElem?_eq_some_iff.mp h
      refine ⟨l.take i.toNat, l.drop (i.toNat + 1), ?_, ?_⟩
      · rw [← hx]
        simp
      · simp [List.length_take, Nat.min_eq_left (Nat.le_of_lt hlt)]
        omega
  · rintro ⟨A, B, rfl, hi⟩
    exact readAt_mid A x B i hi

/-! ## Sizes of complete trees -/

theorem treeSize_pos (d h : Nat) : 0 < treeSize d h := by
  cases h <;> simp [treeSize]

theorem treeSize_succ_div (d h : Nat) (hd : 2 ≤ d) : treeSize d (h + 1) / d = treeSize d h := by
  have h0 : 0 < d := by omega
  have h1 : 1 / d = 0 := Nat.div_eq_of_lt (by omega)
  simp [treeSize, Nat.add_mul_div_left _ _ h0, h1]

theorem treeSize_zero_div (d : Nat) (hd : 2 ≤ d) : treeSize d 0 / d = 0 := by
  simp only [treeSize]
  exact Nat.div_eq_of_lt (by omega)

theorem treeSize_lt_succ (d h : Nat) (hd : 1 ≤ d) : treeSize d h < treeSize d (h + 1) := by
  have h1 : treeSize d h ≤ d * treeSize d h := Nat.le_mul_of_pos_left _ (by omega)
  simp only [treeSize]
  omega

theorem treeSize_strictMono (d : Nat) (hd : 1 ≤ d) : StrictMono (treeSize d) :=
  strictMono_nat_of_lt_succ (fun h => treeSize_lt_succ d h hd)

theorem treeSize_inj (d : Nat) (hd : 1 ≤ d) {h1 h2 : Nat} (h : treeSize d h1 = treeSize d h2) :
    h1 = h2 :=
  (treeSize_strictMono d hd).injective h

theorem lt_treeSize (d h : Nat) (hd : 1 ≤ d) : h < treeSize d h := by
  induction h with
  | zero => simp [treeSize]
  | succ k ih =>
    have := treeSize_lt_succ d k hd
    omega

/-! ## Lists of equally long chunks -/

theorem length_flatten_chunks (n : Nat) (cs : List (List Int)) (hcs : ∀ c ∈ cs, c.length = n) :
    cs.flatten.length = cs.length * n := by
  induction cs with
  | nil => simp
  | cons c cs ih =>
    have h1 : c.length = n := hcs c (List.mem_cons_self _ _)
    have h2 := ih (fun c hc => hcs c (List.mem_cons_of_mem _ hc))
    simp [h1, h2, Nat.succ_mul]
    omega

theorem exists_chunks (n : Nat) : ∀ (k : Nat) (l : List Int), l.length = k * n →
    ∃ cs : List (List Int), cs.length = k ∧ (∀ c ∈ cs, c.length = n) ∧ cs.flatten = l := by
  intro k
  induction k with
  | zero =>
    intro l hl
    refine ⟨[], rfl, by simp, ?_⟩
    simp at hl
    simp [hl]
  | succ k ih =>
    intro l hl
    have hlen : (l.drop n).length = k * n := by
      simp [List.length_drop, hl, Nat.succ_mul]
    obtain ⟨cs, h1, h2, h3⟩ := ih (l.drop n) hlen
    refine ⟨l.take n :: cs, by simp [h1], ?_, ?_⟩
    · intro c hc
      rcases List.mem_cons.mp hc with rfl | hc
      · simp [List.length_take, hl, Nat.succ_mul]
      · exact h2 c hc
    · simp [h3]

theorem exists_concat_of_length_pos {α : Type} (l : List α) (h : 0 < l.length) :
    ∃ b x, l = b ++ [x] := by
  have hne : l ≠ [] := by
    intro h0
    simp [h0] at h
  exact ⟨l.dropLast, l.getLast hne, (List.dropLast_concat_getLast hne).symm⟩

theorem exists_concat_of_length_succ {α : Type} (l : List α) (m : Nat) (h : l.length = m + 1) :
    ∃ b x, l = b ++ [x] ∧ b.length = m := by
  obtain ⟨b, x, rfl⟩ := exists_concat_of_length_pos l (by omega)
  refine ⟨b, x, rfl, ?_⟩
  simp at h
  exact h

/-! ## Heap-ordered complete trees in post-order -/

theorem IsHeap.length_eq {d : Nat} : ∀ {h : Nat} {l : List Int}, IsHeap d h l →
    l.length = treeSize d h := by
  intro h
  induction h with
  | zero =>
    rintro l ⟨v, rfl⟩
    rfl
  | succ k ih =>
    rintro l ⟨cs, v, rfl, hlen, hcs⟩
    have h1 := length_flatten_chunks (treeSize d k) cs (fun c hc => ih (hcs c hc).1)
    simp [treeSize, h1, hlen]
    omega

theorem IsHeap.subHeaps {d h : Nat} {b : List Int} {r : Int} (hl : IsHeap d h (b ++ [r])) :
    SubHeaps d h b := by
  cases h with
  | zero =>
    obtain ⟨v, hv⟩ := hl
    have := congrArg List.length hv
    simp at this
    simpa [SubHeaps] using this
  | succ k =>
    obtain ⟨cs, v, hv, hlen, hcs⟩ := hl
    obtain ⟨h1, -⟩ := List.append_inj' hv (by simp)
    exact ⟨cs, h1, hlen, fun c hc => (hcs c hc).1⟩

theorem IsHeap.root_le {d h : Nat} {b : List Int} {r : Int} (hl : IsHeap d h (b ++ [r])) :
    ∀ y ∈ b, r ≤ y := by
  cases h with
  | zero =>
    obtain ⟨v, hv⟩ := hl
    have := congrArg List.length hv
    simp at this
    subst this
    simp
  | succ k =>
    obtain ⟨cs, v, hv, hlen, hcs⟩ := hl
    obtain ⟨h1, h2⟩ := List.append_inj' hv (by simp)
    simp at h2
    subst h1 h2
    intro y hy
    obtain ⟨c, hc, hyc⟩ := List.mem_flatten.mp hy
    exact (hcs c hc).2 y hyc

/-! ## The sift-down -/

theorem heapifyChildren_spec (cmp : Int → Int → Bool) (pre post : List Int) (x : Int) (n : Nat)
    (hn : 0 < n) :
    ∀ (m : Nat) (rest scanned L R : List (List Int)) (cb : List Int) (pc : Int) (rci pi : Int),
      rest.length = m → (∀ c ∈ rest, c.length = n) → (∀ c ∈ scanned, c.length = n) →
      scanned = L ++ (cb ++ [pc]) :: R →
      rci = ((pre.length + (rest ++ scanned).flatten.length : Nat) : Int) - 1 →
      pi = ((pre.length + rest.flatten.length + L.flatten.length + cb.length : Nat) : Int) →
      ∃ (L1 R1 : List (List Int)) (cb1 : List Int) (pc1 : Int),
        heapifyChildren cmp (pre ++ (rest ++ scanned).flatten ++ x :: post) rci n m
          scanned.length pi pc
          = some (((pre.length + L1.flatten.length + cb1.length : Nat) : Int), pc1) ∧
        rest ++ scanned = L1 ++ (cb1 ++ [pc1]) :: R1 ∧
        (cmp = ltCmp → (∀ c ∈ scanned, ∀ b r, c = b ++ [r] → pc ≤ r) →
          ∀ c ∈ rest ++ scanned, ∀ b r, c = b ++ [r] → pc1 ≤ r) := by
  intro m
  induction m with
  | zero =>
    intro rest scanned L R cb pc rci pi hlen _ _ hsc _ hpi
    have hnil : rest = [] := List.length_eq_zero.mp hlen
    subst hnil
    refine ⟨L, R, cb, pc, ?_, by simpa using hsc, ?_⟩
    · simp [heapifyChildren, hpi]
    · intro _ hle
      simpa using hle
  | succ m ih =>
    intro rest scanned L R cb pc rci pi hlen hrest hscan hsc hrci hpi
    obtain ⟨rest1, c, rfl, hr1⟩ := exists_concat_of_length_succ rest m hlen
    have hc : c.length = n := hrest c (by simp)
    obtain ⟨cb0, r0, rfl⟩ := exists_concat_of_length_pos c (by omega)
    have hl : (rest1 ++ [cb0 ++ [r0]]) ++ scanned = rest1 ++ (cb0 ++ [r0]) :: scanned := by simp
    rw [hl] at hrci ⊢
    have hflat : scanned.flatten.length = scanned.length * n :=
      length_flatten_chunks n scanned hscan
    have hscan1 : ∀ c ∈ (cb0 ++ [r0]) :: scanned, c.length = n := by
      intro c1 hc1
      rcases List.mem_cons.mp hc1 with rfl | hc1
      · exact hc
      · exact hscan c1 hc1
    have hrest1 : ∀ c ∈ rest1, c.length = n := fun c1 hc1 => hrest c1 (by simp [hc1])
    have hidx : rci - ((scanned.length : Int) * (n : Int))
        = (((pre ++ rest1.flatten ++ cb0).length : Nat) : Int) := by
      simp at hc
      subst hrci
      simp only [List.flatten_append, List.flatten_cons, List.length_append, List.length_cons,
        List.length_nil, hflat]
      push_cast
      omega
    have hread : readAt (pre ++ (rest1 ++ (cb0 ++ [r0]) :: scanned).flatten ++ x :: post)
        (rci - ((scanned.length : Int) * (n : Int))) = some r0 := by
      have hbuf : pre ++ (rest1 ++ (cb0 ++ [r0]) :: scanned).flatten ++ x :: post
          = (pre ++ rest1.flatten ++ cb0) ++ r0 :: (scanned.flatten ++ x :: post) := by simp
      rw [hbuf]
      exact readAt_mid _ _ _ _ hidx
    rw [heapifyChildren]
    simp only [hread]
    by_cases hcmp : cmp r0 pc = true
    · simp only [hcmp, if_true]
      obtain ⟨L1, R1, cb1, pc1, h1, h2, h3⟩ := ih rest1 ((cb0 ++ [r0]) :: scanned) [] scanned cb0 r0
        rci (rci - ((scanned.length : Int) * (n : Int))) hr1 hrest1 hscan1 (by simp) hrci
        (by rw [hidx]; simp; omega)
      refine ⟨L1, R1, cb1, pc1, ?_, h2, ?_⟩
      · simpa using h1
      · intro hlt hle
        apply h3 hlt
        intro c1 hc1 b r hbr
        rcases List.mem_cons.mp hc1 with rfl | hc1
        · obtain ⟨-, h5⟩ := List.append_inj' hbr (by simp)
          simp at h5
          omega
        · have h6 := hle c1 hc1 b r hbr
          subst hlt
          simp [ltCmp] at hcmp
          omega
    · simp only [hcmp]
      obtain ⟨L1, R1, cb1, pc1, h1, h2, h3⟩ := ih rest1 ((cb0 ++ [r0]) :: scanned)
        ((cb0 ++ [r0]) :: L) R cb pc rci pi hr1 hrest1 hscan1 (by simp [hsc]) hrci
        (by rw [hpi]; simp; omega)
      refine ⟨L1, R1, cb1, pc1, ?_, h2, ?_⟩
      · simpa using h1
      · intro hlt hle
        apply h3 hlt
        intro c1 hc1 b r hbr
        rcases List.mem_cons.mp hc1 with rfl | hc1
        · obtain ⟨-, h5⟩ := List.append_inj' hbr (by simp)
          simp at h5
          subst hlt
          simp [ltCmp] at hcmp
          omega
        · exact hle c1 hc1 b r hbr

theorem IsHeap.all_ge_root {d h : Nat} {c b : List Int} {r : Int} (hc : IsHeap d h c)
    (hbr : c = b ++ [r]) : ∀ y ∈ c, r ≤ y := by
  subst hbr
  intro y hy
  rcases List.mem_append.mp hy with hy | hy
  · exact hc.root_le y hy
  · simp at hy
    omega

theorem heapifyLoop_spec (cmp : Int → Int → Bool) (d : Nat) (hd : 2 ≤ d) (v : Int) :
    ∀ (h fuel : Nat) (pre body post : List Int) (x : Int) (index : Int),
      body.length + 1 = treeSize d h → h + 1 ≤ fuel →
      index = ((pre.length + body.length : Nat) : Int) →
      ∃ l1, heapifyLoop cmp d v fuel (pre ++ body ++ x :: post) index (treeSize d h)
            = some (pre ++ l1 ++ post) ∧
          l1.Perm (body ++ [v]) ∧
          (cmp = ltCmp → SubHeaps d h body → IsHeap d h l1) := by
  intro h
  induction h with
  | zero =>
    intro fuel pre body post x index hlen hfuel hidx
    obtain ⟨f, rfl⟩ : ∃ f, fuel = f + 1 := ⟨fuel - 1, by omega⟩
    have hb : body = [] := by
      simp [treeSize] at hlen
      exact hlen
    subst hb
    refine ⟨[v], ?_, List.Perm.refl _, fun _ _ => ⟨v, rfl⟩⟩
    rw [heapifyLoop]
    simp only [treeSize, gt_iff_lt, lt_self_iff_false, if_false]
    have := writeAt_mid pre x post v index (by simpa using hidx)
    simpa using this
  | succ k ih =>
    intro fuel pre body post x index hlen hfuel hidx
    obtain ⟨f, rfl⟩ : ∃ f, fuel = f + 1 := ⟨fuel - 1, by omega⟩
    have hn : 0 < treeSize d k := treeSize_pos d k
    have hbody : body.length = d * treeSize d k := by
      simp only [treeSize] at hlen
      omega
    -- the child spans
    have key : ∃ cs : List (List Int), body = cs.flatten ∧ cs.length = d ∧
        (∀ c ∈ cs, c.length = treeSize d k) ∧
        (cmp = ltCmp → SubHeaps d (k + 1) body → ∀ c ∈ cs, IsHeap d k c) := by
      by_cases hs : SubHeaps d (k + 1) body
      · obtain ⟨cs, h1, h2, h3⟩ := hs
        exact ⟨cs, h1, h2, fun c hc => (h3 c hc).length_eq, fun _ _ => h3⟩
      · obtain ⟨cs, h1, h2, h3⟩ := exists_chunks (treeSize d k) d body hbody
        exact ⟨cs, h3.symm, h1, h2, fun _ hs1 => absurd hs1 hs⟩
    obtain ⟨cs, rfl, hcslen, hcs, hheap⟩ := key
    obtain ⟨rest, clast, rfl, hrest⟩ := exists_concat_of_length_succ cs (d - 1) (by omega)
    have hclast : clast.length = treeSize d k := hcs clast (by simp)
    obtain ⟨cbL, rL, rfl⟩ := exists_concat_of_length_pos clast (by omega)
    have hrestlen : ∀ c ∈ rest, c.length = treeSize d k := fun c hc => hcs c (by simp [hc])
    have hidx1 : index - 1
        = (((pre ++ rest.flatten ++ cbL).length : Nat) : Int) := by
      subst hidx
      simp only [List.flatten_append, List.flatten_cons, List.length_append, List.length_cons,
        List.length_nil, List.flatten_nil]
      push_cast
      omega
    have hread : readAt (pre ++ (rest ++ [cbL ++ [rL]]).flatten ++ x :: post) (index - 1)
        = some rL := by
      have hbuf : pre ++ (rest ++ [cbL ++ [rL]]).flatten ++ x :: post
          = (pre ++ rest.flatten ++ cbL) ++ rL :: (x :: post) := by simp
      rw [hbuf]
      exact readAt_mid _ _ _ _ hidx1
    obtain ⟨L1, R1, cb1, pc1, hch, hdec, hmin⟩ := heapifyChildren_spec cmp pre post x
      (treeSize d k) hn (d - 1) rest [cbL ++ [rL]] [] [] cbL rL (index - 1) (index - 1) hrest
      hrestlen (by simpa using hclast) (by simp) (by rw [hidx]) (by rw [hidx1]; simp; omega)
    have hmin1 : cmp = ltCmp → ∀ c ∈ rest ++ [cbL ++ [rL]], ∀ b r, c = b ++ [r] → pc1 ≤ r := by
      intro hlt
      apply hmin hlt
      intro c hc b r hbr
      simp at hc
      subst hc
      obtain ⟨-, h5⟩ := List.append_inj' hbr (by simp)
      simp at h5
      omega
    have hd0 : d ≠ 0 := by omega
    have hgt : treeSize d (k + 1) > 1 := by
      have := treeSize_lt_succ d k (by omega)
      omega
    rw [heapifyLoop]
    simp only [hgt, if_true, hd0, if_false, treeSize_succ_div d k hd, hread]
    simp only [List.length_singleton] at hch
    simp only [hch]
    have hwrite : ∀ y, writeAt (pre ++ (rest ++ [cbL ++ [rL]]).flatten ++ x :: post) index y
        = some (pre ++ (rest ++ [cbL ++ [rL]]).flatten ++ y :: post) := by
      intro y
      have := writeAt_mid (pre ++ (rest ++ [cbL ++ [rL]]).flatten) x post y index
        (by rw [hidx]; simp)
      simpa using this
    by_cases hcmp : cmp pc1 v = true
    · -- the prioritised child moves up and the loop descends into its span
      simp only [hcmp, Bool.not_true, hwrite]
      have hcb1 : (cb1 ++ [pc1]).length = treeSize d k := hcs _ (by rw [hdec]; simp)
      have hB1 : pre ++ (rest ++ [cbL ++ [rL]]).flatten ++ pc1 :: post
          = (pre ++ L1.flatten) ++ cb1 ++ pc1 :: (R1.flatten ++ pc1 :: post) := by
        rw [hdec]
        simp
      obtain ⟨l2, hl2, hperm, hheap2⟩ := ih f (pre ++ L1.flatten) cb1
        (R1.flatten ++ pc1 :: post) pc1
        (((pre.length + L1.flatten.length + cb1.length : Nat) : Int))
        (by simpa using hcb1) (by omega) (by simp)
      refine ⟨(L1 ++ l2 :: R1).flatten ++ [pc1], ?_, ?_, ?_⟩
      · simp only [Bool.false_eq_true, if_false]
        rw [hB1, hl2]
        simp
      · rw [hdec]
        rw [List.perm_iff_count]
        intro a
        have := hperm.count_eq a
        simp only [List.flatten_append, List.flatten_cons, List.count_append, List.count_cons,
          List.count_nil] at this ⊢
        omega
      · intro hlt hs
        have hall := hheap hlt hs
        have hcs1 : IsHeap d k (cb1 ++ [pc1]) := hall _ (by rw [hdec]; simp)
        refine ⟨L1 ++ l2 :: R1, pc1, rfl, ?_, ?_⟩
        · have := congrArg List.length hdec
          simp at this ⊢
          simp at hcslen
          omega
        · intro c hc
          have hc1 : c = l2 ∨ c ∈ rest ++ [cbL ++ [rL]] := by
            rw [hdec]
            simp at hc ⊢
            tauto
          rcases hc1 with rfl | hc1
          · refine ⟨hheap2 hlt hcs1.subHeaps, ?_⟩
            intro y hy
            have hy1 := hperm.mem_iff.mp hy
            rcases List.mem_append.mp hy1 with hy2 | hy2
            · exact hcs1.root_le y hy2
            · simp at hy2
              subst hlt hy2
              simp [ltCmp] at hcmp
              omega
          · refine ⟨hall c hc1, ?_⟩
            have hclen : c.length = treeSize d k := hcs c hc1
            obtain ⟨b, r, hbr⟩ := exists_concat_of_length_pos c (by omega)
            intro y hy
            have h7 := (hall c hc1).all_ge_root hbr y hy
            have h8 := hmin1 hlt c hc1 b r hbr
            omega
    · -- the held value already has priority over every child
      simp only [hcmp, Bool.not_false, if_true, hwrite]
      refine ⟨(rest ++ [cbL ++ [rL]]).flatten ++ [v], by simp, List.Perm.refl _, ?_⟩
      intro hlt hs
      have hall := hheap hlt hs
      refine ⟨rest ++ [cbL ++ [rL]], v, rfl, hcslen, ?_⟩
      intro c hc
      refine ⟨hall c hc, ?_⟩
      have hclen : c.length = treeSize d k := hcs c hc
      obtain ⟨b, r, hbr⟩ := exists_concat_of_length_pos c (by omega)
      intro y hy
      have h7 := (hall c hc).all_ge_root hbr y hy
      have h8 := hmin1 hlt c hc b r hbr
      subst hlt
      simp [ltCmp] at hcmp
      omega

theorem heapify_spec (cmp : Int → Int → Bool) (d : Nat) (hd : 2 ≤ d) (h : Nat)
    (pre body post : List Int) (x : Int) (index : Int)
    (hlen : body.length + 1 = treeSize d h)
    (hidx : index = ((pre.length + body.length : Nat) : Int)) :
    ∃ l1, heapify cmp d (pre ++ body ++ x :: post) index (treeSize d h)
          = some (pre ++ l1 ++ post) ∧
        l1.Perm (body ++ [x]) ∧
        (cmp = ltCmp → SubHeaps d h body → IsHeap d h l1) := by
  have hread : readAt (pre ++ body ++ x :: post) index = some x :=
    readAt_mid (pre ++ body) x post index (by rw [hidx]; simp)
  have hfuel : h + 1 ≤ treeSize d h + 1 := by
    have := lt_treeSize d h (by omega)
    omega
  obtain ⟨l1, h1, h2, h3⟩ := heapifyLoop_spec cmp d hd x h (treeSize d h + 1) pre body post x
    index hlen hfuel hidx
  refine ⟨l1, ?_, h2, h3⟩
  unfold heapify
  simp only [hread]
  exact h1

/-! ## The ledger of `push` -/

theorem pushShouldMerge_spec : ∀ (n : Nat) (pre : List Nat) (a : Nat) (suf : List Nat)
    (b : Bool), n ≤ pre.length →
    ∃ b1, pushShouldMerge (pre ++ a :: suf) n (suf.length + 1) b = some b1 ∧
      (b1 = true ↔ b = true ∧ ∀ y ∈ pre.drop (pre.length - n), y = a) := by
  intro n
  induction n with
  | zero =>
    intro pre a suf b _
    exact ⟨b, rfl, by simp⟩
  | succ n ih =>
    intro pre a suf b hn
    obtain ⟨pre1, a1, rfl, hp1⟩ := exists_concat_of_length_succ pre (pre.length - 1) (by omega)
    have hn1 : n ≤ pre1.length := by
      simp at hn
      omega
    have hl : (pre1 ++ [a1]) ++ a :: suf = pre1 ++ a1 :: (a :: suf) := by simp
    have hr1 : readAt ((pre1 ++ [a1]) ++ a :: suf)
        ((((pre1 ++ [a1]) ++ a :: suf).length : Int) - ((suf.length + 1 : Nat) : Int))
        = some a := by
      apply readAt_mid
      simp
      omega
    have hr2 : readAt ((pre1 ++ [a1]) ++ a :: suf)
        ((((pre1 ++ [a1]) ++ a :: suf).length : Int) - ((suf.length + 1 : Nat) : Int) - 1)
        = some a1 := by
      rw [hl]
      apply readAt_mid
      simp
      omega
    obtain ⟨b1, h1, h2⟩ := ih pre1 a1 (a :: suf) (b && (a == a1)) hn1
    refine ⟨b1, ?_, ?_⟩
    · rw [pushShouldMerge]
      simp only [hr1, hr2]
      rw [hl]
      simpa using h1
    · rw [h2]
      have hdrop : (pre1 ++ [a1]).drop ((pre1 ++ [a1]).length - (n + 1))
          = pre1.drop (pre1.length - n) ++ [a1] := by
        have : (pre1 ++ [a1]).length - (n + 1) = pre1.length - n := by simp
        rw [this, List.drop_append_of_le_length (by omega)]
      rw [hdrop]
      simp only [Bool.and_eq_true, beq_iff_eq, List.mem_append, List.mem_singleton]
      constructor
      · rintro ⟨⟨hb, rfl⟩, h3⟩
        refine ⟨hb, ?_⟩
        rintro y (hy | rfl)
        · exact h3 y hy
        · rfl
      · rintro ⟨hb, h3⟩
        have ha : a1 = a := h3 a1 (Or.inr rfl)
        subst ha
        exact ⟨⟨hb, rfl⟩, fun y hy => h3 y (Or.inl hy)⟩

theorem popBackN_spec {α : Type} : ∀ (n : Nat) (l : List α), n ≤ l.length →
    popBackN n l = some (l.take (l.length - n)) := by
  intro n
  induction n with
  | zero =>
    intro l _
    simp [popBackN]
  | succ n ih =>
    intro l hn
    have hne : l ≠ [] := by
      intro h0
      simp [h0] at hn
    have hdl : n ≤ l.dropLast.length := by
      simp
      omega
    rw [popBackN]
    simp only [List.isEmpty_eq_true, hne, if_false]
    rw [ih l.dropLast hdl, List.dropLast_eq_take, List.take_take]
    simp only [List.length_take]
    congr 2
    omega

/-! ## Forests -/

theorem Heaps.shape {d : Nat} {ts : List (List Int)} (h : Heaps d ts) : Shape d ts := by
  intro t ht
  obtain ⟨k, hk⟩ := h t ht
  exact ⟨k, hk.length_eq⟩

theorem push_spec (cmp : Int → Int → Bool) (d : Nat) (hd : 2 ≤ d) (st : postorder_heap)
    (ts : List (List Int)) (x : Int) (hdeg : st._degree = d) (hrep : Rep st ts)
    (hshape : Shape d ts) :
    ∃ st1 ts1, push cmp st x = some st1 ∧ st1._degree = d ∧ Rep st1 ts1 ∧ Shape d ts1 ∧
      st1._container.Perm (st._container ++ [x]) ∧
      (cmp = ltCmp → Heaps d ts → Heaps d ts1) ∧
      st1._sizes = pushLedger d st._sizes := by
  obtain ⟨hcont, hsizes⟩ := hrep
  -- the outcome when no merge takes place
  have hplain : ∃ ts1, d = d ∧
      Rep { _container := st._container ++ [x], _degree := st._degree,
            _sizes := st._sizes ++ [1] } ts1 ∧ Shape d ts1 ∧
      (cmp = ltCmp → Heaps d ts → Heaps d ts1) := by
    refine ⟨ts ++ [[x]], rfl, ⟨by simp [hcont], by simp [hsizes]⟩, ?_, ?_⟩
    · intro t ht
      rcases List.mem_append.mp ht with ht | ht
      · exact hshape t ht
      · simp at ht
        subst ht
        exact ⟨0, rfl⟩
    · intro _ hh t ht
      rcases List.mem_append.mp ht with ht | ht
      · exact hh t ht
      · simp at ht
        subst ht
        exact ⟨0, x, rfl⟩
  obtain ⟨tsP, -, hrepP, hshapeP, hheapP⟩ := hplain
  by_cases hle : d ≤ st._sizes.length
  · obtain ⟨pre, a, hpa, -⟩ := exists_concat_of_length_succ st._sizes (st._sizes.length - 1)
      (by omega)
    have hprelen : d - 1 ≤ pre.length := by
      have := congrArg List.length hpa
      simp at this
      omega
    obtain ⟨b1, hb1, hb1iff⟩ := pushShouldMerge_spec (d - 1) pre a [] true hprelen
    have hlast : st._sizes.getLastD 0 = a := by simp [hpa]
    have hdropL : st._sizes.drop (st._sizes.length - d)
        = pre.drop (pre.length - (d - 1)) ++ [a] := by
      rw [hpa]
      have : (pre ++ [a]).length - d = pre.length - (d - 1) := by
        simp
        omega
      rw [this, List.drop_append_of_le_length (by omega)]
    have hcond : (d ≤ st._sizes.length ∧ ∀ y ∈ st._sizes.drop (st._sizes.length - d),
        y = st._sizes.getLastD 0) ↔ b1 = true := by
      rw [hb1iff, hdropL, hlast]
      simp only [List.mem_append, List.mem_singleton, true_and]
      constructor
      · rintro ⟨-, h⟩ y hy
        exact h y (Or.inl hy)
      · intro h
        refine ⟨hle, ?_⟩
        rintro y (hy | rfl)
        · exact h y hy
        · rfl
    have hb1b : pushShouldMerge st._sizes (d - 1) 1 true = some b1 := by
      rw [hpa]
      simpa using hb1
    cases hbv : b1 with
    | false =>
      subst hbv
      refine ⟨{ _container := st._container ++ [x], _degree := st._degree,
                _sizes := st._sizes ++ [1] }, tsP, ?_, hdeg, hrepP, hshapeP, ?_, hheapP, ?_⟩
      · unfold push
        simp only [hdeg, hle, if_true, hb1b]
        simp
      · exact List.Perm.refl _
      · have hc : ¬ (d ≤ st._sizes.length ∧ ∀ y ∈ st._sizes.drop (st._sizes.length - d),
            y = st._sizes.getLastD 0) := by
          rw [hcond]
          simp
        simp only [pushLedger, hc, if_false]
    | true =>
      subst hbv
      have hall : ∀ y ∈ st._sizes.drop (st._sizes.length - d), y = a := by
        have := hcond.mpr rfl
        rw [hlast] at this
        exact this.2
      have hreadlast : readAt st._sizes ((st._sizes.length : Int) - 1) = some a := by
        rw [hpa]
        apply readAt_mid
        simp
      have hpop := popBackN_spec d st._sizes hle
      -- split the forest into the trees that stay and the `d` trees that are merged
      have htslen : ts.length = st._sizes.length := by simp [hsizes]
      have hts : ts = ts.take (ts.length - d) ++ ts.drop (ts.length - d) :=
        (List.take_append_drop _ _).symm
      have hcslen : (ts.drop (ts.length - d)).length = d := by
        simp
        omega
      have hcs : ∀ c ∈ ts.drop (ts.length - d), c.length = a := by
        intro c hc
        apply hall
        rw [← htslen, hsizes, ← List.map_drop]
        exact List.mem_map_of_mem _ hc
      have hlastmem : ∃ t ∈ ts, t.length = a := by
        have : a ∈ st._sizes := by rw [hpa]; simp
        rw [hsizes] at this
        obtain ⟨t, ht, hta⟩ := List.mem_map.mp this
        exact ⟨t, ht, hta⟩
      obtain ⟨tl, htl, htla⟩ := hlastmem
      obtain ⟨k, hk⟩ := hshape tl htl
      have hak : a = treeSize d k := by omega
      have hbodylen : (ts.drop (ts.length - d)).flatten.length + 1 = treeSize d (k + 1) := by
        rw [length_flatten_chunks a _ hcs, hcslen]
        simp only [treeSize, hak]
        omega
      have hbuf : st._container ++ [x]
          = (ts.take (ts.length - d)).flatten ++ (ts.drop (ts.length - d)).flatten ++ x :: [] := by
        have hfl : (ts.take (ts.length - d)).flatten ++ (ts.drop (ts.length - d)).flatten
            = ts.flatten := by
          rw [← List.flatten_append, List.take_append_drop]
        rw [hcont, hfl]
      obtain ⟨l1, hl1, hperm, hheap1⟩ := heapify_spec cmp d hd (k + 1)
        (ts.take (ts.length - d)).flatten (ts.drop (ts.length - d)).flatten [] x
        (((st._container ++ [x]).length : Int) - 1) hbodylen
        (by
          have := congrArg List.length hbuf
          simp only [List.length_append, List.length_cons, List.length_nil] at this
          simp only [List.length_append, List.length_cons, List.length_nil]
          omega)
      have hsize : 1 + st._degree * a = treeSize d (k + 1) := by
        simp only [treeSize, hak, hdeg]
      have hl1len : l1.length = 1 + d * a := by
        rw [hperm.length_eq]
        simp only [List.length_append, List.length_singleton]
        rw [length_flatten_chunks a _ hcs, hcslen]
        omega
      have hsized : 1 + d * a = treeSize d (k + 1) := by simp only [treeSize, hak]
      refine ⟨{ _container := (ts.take (ts.length - d)).flatten ++ l1 ++ [], _degree := d,
                _sizes := st._sizes.take (st._sizes.length - d) ++ [1 + d * a] },
        ts.take (ts.length - d) ++ [l1], ?_, ?_, ⟨?_, ?_⟩, ?_, ?_, ?_, ?_⟩
      · unfold push
        simp only [hle, hdeg, if_true, hb1b, hreadlast, hpop]
        rw [hbuf] at hl1
        rw [hsized, hbuf, hl1]
      · rfl
      · simp
      · simp only [List.map_append, List.map_take, List.map_cons, List.map_nil, hl1len,
          ← hsizes, htslen, hdeg]
      · intro t ht
        rcases List.mem_append.mp ht with ht | ht
        · exact hshape t (List.mem_of_mem_take ht)
        · simp at ht
          subst ht
          exact ⟨k + 1, by rw [hl1len]; simp only [treeSize, hak]⟩
      · show (((ts.take (ts.length - d)).flatten ++ l1 ++ []).Perm (st._container ++ [x]))
        rw [hbuf]
        simp only [List.append_nil, List.append_assoc]
        exact List.Perm.append_left _ hperm
      · intro hlt hh t ht
        rcases List.mem_append.mp ht with ht | ht
        · exact hh t (List.mem_of_mem_take ht)
        · simp at ht
          subst ht
          refine ⟨k + 1, hheap1 hlt ⟨ts.drop (ts.length - d), rfl, hcslen, ?_⟩⟩
          intro c hc
          obtain ⟨k1, hk1⟩ := hh c (List.mem_of_mem_drop hc)
          have : treeSize d k1 = treeSize d k := by
            rw [← hk1.length_eq, hcs c hc, hak]
          have hkk := treeSize_inj d (by omega) this
          subst hkk
          exact hk1
      · simp only [pushLedger, hlast, hle, true_and]
        rw [if_pos hall]
  · refine ⟨{ _container := st._container ++ [x], _degree := st._degree,
              _sizes := st._sizes ++ [1] }, tsP, ?_, hdeg, hrepP, hshapeP, ?_, hheapP, ?_⟩
    · unfold push
      simp only [hdeg, hle, if_false]
    · exact List.Perm.refl _
    · have hc : ¬ (d ≤ st._sizes.length ∧ ∀ y ∈ st._sizes.drop (st._sizes.length - d),
          y = st._sizes.getLastD 0) := fun h => hle h.1
      simp only [pushLedger, hc, if_false]

/-! ## The shape invariant: ledger and buffer agree -/

theorem exists_rep : ∀ (sizes : List Nat) (c : List Int), sizes.sum = c.length →
    ∃ ts : List (List Int), c = ts.flatten ∧ sizes = ts.map List.length := by
  intro sizes
  induction sizes with
  | nil =>
    intro c hc
    refine ⟨[], ?_, rfl⟩
    simp at hc
    simpa using hc.symm
  | cons s sizes ih =>
    intro c hc
    simp at hc
    obtain ⟨ts, h1, h2⟩ := ih (c.drop s) (by simp; omega)
    refine ⟨c.take s :: ts, ?_, ?_⟩
    · simp [← h1]
    · simp [← h2]
      omega

theorem ShapeInv.exists_forest {d : Nat} {st : postorder_heap} (h : ShapeInv d st) :
    ∃ ts, Rep st ts ∧ Shape d ts := by
  obtain ⟨-, hsum, hall⟩ := h
  obtain ⟨ts, h1, h2⟩ := exists_rep st._sizes st._container hsum
  refine ⟨ts, ⟨h1, h2⟩, ?_⟩
  intro t ht
  exact hall t.length (by rw [h2]; exact List.mem_map_of_mem _ ht)

theorem ShapeInv.of_forest {d : Nat} {st : postorder_heap} {ts : List (List Int)}
    (hdeg : st._degree = d) (hrep : Rep st ts) (hshape : Shape d ts) : ShapeInv d st := by
  obtain ⟨h1, h2⟩ := hrep
  refine ⟨hdeg, ?_, ?_⟩
  · rw [h1, h2, List.length_flatten]
  · intro s hs
    rw [h2] at hs
    obtain ⟨t, ht, rfl⟩ := List.mem_map.mp hs
    exact hshape t ht

theorem shapeInv_new (d : Nat) : ShapeInv d (new d) := by
  refine ⟨rfl, rfl, ?_⟩
  intro s hs
  simp [postorder_heap.new] at hs

theorem push_shape (cmp : Int → Int → Bool) (d : Nat) (hd : 2 ≤ d) (st : postorder_heap)
    (x : Int) (hinv : ShapeInv d st) :
    ∃ st1, push cmp st x = some st1 ∧ ShapeInv d st1 ∧
      st1._container.Perm (st._container ++ [x]) ∧ st1._sizes = pushLedger d st._sizes := by
  obtain ⟨ts, hrep, hshape⟩ := hinv.exists_forest
  obtain ⟨st1, ts1, h1, h2, h3, h4, h5, -, h7⟩ := push_spec cmp d hd st ts x hinv.1 hrep hshape
  exact ⟨st1, h1, ShapeInv.of_forest h2 h3 h4, h5, h7⟩

/-- Split a list at a position inside it. -/
theorem exists_split_at {α : Type} (l : List α) (k : Nat) (hk : k < l.length) :
    ∃ A x B, l = A ++ x :: B ∧ A.length = k := by
  refine ⟨l.take k, l[k], l.drop (k + 1), ?_, ?_⟩
  · simp
  · simp [List.length_take]
    omega

/-- Split off the last `k` elements of a list. -/
theorem exists_split_suffix {α : Type} (l : List α) (k : Nat) (hk : k ≤ l.length) :
    ∃ A B, l = A ++ B ∧ B.length = k := by
  refine ⟨l.take (l.length - k), l.drop (l.length - k), (List.take_append_drop _ _).symm, ?_⟩
  simp
  omega

/-- On a span that lies inside the buffer `heapify` returns, and it permutes the buffer. -/
theorem heapify_total (cmp : Int → Int → Bool) (d : Nat) (hd : 2 ≤ d) (c : List Int)
    (index : Int) (h : Nat) (h0 : (treeSize d h : Int) ≤ index + 1)
    (h1 : index < (c.length : Int)) :
    ∃ c1, heapify cmp d c index (treeSize d h) = some c1 ∧ c1.Perm c := by
  have hpos := treeSize_pos d h
  obtain ⟨A, x, post, rfl, hA⟩ := exists_split_at c index.toNat (by omega)
  obtain ⟨pre, body, rfl, hbody⟩ := exists_split_suffix A (treeSize d h - 1)
    (by simp at h1; omega)
  obtain ⟨l1, hl1, hperm, -⟩ := heapify_spec cmp d hd h pre body post x index (by omega)
    (by simp at hA; omega)
  refine ⟨pre ++ l1 ++ post, hl1, ?_⟩
  have h2 : (pre ++ body ++ x :: post) = pre ++ ((body ++ [x]) ++ post) := by simp
  rw [h2, List.append_assoc]
  exact List.Perm.append_left _ (List.Perm.append_right _ hperm)

theorem readAt_of_bounds {α : Type} (l : List α) (i : Int) (h0 : 0 ≤ i)
    (h1 : i < (l.length : Int)) : ∃ x, readAt l i = some x := by
  obtain ⟨A, x, B, rfl, hA⟩ := exists_split_at l i.toNat (by omega)
  exact ⟨x, readAt_mid A x B i (by omega)⟩

theorem writeAt_of_bounds {α : Type} (l : List α) (i : Int) (v : α) (h0 : 0 ≤ i)
    (h1 : i < (l.length : Int)) : ∃ l1, writeAt l i v = some l1 ∧ l1.length = l.length := by
  obtain ⟨A, x, B, rfl, hA⟩ := exists_split_at l i.toNat (by omega)
  exact ⟨A ++ v :: B, writeAt_mid A x B v i (by omega), by simp⟩

theorem sum_take_succ_nat (L : List Nat) (k : Nat) (hk : k < L.length) :
    (L.take (k + 1)).sum = (L.take k).sum + L[k] := by
  exact List.sum_take_succ L k hk

theorem sum_take_le_nat (L : List Nat) (k : Nat) : (L.take k).sum ≤ L.sum := by
  have h := List.sum_take_add_sum_drop L k
  omega

/-- The root scan of `poll` stays inside the buffer, the tree it selects lies inside the
buffer as well, and the value it selects is the value stored at the selected index. -/
theorem pollScan_bounds (cmp : Int → Int → Bool) (c : List Int) (sizes : List Nat)
    (hpos : ∀ s ∈ sizes, 0 < s) :
    ∀ (k : Nat) (cursor pr pi : Int) (size : Nat),
      k ≤ sizes.length → ((sizes.take k).sum : Int) ≤ cursor + 1 → cursor < (c.length : Int) →
      (0 ≤ pi ∧ pi < (c.length : Int) ∧ (size : Int) ≤ pi + 1 ∧ size ∈ sizes ∧
        readAt c pi = some pr) →
      ∃ pr1 pi1 size1, pollScan cmp c sizes k cursor pr pi size = some (pr1, pi1, size1) ∧
        (0 ≤ pi1 ∧ pi1 < (c.length : Int) ∧ (size1 : Int) ≤ pi1 + 1 ∧ size1 ∈ sizes ∧
          readAt c pi1 = some pr1) := by
  intro k
  induction k with
  | zero =>
    intro cursor pr pi size _ _ _ hP
    exact ⟨pr, pi, size, rfl, hP⟩
  | succ k ih =>
    intro cursor pr pi size hk hsum hcur hP
    have hk1 : k < sizes.length := by omega
    have hget : sizes[k]? = some sizes[k] := List.getElem?_eq_getElem hk1
    have hmem : sizes[k] ∈ sizes := List.getElem_mem hk1
    have hsk := hpos _ hmem
    rw [sum_take_succ_nat sizes k hk1] at hsum
    obtain ⟨e, he⟩ := readAt_of_bounds c cursor (by omega) hcur
    rw [pollScan]
    simp only [hget, he]
    by_cases hcmp : cmp e pr = true
    · simp only [hcmp, if_true]
      exact ih _ _ _ _ (by omega) (by omega) (by omega) ⟨by omega, hcur, by omega, hmem, he⟩
    · simp only [hcmp]
      exact ih _ _ _ _ (by omega) (by omega) (by omega) hP

/-- The root scan of `top` stays inside the buffer. -/
theorem topScan_bounds (cmp : Int → Int → Bool) (c : List Int) (sizes : List Nat)
    (hpos : ∀ s ∈ sizes, 0 < s) (largest_root : Int) :
    ∀ (k : Nat) (cursor pi : Int),
      k ≤ sizes.length → ((sizes.take k).sum : Int) ≤ cursor + 1 → cursor < (c.length : Int) →
      (0 ≤ pi ∧ pi < (c.length : Int)) →
      ∃ pi1, topScan cmp c sizes largest_root k cursor pi = some pi1 ∧
        (0 ≤ pi1 ∧ pi1 < (c.length : Int)) := by
  intro k
  induction k with
  | zero =>
    intro cursor pi _ _ _ hP
    exact ⟨pi, rfl, hP⟩
  | succ k ih =>
    intro cursor pi hk hsum hcur hP
    have hk1 : k < sizes.length := by omega
    have hget : sizes[k]? = some sizes[k] := List.getElem?_eq_getElem hk1
    have hmem : sizes[k] ∈ sizes := List.getElem_mem hk1
    have hsk := hpos _ hmem
    rw [sum_take_succ_nat sizes k hk1] at hsum
    obtain ⟨e, he⟩ := readAt_of_bounds c cursor (by omega) hcur
    rw [topScan]
    simp only [hget, he]
    by_cases hcmp : cmp e largest_root = true
    · simp only [hcmp, if_true]
      exact ih _ _ (by omega) (by omega) (by omega) ⟨by omega, hcur⟩
    · simp only [hcmp]
      exact ih _ _ (by omega) (by omega) (by omega) hP

theorem ShapeInv.sizes_pos {d : Nat} {st : postorder_heap} (h : ShapeInv d st) :
    ∀ s ∈ st._sizes, 0 < s := by
  intro s hs
  obtain ⟨k, rfl⟩ := h.2.2 s hs
  exact treeSize_pos d k

/-- The ledger of a non-empty state ends with the size of the rightmost tree, which is at
most the buffer length; the start of the root scan is inside the buffer. -/
theorem scan_start (st : postorder_heap) (d : Nat) (hd : 2 ≤ d)
    (hsum : st._sizes.sum = st._container.length) (hpos : ∀ s ∈ st._sizes, 0 < s)
    (hne : st._container ≠ []) :
    ∃ S back C last, st._sizes = S ++ [back] ∧ st._container = C ++ [last] ∧
      (S.sum + back : Nat) = C.length + 1 ∧ (0 : Nat) < back ∧
      ((st._sizes.length : Int) - (d : Int) + 1).toNat ≤ st._sizes.length ∧
      (((st._sizes.take ((st._sizes.length : Int) - (d : Int) + 1).toNat).sum : Nat) : Int)
        ≤ ((st._container.length : Int) - 1 - (back : Int)) + 1 := by
  have hclen : 0 < st._container.length := List.length_pos.mpr hne
  have hsne : 0 < st._sizes.length := by
    rcases Nat.eq_zero_or_pos st._sizes.length with h0 | h0
    · have := List.length_eq_zero.mp h0
      rw [this] at hsum
      simp at hsum
      omega
    · exact h0
  obtain ⟨S, back, hS⟩ := exists_concat_of_length_pos st._sizes hsne
  obtain ⟨C, last, hC⟩ := exists_concat_of_length_pos st._container hclen
  have hback : 0 < back := hpos back (by rw [hS]; simp)
  have hsum1 : S.sum + back = C.length + 1 := by
    rw [hS, hC] at hsum
    simpa using hsum
  refine ⟨S, back, C, last, hS, hC, hsum1, hback, by omega, ?_⟩
  have hk : ((st._sizes.length : Int) - (d : Int) + 1).toNat ≤ S.length := by
    rw [hS]
    simp
    omega
  have htake : ∀ k, k ≤ S.length → st._sizes.take k = S.take k := by
    intro k hk1
    rw [hS]
    exact List.take_append_of_le_length hk1
  rw [htake _ hk]
  have := sum_take_le_nat S ((st._sizes.length : Int) - (d : Int) + 1).toNat
  have hlen : st._container.length = C.length + 1 := by rw [hC]; simp
  omega

theorem pollLedger_shape (d : Nat) (hd : 2 ≤ d) (S : List Nat) (back : Nat)
    (hall : ∀ s ∈ S ++ [back], ∃ h, s = treeSize d h) :
    (pollLedger d (S ++ [back])).sum + 1 = S.sum + back ∧
      ∀ s ∈ pollLedger d (S ++ [back]), ∃ h, s = treeSize d h := by
  obtain ⟨h, hb⟩ := hall back (by simp)
  have hS : ∀ s ∈ S, ∃ h, s = treeSize d h := fun s hs => hall s (by simp [hs])
  cases h with
  | zero =>
    have h0 : back / d = 0 := by rw [hb]; exact treeSize_zero_div d hd
    simp only [pollLedger, List.getLastD_concat, h0, ne_eq, not_true_eq_false, if_false,
      List.dropLast_concat]
    exact ⟨by rw [hb]; rfl, hS⟩
  | succ k =>
    have h0 : back / d = treeSize d k := by rw [hb]; exact treeSize_succ_div d k hd
    have h1 : treeSize d k ≠ 0 := by
      have := treeSize_pos d k
      omega
    simp only [pollLedger, List.getLastD_concat, h0, ne_eq, h1, not_false_eq_true, if_true,
      List.dropLast_concat]
    constructor
    · simp only [List.sum_append, List.sum_replicate, smul_eq_mul, hb, treeSize]
      omega
    · intro s hs
      rcases List.mem_append.mp hs with hs | hs
      · exact hS s hs
      · exact ⟨k, (List.mem_replicate.mp hs).2⟩

/-- On every well-shaped non-empty state `poll` returns; it shortens the buffer by one slot,
keeps the state well-shaped, and the buffer before the call is a rearrangement of the
returned value followed by the buffer after the call. -/
theorem poll_shape (cmp : Int → Int → Bool) (d : Nat) (hd : 2 ≤ d) (st : postorder_heap)
    (hinv : ShapeInv d st) (hne : st._container ≠ []) :
    ∃ v st1, poll cmp st = some (v, st1) ∧ ShapeInv d st1 ∧
      st1._container.length + 1 = st._container.length ∧
      st1._sizes = pollLedger d st._sizes ∧
      st._container.Perm (v :: st1._container) := by
  have hpos := hinv.sizes_pos
  obtain ⟨S, back, C, last, hS, hC, hsum, hback, hk, hstart⟩ := scan_start st d hd hinv.2.1
    hpos hne
  obtain ⟨hdeg, -, hall⟩ := hinv
  obtain ⟨c, deg, sizes⟩ := st
  simp only at hS hC hk hstart hpos hdeg hall hne
  subst hdeg
  have hclen : c.length = C.length + 1 := by rw [hC]; simp
  have hgl : sizes.getLast? = some back := by rw [hS]; simp
  have hcgl : c.getLast? = some last := by rw [hC]; simp
  have hdl : c.dropLast = C := by rw [hC]; simp
  have hread : readAt c ((c.length : Int) - 1) = some last := by
    rw [hC]
    apply readAt_mid
    simp
  have hbmem : back ∈ sizes := by rw [hS]; simp
  obtain ⟨pr1, pi1, size1, hscan, hp0, hp1, hp2, hp3, hp4⟩ := pollScan_bounds cmp c sizes hpos
    ((sizes.length : Int) - (deg : Int) + 1).toNat ((c.length : Int) - 1 - (back : Int)) last
    ((c.length : Int) - 1) back hk hstart (by omega)
    ⟨by omega, by omega, by
      have := sum_take_le_nat S 0
      omega, hbmem, hread⟩
  have hd0 : deg ≠ 0 := by omega
  have hledger := pollLedger_shape deg hd S back (by rw [← hS]; exact hall)
  rw [← hS] at hledger
  have hl2 : (if back / deg ≠ 0 then sizes.dropLast ++ List.replicate deg (back / deg)
      else sizes.dropLast) = pollLedger deg sizes := by
    simp only [pollLedger, hS, List.getLastD_concat]
  unfold poll
  simp only [hgl, hread, hscan, hd0, if_false, hcgl, hdl, hl2]
  by_cases hlt : pi1 < (C.length : Int)
  · -- the selected root is not the last slot: it is overwritten and sifted down
    obtain ⟨A, B, hAB, hA⟩ := (readAt_eq_some_iff c pi1 pr1).mp hp4
    have hBne : B ≠ [] := by
      intro h0
      have := congrArg List.length hAB
      rw [h0] at this
      simp only [List.length_append, List.length_cons, List.length_nil] at this
      omega
    obtain ⟨B1, last1, hB1⟩ := exists_concat_of_length_pos B (List.length_pos.mpr hBne)
    have hCeq : C = A ++ pr1 :: B1 ∧ last1 = last := by
      have h1 : C ++ [last] = (A ++ pr1 :: B1) ++ [last1] := by
        rw [← hC, hAB, hB1]
        simp
      obtain ⟨h2, h3⟩ := List.append_inj' h1 (by simp)
      simp only [List.cons.injEq, and_true] at h3
      exact ⟨h2, h3.symm⟩
    obtain ⟨hCe, -⟩ := hCeq
    have hw : writeAt C pi1 last = some (A ++ last :: B1) := by
      rw [hCe]
      exact writeAt_mid A pr1 B1 last pi1 hA
    have hC2 : (A ++ last :: B1).length = C.length := by
      rw [hCe]
      simp
    obtain ⟨k1, hk1⟩ := hall size1 hp3
    obtain ⟨C3, hh, hperm⟩ := heapify_total cmp deg hd (A ++ last :: B1) pi1 k1 (by omega)
      (by omega)
    rw [← hk1] at hh
    simp only [hlt, if_true, hw, hh]
    refine ⟨pr1, _, rfl, ⟨rfl, ?_, hledger.2⟩, ?_, rfl, ?_⟩
    · simp only
      rw [hperm.length_eq, hC2]
      omega
    · simp only
      rw [hperm.length_eq, hC2]
      omega
    · simp only
      rw [hC, hCe, List.perm_iff_count]
      intro a
      have := hperm.count_eq a
      simp only [List.count_append, List.count_cons, List.count_nil] at this ⊢
      omega
  · -- the selected root is the last slot
    simp only [hlt, if_false]
    have hpi : pi1 = (C.length : Int) := by omega
    have hpr : pr1 = last := by
      have h1 : readAt c pi1 = some last := by
        rw [hC]
        exact readAt_mid C last [] pi1 hpi
      rw [hp4] at h1
      exact Option.some.inj h1
    refine ⟨pr1, _, rfl, ⟨rfl, ?_, hledger.2⟩, ?_, rfl, ?_⟩
    · simp only
      omega
    · simp only
      omega
    · simp only
      rw [hC, hpr]
      exact List.perm_append_singleton _ _

/-- On every non-empty state whose ledger entries are positive and add up to the buffer
length `top` returns and hands back the state it was called on. -/
theorem top_total (cmp : Int → Int → Bool) (st : postorder_heap) (hd : 2 ≤ st._degree)
    (hsum : st._sizes.sum = st._container.length) (hpos : ∀ s ∈ st._sizes, 0 < s)
    (hne : st._container ≠ []) :
    ∃ v, top cmp st = some (v, st) := by
  obtain ⟨S, back, C, last, hS, hC, -, hback, hk, hstart⟩ := scan_start st st._degree hd hsum
    hpos hne
  have hclen : st._container.length = C.length + 1 := by rw [hC]; simp
  have hgl : st._sizes.getLast? = some back := by rw [hS]; simp
  have hread : readAt st._container ((st._container.length : Int) - 1) = some last := by
    rw [hC]
    apply readAt_mid
    simp
  obtain ⟨pi1, hscan, hp0, hp1⟩ := topScan_bounds cmp st._container st._sizes hpos last
    ((st._sizes.length : Int) - (st._degree : Int) + 1).toNat
    ((st._container.length : Int) - 1 - (back : Int))
    ((st._container.length : Int) - 1) hk hstart (by omega) ⟨by omega, by omega⟩
  obtain ⟨v, hv⟩ := readAt_of_bounds st._container pi1 hp0 hp1
  refine ⟨v, ?_⟩
  unfold top
  simp only [hgl, hread, hscan, hv]

theorem Reachable.shapeInv {cmp : Int → Int → Bool} {d : Nat} (hd : 2 ≤ d)
    {st : postorder_heap} (hr : Reachable cmp d st) : ShapeInv d st := by
  induction hr with
  | init => exact shapeInv_new d
  | step_push _ hp ih =>
    obtain ⟨st2, h1, h2, -⟩ := push_shape cmp d hd _ _ ih
    rw [hp] at h1
    cases h1
    exact h2
  | step_poll _ hp ih =>
    rename_i st0 st1 v _
    have hne : st0._container ≠ [] := by
      intro h0
      unfold poll at hp
      simp [h0, readAt] at hp
    obtain ⟨v2, st2, h1, h2, -⟩ := poll_shape cmp d hd _ ih hne
    rw [hp] at h1
    cases h1
    exact h2

theorem size_ne_zero_iff (st : postorder_heap) : st.size ≠ 0 ↔ st._container ≠ [] := by
  simp [size]

theorem pushAll_shape (cmp : Int → Int → Bool) (d : Nat) (hd : 2 ≤ d) :
    ∀ (xs : List Int) (st : postorder_heap), ShapeInv d st → Reachable cmp d st →
      ∃ st1, pushAll cmp st xs = some st1 ∧ ShapeInv d st1 ∧ Reachable cmp d st1 ∧
        st1._container.Perm (st._container ++ xs) := by
  intro xs
  induction xs with
  | nil =>
    intro st hinv hr
    exact ⟨st, rfl, hinv, hr, by simp⟩
  | cons x xs ih =>
    intro st hinv hr
    obtain ⟨st1, h1, h2, h3, -⟩ := push_shape cmp d hd st x hinv
    obtain ⟨st2, h4, h5, h6, h7⟩ := ih st1 h2 (Reachable.step_push hr h1)
    refine ⟨st2, ?_, h5, h6, ?_⟩
    · simp only [pushAll, h1, h4]
    · refine h7.trans ?_
      have := List.Perm.append_right xs h3
      simpa using this

theorem popN_shape (cmp : Int → Int → Bool) (d : Nat) (hd : 2 ≤ d) :
    ∀ (n : Nat) (st : postorder_heap), ShapeInv d st → st.size = n →
      ∃ st1, popN cmp n st = some st1 ∧ st1.size = 0 := by
  intro n
  induction n with
  | zero =>
    intro st _ hn
    exact ⟨st, rfl, hn⟩
  | succ n ih =>
    intro st hinv hn
    have hne : st._container ≠ [] := (size_ne_zero_iff st).mp (by omega)
    obtain ⟨v, st1, h1, h2, h3, -⟩ := poll_shape cmp d hd st hinv hne
    obtain ⟨st2, h4, h5⟩ := ih st1 h2 (by simp only [size] at hn ⊢; omega)
    refine ⟨st2, ?_, h5⟩
    simp only [popN, pop, h1, h4]

/-- C6: for every degree `d ≥ 2`, every comparator and every list of values, pushing the
values one by one into the empty heap returns a heap whose `size()` is the number of values
pushed, and one more `push` returns a heap whose `size()` is larger by exactly one. -/
theorem push_increases_size (cmp : Int → Int → Bool) (d : Nat) (hd : 2 ≤ d) (xs : List Int)
    (x : Int) :
    ∃ st st1, pushAll cmp (new d) xs = some st ∧ st.size = xs.length ∧
      push cmp st x = some st1 ∧ st1.size = st.size + 1 := by
  obtain ⟨st, h1, h2, h3, h4⟩ := pushAll_shape cmp d hd xs (new d) (shapeInv_new d)
    Reachable.init
  obtain ⟨st1, h5, -, h7, -⟩ := push_shape cmp d hd st x h2
  refine ⟨st, st1, h1, ?_, h5, ?_⟩
  · have := h4.length_eq
    simpa [size, postorder_heap.new] using this
  · have := h7.length_eq
    simpa [size] using this

theorem push_increases_size_witness :
    2 ≤ 3 ∧ ∃ st st1, pushAll ltCmp (new 3) [5, 1, 4] = some st ∧ st.size = [5, 1, 4].length ∧
      push ltCmp st 2 = some st1 ∧ st1.size = st.size + 1 :=
  ⟨by decide, push_increases_size ltCmp 3 (by decide) [5, 1, 4] 2⟩

/-- C7: for every degree `d ≥ 2`, every comparator and every non-empty state reached from
the empty heap by pushes and polls, `poll()` returns, `pop()` leads to the same state, and
`size()` is smaller by exactly one afterwards. -/
theorem poll_decreases_size (cmp : Int → Int → Bool) (d : Nat) (hd : 2 ≤ d)
    (st : postorder_heap) (hr : Reachable cmp d st) (hne : st.size ≠ 0) :
    ∃ v st1, poll cmp st = some (v, st1) ∧ pop cmp st = some st1 ∧ st1.size + 1 = st.size := by
  obtain ⟨v, st1, h1, -, h3, -⟩ := poll_shape cmp d hd st (hr.shapeInv hd)
    ((size_ne_zero_iff st).mp hne)
  exact ⟨v, st1, h1, by simp only [pop, h1], h3⟩

theorem poll_decreases_size_witness :
    2 ≤ 2 ∧ Reachable ltCmp 2 { _container := [7], _degree := 2, _sizes := [1] } ∧
    size { _container := [7], _degree := 2, _sizes := [1] } ≠ 0 ∧
    ∃ v st1, poll ltCmp { _container := [7], _degree := 2, _sizes := [1] } = some (v, st1) ∧
      pop ltCmp { _container := [7], _degree := 2, _sizes := [1] } = some st1 ∧
      st1.size + 1 = size { _container := [7], _degree := 2, _sizes := [1] } :=
  ⟨by decide, @Reachable.step_push ltCmp 2 _ _ 7 Reachable.init (by decide), by decide,
    poll_decreases_size ltCmp 2 (by decide) { _container := [7], _degree := 2, _sizes := [1] }
      (@Reachable.step_push ltCmp 2 _ _ 7 Reachable.init (by decide)) (by decide)⟩

/-- C8: `empty()` holds exactly when `size()` is zero; for every degree `d ≥ 2` the newly
constructed heap is empty, a push on a state reached by pushes and polls returns a heap
that is not empty, and `n` pushes followed by `n` pops return an empty heap. -/
theorem empty_iff_size_zero (cmp : Int → Int → Bool) (d : Nat) (hd : 2 ≤ d) :
    (∀ st : postorder_heap, st.empty = true ↔ st.size = 0) ∧
    (new d).empty = true ∧
    (∀ (st : postorder_heap) (x : Int), Reachable cmp d st →
      ∃ st1, push cmp st x = some st1 ∧ st1.empty = false) ∧
    (∀ xs : List Int, ∃ st st1, pushAll cmp (new d) xs = some st ∧
      popN cmp xs.length st = some st1 ∧ st1.empty = true) := by
  refine ⟨?_, rfl, ?_, ?_⟩
  · intro st
    simp [empty]
  · intro st x hr
    obtain ⟨st1, h1, -, h3, -⟩ := push_shape cmp d hd st x (hr.shapeInv hd)
    refine ⟨st1, h1, ?_⟩
    have := h3.length_eq
    simp only [List.length_append, List.length_singleton] at this
    simp [empty, size, this]
  · intro xs
    obtain ⟨st, h1, h2, -, h4⟩ := pushAll_shape cmp d hd xs (new d) (shapeInv_new d)
      Reachable.init
    have hsize : st.size = xs.length := by
      have := h4.length_eq
      simpa [size, postorder_heap.new] using this
    obtain ⟨st1, h5, h6⟩ := popN_shape cmp d hd xs.length st h2 hsize
    exact ⟨st, st1, h1, h5, by simp [empty, h6]⟩

theorem empty_iff_size_zero_witness :
    2 ≤ 2 ∧
    ((∀ st : postorder_heap, st.empty = true ↔ st.size = 0) ∧
    (new 2).empty = true ∧
    (∀ (st : postorder_heap) (x : Int), Reachable ltCmp 2 st →
      ∃ st1, push ltCmp st x = some st1 ∧ st1.empty = false) ∧
    (∀ xs : List Int, ∃ st st1, pushAll ltCmp (new 2) xs = some st ∧
      popN ltCmp xs.length st = some st1 ∧ st1.empty = true)) :=
  ⟨by decide, empty_iff_size_zero ltCmp 2 (by decide)⟩

/-- C9: `top()` leaves the state unchanged.  On every non-empty state of degree at least 2
whose ledger fits its buffer (positive entries that add up to the buffer length) `top()`
returns, and the state after the call is the state before it: same buffer, same ledger, same
`size()`. -/
theorem top_leaves_state_unchanged (cmp : Int → Int → Bool) (st : postorder_heap)
    (hd : 2 ≤ st._degree) (hfit : ledgerFits st = true) (hne : st.size ≠ 0) :
    ∃ v st1, top cmp st = some (v, st1) ∧ st1 = st ∧ st1._container = st._container ∧
      st1._sizes = st._sizes ∧ st1.size = st.size := by
  simp only [ledgerFits, Bool.and_eq_true, decide_eq_true_eq, List.all_eq_true] at hfit
  obtain ⟨v, hv⟩ := top_total cmp st hd hfit.1 hfit.2 ((size_ne_zero_iff st).mp hne)
  exact ⟨v, st, hv, rfl, rfl, rfl, rfl⟩

theorem top_leaves_state_unchanged_witness :
    2 ≤ (postorder_heap.mk [5, 6, 2, 1, 3] 2 [3, 1, 1])._degree ∧
    ledgerFits (postorder_heap.mk [5, 6, 2, 1, 3] 2 [3, 1, 1]) = true ∧
    size (postorder_heap.mk [5, 6, 2, 1, 3] 2 [3, 1, 1]) ≠ 0 ∧
    ∃ v st1, top ltCmp (postorder_heap.mk [5, 6, 2, 1, 3] 2 [3, 1, 1]) = some (v, st1) ∧
      st1 = postorder_heap.mk [5, 6, 2, 1, 3] 2 [3, 1, 1] ∧
      st1._container = [5, 6, 2, 1, 3] ∧ st1._sizes = [3, 1, 1] ∧
      st1.size = size (postorder_heap.mk [5, 6, 2, 1, 3] 2 [3, 1, 1]) :=
  ⟨by decide, by decide, by decide,
    top_leaves_state_unchanged ltCmp (postorder_heap.mk [5, 6, 2, 1, 3] 2 [3, 1, 1])
      (by decide) (by decide) (by decide)⟩

/-! ## Heap order: `poll` of the binary heap -/

theorem IsHeap.ne_nil {d h : Nat} {t : List Int} (ht : IsHeap d h t) : t ≠ [] := by
  have h1 := ht.length_eq
  have h2 := treeSize_pos d h
  intro h0
  rw [h0] at h1
  simp at h1
  omega

/-- The child spans of a heap-ordered tree are heap-ordered trees, and the ledger entries
that `poll` writes for them are their lengths. -/
theorem IsHeap.children {d h : Nat} (hd : 2 ≤ d) {tb : List Int} {r : Int}
    (ht : IsHeap d h (tb ++ [r])) :
    ∃ cs : List (List Int), tb = cs.flatten ∧ Heaps d cs ∧
      (if (tb.length + 1) / d ≠ 0 then List.replicate d ((tb.length + 1) / d) else [])
        = cs.map List.length := by
  have hlen := ht.length_eq
  simp only [List.length_append, List.length_singleton] at hlen
  cases h with
  | zero =>
    have htb : tb = [] := by
      simp only [treeSize] at hlen
      exact List.length_eq_zero.mp (by omega)
    subst htb
    refine ⟨[], rfl, by intro t ht; simp at ht, ?_⟩
    have : (0 + 1) / d = 0 := Nat.div_eq_of_lt (by omega)
    simp [this]
  | succ k =>
    obtain ⟨cs, v, hv, hcslen, hcs⟩ := ht
    obtain ⟨h1, -⟩ := List.append_inj' hv (by simp)
    have hdiv : (tb.length + 1) / d = treeSize d k := by
      rw [hlen]
      exact treeSize_succ_div d k hd
    have hne : treeSize d k ≠ 0 := by
      have := treeSize_pos d k
      omega
    refine ⟨cs, h1, fun c hc => ⟨k, (hcs c hc).1⟩, ?_⟩
    rw [hdiv]
    simp only [ne_eq, hne, not_false_eq_true, if_true]
    symm
    rw [List.eq_replicate_iff]
    refine ⟨by simpa using hcslen, ?_⟩
    intro b hb
    obtain ⟨c, hc, rfl⟩ := List.mem_map.mp hb
    exact (hcs c hc).1.length_eq

theorem pollScan_heap (cmp : Int → Int → Bool) :
    ∀ (k : Nat) (A B B1 B2 : List (List Int)) (tb : List Int) (pr : Int) (cursor pi : Int)
      (size : Nat),
      A.length = k → (∀ t ∈ A, t ≠ []) → B = B1 ++ (tb ++ [pr]) :: B2 →
      cursor = (A.flatten.length : Int) - 1 →
      pi = ((A.flatten.length + B1.flatten.length + tb.length : Nat) : Int) →
      size = tb.length + 1 →
      ∃ (A1 B3 : List (List Int)) (tb1 : List Int) (pr1 : Int),
        pollScan cmp (A ++ B).flatten ((A ++ B).map List.length) k cursor pr pi size
          = some (pr1, ((A1.flatten.length + tb1.length : Nat) : Int), tb1.length + 1) ∧
        A ++ B = A1 ++ (tb1 ++ [pr1]) :: B3 ∧
        (cmp = ltCmp → (∀ t ∈ B, ∀ b r, t = b ++ [r] → pr ≤ r) →
          ∀ t ∈ A ++ B, ∀ b r, t = b ++ [r] → pr1 ≤ r) := by
  intro k
  induction k with
  | zero =>
    intro A B B1 B2 tb pr cursor pi size hlen _ hB _ hpi hsize
    have hnil : A = [] := List.length_eq_zero.mp hlen
    subst hnil
    refine ⟨B1, B2, tb, pr, ?_, by simpa using hB, ?_⟩
    · simp [pollScan, hpi, hsize]
    · intro _ hle
      simpa using hle
  | succ k ih =>
    intro A B B1 B2 tb pr cursor pi size hlen hne hB hcur hpi hsize
    obtain ⟨A1, a, rfl, hA1⟩ := exists_concat_of_length_succ A k hlen
    have ha : a ≠ [] := hne a (by simp)
    obtain ⟨ab, ar, rfl⟩ := exists_concat_of_length_pos a (List.length_pos.mpr ha)
    have hl : (A1 ++ [ab ++ [ar]]) ++ B = A1 ++ (ab ++ [ar]) :: B := by simp
    rw [hl]
    have hne1 : ∀ t ∈ A1, t ≠ [] := fun t ht => hne t (by simp [ht])
    have hget : ((A1 ++ (ab ++ [ar]) :: B).map List.length)[k]? = some (ab.length + 1) := by
      rw [List.map_append, List.getElem?_append_right (by simp [hA1])]
      simp [hA1]
    have hidx : cursor = (((A1.flatten ++ ab).length : Nat) : Int) := by
      rw [hcur]
      simp only [List.flatten_append, List.flatten_cons, List.flatten_nil, List.length_append,
        List.length_cons, List.length_nil, List.append_nil]
      omega
    have hread : readAt (A1 ++ (ab ++ [ar]) :: B).flatten cursor = some ar := by
      have hbuf : (A1 ++ (ab ++ [ar]) :: B).flatten
          = (A1.flatten ++ ab) ++ ar :: B.flatten := by simp
      rw [hbuf]
      exact readAt_mid _ _ _ _ hidx
    have hcur1 : cursor - ((ab.length + 1 : Nat) : Int) = (A1.flatten.length : Int) - 1 := by
      rw [hidx]
      simp only [List.length_append]
      omega
    rw [pollScan]
    simp only [hget, hread]
    by_cases hcmp : cmp ar pr = true
    · simp only [hcmp, if_true]
      obtain ⟨A2, B3, tb1, pr1, h1, h2, h3⟩ := ih A1 ((ab ++ [ar]) :: B) [] B ab ar
        (cursor - ((ab.length + 1 : Nat) : Int)) cursor (ab.length + 1) hA1 hne1 (by simp)
        hcur1 (by rw [hidx]; simp) rfl
      refine ⟨A2, B3, tb1, pr1, h1, h2, ?_⟩
      intro hlt hle
      apply h3 hlt
      intro t ht b r hbr
      rcases List.mem_cons.mp ht with rfl | ht
      · obtain ⟨-, h5⟩ := List.append_inj' hbr (by simp)
        simp at h5
        omega
      · have h6 := hle t ht b r hbr
        subst hlt
        simp [ltCmp] at hcmp
        omega
    · simp only [hcmp]
      obtain ⟨A2, B3, tb1, pr1, h1, h2, h3⟩ := ih A1 ((ab ++ [ar]) :: B)
        ((ab ++ [ar]) :: B1) B2 tb pr (cursor - ((ab.length + 1 : Nat) : Int)) pi size hA1 hne1
        (by simp [hB]) hcur1 (by rw [hpi]; simp; omega) hsize
      refine ⟨A2, B3, tb1, pr1, h1, h2, ?_⟩
      intro hlt hle
      apply h3 hlt
      intro t ht b r hbr
      rcases List.mem_cons.mp ht with rfl | ht
      · obtain ⟨-, h5⟩ := List.append_inj' hbr (by simp)
        simp at h5
        subst hlt
        simp [ltCmp] at hcmp
        omega
      · exact hle t ht b r hbr

theorem Heaps.min_of_roots {d : Nat} {ts : List (List Int)} (hh : Heaps d ts) (v : Int)
    (hv : ∀ t ∈ ts, ∀ b r, t = b ++ [r] → v ≤ r) : ∀ y ∈ ts.flatten, v ≤ y := by
  intro y hy
  obtain ⟨t, ht, hyt⟩ := List.mem_flatten.mp hy
  obtain ⟨k, hk⟩ := hh t ht
  obtain ⟨b, r, hbr⟩ := exists_concat_of_length_pos t (List.length_pos.mpr hk.ne_nil)
  have h1 := hv t ht b r hbr
  have h2 := hk.all_ge_root hbr y hyt
  omega

/-- On a non-empty forest of heap-ordered binary trees `poll` returns a least element of the
buffer, removes one occurrence of it, and leaves a forest of heap-ordered binary trees. -/
theorem poll_heap (st : postorder_heap) (ts : List (List Int)) (hdeg : st._degree = 2)
    (hrep : Rep st ts) (hheaps : Heaps 2 ts) (hne : ts ≠ []) :
    ∃ v st1 ts1, poll ltCmp st = some (v, st1) ∧ st1._degree = 2 ∧ Rep st1 ts1 ∧
      Heaps 2 ts1 ∧ st._container.Perm (v :: st1._container) ∧
      ∀ y ∈ st._container, v ≤ y := by
  obtain ⟨c, deg, sizes⟩ := st
  obtain ⟨hc, hs⟩ := hrep
  simp only at hdeg hc hs
  subst hdeg hc hs
  obtain ⟨T, tl, rfl⟩ := exists_concat_of_length_pos ts (List.length_pos.mpr hne)
  obtain ⟨hl, htl⟩ := hheaps tl (by simp)
  obtain ⟨tlb, last, rfl⟩ := exists_concat_of_length_pos tl (List.length_pos.mpr htl.ne_nil)
  obtain ⟨cs, hcs1, hcs2, hcs3⟩ := htl.children (Nat.le_refl 2)
  have hT : Heaps 2 T := fun t ht => hheaps t (by simp [ht])
  have hTne : ∀ t ∈ T, t ≠ [] := fun t ht => by
    obtain ⟨k, hk⟩ := hT t ht
    exact hk.ne_nil
  have hk : ((((T ++ [tlb ++ [last]]).map List.length).length : Int) - ((2 : Nat) : Int)
      + 1).toNat = T.length := by
    simp only [List.length_map, List.length_append, List.length_singleton]
    omega
  have hgl : ((T ++ [tlb ++ [last]]).map List.length).getLast? = some (tlb.length + 1) := by
    simp
  have hflat : (T ++ [tlb ++ [last]]).flatten = (T.flatten ++ tlb) ++ last :: [] := by simp
  have hlenflat : (T ++ [tlb ++ [last]]).flatten.length = T.flatten.length + tlb.length + 1 := by
    rw [hflat]
    simp only [List.length_append, List.length_cons, List.length_nil]
  have hread : readAt (T ++ [tlb ++ [last]]).flatten
      (((T ++ [tlb ++ [last]]).flatten.length : Int) - 1) = some last := by
    rw [hlenflat, hflat]
    apply readAt_mid
    simp only [List.length_append]
    omega
  have hcgl : (T ++ [tlb ++ [last]]).flatten.getLast? = some last := by
    rw [hflat]
    simp
  have hdl : (T ++ [tlb ++ [last]]).flatten.dropLast = (T ++ cs).flatten := by
    rw [hflat, hcs1]
    simp
  have hsz : (if (tlb.length + 1) / 2 ≠ 0 then
        ((T ++ [tlb ++ [last]]).map List.length).dropLast
          ++ List.replicate 2 ((tlb.length + 1) / 2)
      else ((T ++ [tlb ++ [last]]).map List.length).dropLast)
      = (T ++ cs).map List.length := by
    have hmap : (T ++ cs).map List.length = T.map List.length ++ cs.map List.length :=
      List.map_append _ _ _
    rw [hmap, ← hcs3]
    simp only [List.map_append, List.map_cons, List.map_nil, List.dropLast_concat]
    split <;> simp
  obtain ⟨A1, B3, tb1, pr1, hscan, hdec, hmin⟩ := pollScan_heap ltCmp T.length T
    [tlb ++ [last]] [] [] tlb last
    (((T ++ [tlb ++ [last]]).flatten.length : Int) - 1 - ((tlb.length + 1 : Nat) : Int))
    (((T ++ [tlb ++ [last]]).flatten.length : Int) - 1) (tlb.length + 1) rfl hTne
    (by simp) (by rw [hlenflat]; omega)
    (by rw [hlenflat]; simp only [List.flatten_nil, List.length_nil]; omega) rfl
  have hmin1 : ∀ t ∈ T ++ [tlb ++ [last]], ∀ b r, t = b ++ [r] → pr1 ≤ r := by
    apply hmin rfl
    intro t ht b r hbr
    simp at ht
    subst ht
    obtain ⟨-, h5⟩ := List.append_inj' hbr (by simp)
    simp at h5
    omega
  have hleast := hheaps.min_of_roots pr1 hmin1
  unfold poll
  simp only [hgl, hread, hk, hscan, hcgl, hdl, hsz, OfNat.ofNat_ne_zero, if_false]
  rcases List.eq_nil_or_concat B3 with rfl | ⟨B4, x, rfl⟩
  · -- the least root is the root of the rightmost tree
    obtain ⟨h1, h2⟩ := List.append_inj' hdec (by simp)
    simp only [List.cons.injEq, and_true] at h2
    obtain ⟨h3, h4⟩ := List.append_inj' h2 (by simp)
    simp only [List.cons.injEq, and_true] at h4
    subst h1 h3 h4
    have hnot : ¬ (((T.flatten.length + tlb.length : Nat) : Int)
        < (((T ++ cs).flatten.length : Nat) : Int)) := by
      rw [← hdl, hflat]
      simp
    simp only [hnot, if_false]
    refine ⟨last, _, T ++ cs, rfl, rfl, ⟨rfl, rfl⟩, ?_, ?_, hleast⟩
    · intro t ht
      rcases List.mem_append.mp ht with ht | ht
      · exact hT t ht
      · exact hcs2 t ht
    · simp only
      rw [← hdl, hflat]
      simp only [List.dropLast_concat]
      exact List.perm_append_singleton _ _
  · -- the least root is the root of another tree: the hole is patched and sifted down
    have hdec1 : T ++ [tlb ++ [last]] = (A1 ++ (tb1 ++ [pr1]) :: B4) ++ [x] := by
      rw [hdec]
      simp
    obtain ⟨h1, h2⟩ := List.append_inj' hdec1 (by simp)
    simp only [List.cons.injEq, and_true] at h2
    subst h1 h2
    obtain ⟨k1, hk1⟩ := hT (tb1 ++ [pr1]) (by simp)
    have hlen1 := hk1.length_eq
    simp only [List.length_append, List.length_singleton] at hlen1
    have hbuf : ((A1 ++ (tb1 ++ [pr1]) :: B4) ++ cs).flatten
        = A1.flatten ++ tb1 ++ pr1 :: ((B4 ++ cs).flatten) := by simp
    have hlt : (((A1.flatten.length + tb1.length : Nat) : Int)
        < ((((A1 ++ (tb1 ++ [pr1]) :: B4) ++ cs).flatten.length : Nat) : Int)) := by
      rw [hbuf]
      simp only [List.length_append, List.length_cons]
      omega
    have hw : writeAt ((A1 ++ (tb1 ++ [pr1]) :: B4) ++ cs).flatten
        ((A1.flatten.length + tb1.length : Nat) : Int) last
        = some (A1.flatten ++ tb1 ++ last :: ((B4 ++ cs).flatten)) := by
      rw [hbuf]
      apply writeAt_mid
      simp
    obtain ⟨l1, hl1, hperm, hheap1⟩ := heapify_spec ltCmp 2 (Nat.le_refl 2) k1 A1.flatten tb1
      ((B4 ++ cs).flatten) last ((A1.flatten.length + tb1.length : Nat) : Int) hlen1 rfl
    rw [← hlen1] at hl1
    simp only [hlt, if_true, hw, hl1]
    have hl1len : l1.length = tb1.length + 1 := by
      rw [hperm.length_eq]
      simp
    refine ⟨pr1, _, A1 ++ l1 :: (B4 ++ cs), rfl, rfl, ⟨?_, ?_⟩, ?_, ?_, hleast⟩
    · simp
    · simp [hl1len]
    · intro t ht
      have ht1 : t ∈ A1 ∨ t = l1 ∨ t ∈ B4 ∨ t ∈ cs := by
        simpa using ht
      rcases ht1 with ht1 | rfl | ht1 | ht1
      · exact hT t (by simp [ht1])
      · exact ⟨k1, hheap1 rfl hk1.subHeaps⟩
      · exact hT t (by simp [ht1])
      · exact hcs2 t ht1
    · simp only
      rw [hflat, hcs1, List.perm_iff_count]
      intro a
      have := hperm.count_eq a
      simp only [List.flatten_append, List.flatten_cons, List.count_append, List.count_cons,
        List.count_nil] at this ⊢
      omega

theorem rep_new (d : Nat) : Rep (new d) [] := ⟨rfl, rfl⟩

theorem heaps_nil (d : Nat) : Heaps d [] := by
  intro t ht
  simp at ht

theorem pushAll_heap (d : Nat) (hd : 2 ≤ d) :
    ∀ (xs : List Int) (st : postorder_heap) (ts : List (List Int)), st._degree = d →
      Rep st ts → Heaps d ts →
      ∃ st1 ts1, pushAll ltCmp st xs = some st1 ∧ st1._degree = d ∧ Rep st1 ts1 ∧
        Heaps d ts1 ∧ st1._container.Perm (st._container ++ xs) ∧
        st1._sizes = Nat.iterate (pushLedger d) xs.length st._sizes := by
  intro xs
  induction xs with
  | nil =>
    intro st ts hdeg hrep hh
    exact ⟨st, ts, rfl, hdeg, hrep, hh, by simp, rfl⟩
  | cons x xs ih =>
    intro st ts hdeg hrep hh
    obtain ⟨st1, ts1, h1, h2, h3, -, h5, h6, h7⟩ := push_spec ltCmp d hd st ts x hdeg hrep
      hh.shape
    obtain ⟨st2, ts2, g1, g2, g3, g4, g5, g6⟩ := ih st1 ts1 h2 h3 (h6 rfl hh)
    refine ⟨st2, ts2, ?_, g2, g3, g4, ?_, ?_⟩
    · simp only [pushAll, h1, g1]
    · refine g5.trans ?_
      have := List.Perm.append_right xs h5
      simpa using this
    · rw [g6, h7]
      rfl

theorem pollN_heap : ∀ (n : Nat) (st : postorder_heap) (ts : List (List Int)),
    st._degree = 2 → Rep st ts → Heaps 2 ts → st._container.length = n →
    ∃ vs st1, pollN ltCmp n st = some (vs, st1) ∧ st1._container = [] ∧
      vs.Perm st._container ∧ List.Sorted (fun a b : Int => a ≤ b) vs := by
  intro n
  induction n with
  | zero =>
    intro st ts _ _ _ hlen
    have hnil : st._container = [] := List.length_eq_zero.mp hlen
    exact ⟨[], st, rfl, hnil, by rw [hnil], List.sorted_nil⟩
  | succ n ih =>
    intro st ts hdeg hrep hh hlen
    have hne : ts ≠ [] := by
      intro h0
      have := hrep.1
      rw [h0] at this
      rw [this] at hlen
      simp at hlen
    obtain ⟨v, st1, ts1, h1, h2, h3, h4, h5, h6⟩ := poll_heap st ts hdeg hrep hh hne
    have hlen1 : st1._container.length = n := by
      have := h5.length_eq
      simp only [List.length_cons] at this
      omega
    obtain ⟨vs, st2, g1, g2, g3, g4⟩ := ih st1 ts1 h2 h3 h4 hlen1
    refine ⟨v :: vs, st2, ?_, g2, ?_, ?_⟩
    · simp only [pollN, h1, g1]
    · exact (List.Perm.cons v g3).trans h5.symm
    · refine List.sorted_cons.mpr ⟨?_, g4⟩
      intro y hy
      apply h6
      exact h5.symm.subset (List.mem_cons_of_mem v (g3.subset hy))

/-- The binary heap sorts: pushing a list into the empty heap of degree 2 and polling as
often as values were pushed returns the ascending rearrangement of the list and leaves the
heap empty. -/
theorem heapsort_binary (xs : List Int) :
    ∃ st vs st1, pushAll ltCmp (new 2) xs = some st ∧
      pollN ltCmp xs.length st = some (vs, st1) ∧ st1._container = [] ∧ vs.Perm xs ∧
      List.Sorted (fun a b : Int => a ≤ b) vs := by
  obtain ⟨st, ts, h1, h2, h3, h4, h5, -⟩ := pushAll_heap 2 (Nat.le_refl 2) xs (new 2) [] rfl
    (rep_new 2) (heaps_nil 2)
  have hperm : st._container.Perm xs := by simpa [postorder_heap.new] using h5
  obtain ⟨vs, st1, g1, g2, g3, g4⟩ := pollN_heap xs.length st ts h2 h3 h4 hperm.length_eq
  exact ⟨st, vs, st1, h1, g1, g2, g3.trans hperm, g4⟩

/-- C1: for degree 2 and the comparator `<`, for every list of integers pushed one by one
into the empty heap, the pushes return, as many successive `poll()` calls as values were
pushed return, and the values they return are in non-decreasing order (every returned value
is at most every value returned after it). -/
theorem poll_sequence_nondecreasing (xs : List Int) :
    ∃ st vs st1, pushAll ltCmp (new 2) xs = some st ∧
      pollN ltCmp xs.length st = some (vs, st1) ∧
      List.Pairwise (fun a b : Int => a ≤ b) vs := by
  obtain ⟨st, vs, st1, h1, h2, -, -, h5⟩ := heapsort_binary xs
  exact ⟨st, vs, st1, h1, h2, h5⟩

/-! ## Prefixes of the buffer -/

theorem exists_split_from_right {α : Type} (l : List α) (k : Nat) (hk : k < l.length) :
    ∃ L x R, l = L ++ x :: R ∧ R.length = k := by
  obtain ⟨L, x, R, h1, h2⟩ := exists_split_at l (l.length - 1 - k) (by omega)
  refine ⟨L, x, R, h1, ?_⟩
  have := congrArg List.length h1
  simp at this
  omega

theorem IsHeap.heapOrderedAt_eq_true {d : Nat} (hd : 2 ≤ d) :
    ∀ (h : Nat) (l : List Int), IsHeap d h l → ∀ (pre post : List Int) (fuel : Nat) (r : Int),
      h + 1 ≤ fuel → r = ((pre.length + l.length : Nat) : Int) - 1 →
      heapOrderedAt d (pre ++ l ++ post) fuel r (treeSize d h) = true := by
  intro h
  induction h with
  | zero =>
    rintro l ⟨v, rfl⟩ pre post fuel r hfuel hr
    obtain ⟨f, rfl⟩ : ∃ f, fuel = f + 1 := ⟨fuel - 1, by omega⟩
    have hread : readAt (pre ++ v :: post) r = some v := by
      apply readAt_mid
      simp at hr
      omega
    simp [heapOrderedAt, treeSize, hread]
  | succ k ih =>
    rintro l ⟨cs, v, rfl, hcslen, hcs⟩ pre post fuel r hfuel hr
    obtain ⟨f, rfl⟩ : ∃ f, fuel = f + 1 := ⟨fuel - 1, by omega⟩
    have hn := treeSize_pos d k
    have hne1 : treeSize d (k + 1) ≠ 1 := by
      have := treeSize_lt_succ d k (by omega)
      omega
    have hdiv : (treeSize d (k + 1) - 1) / d = treeSize d k := by
      simp only [treeSize, Nat.add_sub_cancel_left]
      exact Nat.mul_div_cancel_left _ (by omega)
    have hchunks : ∀ c ∈ cs, c.length = treeSize d k := fun c hc => (hcs c hc).1.length_eq
    have hreadr : readAt (pre ++ (cs.flatten ++ [v]) ++ post) r = some v := by
      have : pre ++ (cs.flatten ++ [v]) ++ post = (pre ++ cs.flatten) ++ v :: post := by simp
      rw [this]
      apply readAt_mid
      simp only [List.length_append, List.length_singleton] at hr ⊢
      omega
    rw [heapOrderedAt]
    simp only [hne1, if_false, hdiv]
    have hsz : treeSize d (k + 1) = 1 + d * treeSize d k := rfl
    simp only [hsz, decide_True, hn, Bool.true_and, List.all_eq_true, List.mem_range,
      Bool.and_eq_true, hreadr]
    intro k0 hk0
    obtain ⟨L, c, R, hdec, hR⟩ := exists_split_from_right cs k0 (by omega)
    have hc : c ∈ cs := by rw [hdec]; simp
    obtain ⟨cb, rc, hcb⟩ := exists_concat_of_length_pos c (by rw [hchunks c hc]; exact hn)
    have hRchunks : ∀ c1 ∈ R, c1.length = treeSize d k := fun c1 hc1 =>
      hchunks c1 (by rw [hdec]; simp [hc1])
    have hRflat := length_flatten_chunks (treeSize d k) R hRchunks
    have hclen : cb.length + 1 = treeSize d k := by
      have := hchunks c hc
      rw [hcb] at this
      simpa using this
    have hbuf : pre ++ (cs.flatten ++ [v]) ++ post
        = (pre ++ L.flatten ++ cb) ++ rc :: (R.flatten ++ v :: post) := by
      rw [hdec, hcb]
      simp
    have hci : r - 1 - (k0 : Int) * (treeSize d k : Int)
        = (((pre ++ L.flatten ++ cb).length : Nat) : Int) := by
      rw [hr, hdec, hcb]
      simp only [List.flatten_append, List.flatten_cons, List.length_append, List.length_cons,
        List.length_nil, hRflat, hR]
      push_cast
      omega
    have hreadc : readAt (pre ++ (cs.flatten ++ [v]) ++ post)
        (r - 1 - (k0 : Int) * (treeSize d k : Int)) = some rc := by
      rw [hbuf]
      exact readAt_mid _ _ _ _ hci
    have hle : v ≤ rc := (hcs c hc).2 rc (by rw [hcb]; simp)
    refine ⟨?_, ?_⟩
    · simp only [hreadc, ltCmp]
      simp
      omega
    · have hbuf2 : pre ++ (cs.flatten ++ [v]) ++ post
          = (pre ++ L.flatten) ++ c ++ (R.flatten ++ v :: post) := by
        rw [hdec]
        simp
      rw [hbuf2]
      apply ih c (hcs c hc).1 (pre ++ L.flatten) (R.flatten ++ v :: post) f _ (by omega)
      rw [hci, hcb]
      simp only [List.length_append, List.length_singleton]
      omega

theorem IsHeap.isHeapSpan {d h : Nat} (hd : 2 ≤ d) {l : List Int} (hl : IsHeap d h l) :
    isHeapSpan d l = true := by
  have h1 := hl.length_eq
  have h2 := lt_treeSize d h (by omega)
  have := IsHeap.heapOrderedAt_eq_true hd h l hl [] [] l.length ((l.length : Int) - 1)
    (by omega) (by simp)
  unfold postorder_heap.isHeapSpan
  rw [h1] at this ⊢
  simpa using this

theorem cutSpans_flatten (ts : List (List Int)) :
    cutSpans (ts.map List.length) ts.flatten = some ts := by
  induction ts with
  | nil => rfl
  | cons t ts ih =>
    have h1 := ih
    simp only [List.map_cons, List.flatten_cons, cutSpans, List.length_append,
      Nat.le_add_right, if_true, List.drop_left, h1, List.take_left]

theorem pushLedger_cases (d : Nat) (L : List Nat) :
    (∃ P s, L = P ++ List.replicate d s ∧ pushLedger d L = P ++ [1 + d * s]) ∨
      pushLedger d L = L ++ [1] := by
  unfold pushLedger
  split
  · rename_i hc
    left
    refine ⟨L.take (L.length - d), L.getLastD 0, ?_, rfl⟩
    have hdrop : L.drop (L.length - d) = List.replicate d (L.getLastD 0) := by
      rw [List.eq_replicate_iff]
      refine ⟨?_, hc.2⟩
      simp
      omega
    rw [← hdrop, List.take_append_drop]
  · right
    rfl

theorem pushLedger_pos (d : Nat) (L : List Nat) (hpos : ∀ s ∈ L, 0 < s) :
    ∀ s ∈ pushLedger d L, 0 < s := by
  rcases pushLedger_cases d L with ⟨P, s, h1, h2⟩ | h2
  · rw [h2]
    intro x hx
    rcases List.mem_append.mp hx with hx | hx
    · exact hpos x (by rw [h1]; simp [hx])
    · simp at hx
      omega
  · rw [h2]
    intro x hx
    rcases List.mem_append.mp hx with hx | hx
    · exact hpos x hx
    · simp at hx
      omega

theorem pushLedger_sum (d : Nat) (L : List Nat) : (pushLedger d L).sum = L.sum + 1 := by
  rcases pushLedger_cases d L with ⟨P, s, h1, h2⟩ | h2
  · rw [h2, h1]
    simp only [List.sum_append, List.sum_replicate, smul_eq_mul, List.sum_cons, List.sum_nil]
    omega
  · rw [h2]
    simp

theorem iterate_pushLedger_pos (d : Nat) : ∀ n, ∀ s ∈ Nat.iterate (pushLedger d) n [], 0 < s := by
  intro n
  induction n with
  | zero =>
    intro s hs
    simp at hs
  | succ n ih =>
    rw [Function.iterate_succ_apply']
    exact pushLedger_pos d _ ih

theorem iterate_pushLedger_sum (d : Nat) : ∀ n, (Nat.iterate (pushLedger d) n []).sum = n := by
  intro n
  induction n with
  | zero => rfl
  | succ n ih =>
    rw [Function.iterate_succ_apply', pushLedger_sum, ih]

/-- Undoing a push: dropping the last slot of a forest whose ledger is the result of a push
leaves a forest for the ledger before the push. -/
theorem unpush (d : Nat) (hd : 2 ≤ d) (L : List Nat) (hpos : ∀ s ∈ L, 0 < s)
    (ts : List (List Int)) (hh : Heaps d ts) (hmap : ts.map List.length = pushLedger d L) :
    ∃ ts1, Heaps d ts1 ∧ ts1.map List.length = L ∧ ts1.flatten = ts.flatten.dropLast := by
  have hne : 0 < ts.length := by
    have := congrArg List.sum hmap
    rw [pushLedger_sum] at this
    rcases Nat.eq_zero_or_pos ts.length with h0 | h0
    · rw [List.length_eq_zero.mp h0] at this
      simp at this
    · exact h0
  obtain ⟨T, t, rfl⟩ := exists_concat_of_length_pos ts hne
  have hT : Heaps d T := fun t1 ht1 => hh t1 (by simp [ht1])
  obtain ⟨h, ht⟩ := hh t (by simp)
  simp only [List.map_append, List.map_cons, List.map_nil] at hmap
  rcases pushLedger_cases d L with ⟨P, s, h1, h2⟩ | h2
  · rw [h2] at hmap
    obtain ⟨h3, h4⟩ := List.append_inj' hmap (by simp)
    simp only [List.cons.injEq, and_true] at h4
    have hs : 0 < s := hpos s (by
      rw [h1]
      apply List.mem_append_right
      rw [List.mem_replicate]
      exact ⟨by omega, rfl⟩)
    have hds : 0 < d * s := Nat.mul_pos (by omega) hs
    have hlen := ht.length_eq
    cases h with
    | zero =>
      simp only [treeSize] at hlen
      omega
    | succ k =>
      obtain ⟨cs, v, rfl, hcslen, hcs⟩ := ht
      simp only [treeSize] at hlen
      have hk : treeSize d k = s := by
        have : d * treeSize d k = d * s := by omega
        exact Nat.eq_of_mul_eq_mul_left (by omega) this
      refine ⟨T ++ cs, ?_, ?_, ?_⟩
      · intro t1 ht1
        rcases List.mem_append.mp ht1 with ht1 | ht1
        · exact hT t1 ht1
        · exact ⟨k, (hcs t1 ht1).1⟩
      · rw [List.map_append, h3, h1]
        congr 1
        rw [List.eq_replicate_iff]
        refine ⟨by simpa using hcslen, ?_⟩
        intro b hb
        obtain ⟨c, hc, rfl⟩ := List.mem_map.mp hb
        rw [(hcs c hc).1.length_eq, hk]
      · have : (T ++ [cs.flatten ++ [v]]).flatten = (T.flatten ++ cs.flatten) ++ [v] := by simp
        rw [this, List.dropLast_concat]
        simp
  · rw [h2] at hmap
    obtain ⟨h3, h4⟩ := List.append_inj' hmap (by simp)
    simp only [List.cons.injEq, and_true] at h4
    obtain ⟨b, v, rfl⟩ := exists_concat_of_length_pos t (by omega)
    have hb : b = [] := by
      simp at h4
      exact h4
    subst hb
    refine ⟨T, hT, h3, ?_⟩
    have : (T ++ [[] ++ [v]]).flatten = T.flatten ++ [v] := by simp
    rw [this, List.dropLast_concat]

/-- Every prefix of a forest built by pushes is the forest of the shorter push sequence. -/
theorem initial_slots_forest (d : Nat) (hd : 2 ≤ d) (m : Nat) :
    ∀ (j : Nat) (ts : List (List Int)), Heaps d ts →
      ts.map List.length = Nat.iterate (pushLedger d) (m + j) [] →
      ∃ tsm, Heaps d tsm ∧ tsm.map List.length = Nat.iterate (pushLedger d) m [] ∧
        tsm.flatten = ts.flatten.take m := by
  intro j
  induction j with
  | zero =>
    intro ts hh hmap
    refine ⟨ts, hh, hmap, ?_⟩
    have hlen : ts.flatten.length = m := by
      rw [List.length_flatten, hmap]
      exact iterate_pushLedger_sum d m
    rw [← hlen, List.take_length]
  | succ j ih =>
    intro ts hh hmap
    have hsucc : Nat.iterate (pushLedger d) (m + (j + 1)) []
        = pushLedger d (Nat.iterate (pushLedger d) (m + j) []) :=
      Function.iterate_succ_apply' _ _ _
    rw [hsucc] at hmap
    obtain ⟨ts1, h1, h2, h3⟩ := unpush d hd _ (iterate_pushLedger_pos d (m + j)) ts hh hmap
    obtain ⟨tsm, g1, g2, g3⟩ := ih ts1 h1 h2
    refine ⟨tsm, g1, g2, ?_⟩
    have hlen : ts.flatten.length = m + j + 1 := by
      rw [List.length_flatten, hmap, pushLedger_sum, iterate_pushLedger_sum]
    rw [g3, h3, List.dropLast_eq_take, List.take_take, hlen]
    congr 1
    omega

/-- C10: every prefix of the buffer is a valid forest.  For every degree `d ≥ 2`, every list
`xs` pushed into the empty heap (comparator `<`) and every `m ≤ |xs|`, cutting the first `m`
buffer slots into consecutive spans whose lengths are the ledger after the first `m` pushes
succeeds, and every span is a heap-ordered complete `d`-ary tree in post-order. -/
theorem buffer_initial_slots_are_forest (d : Nat) (hd : 2 ≤ d) (xs : List Int) (m : Nat)
    (hm : m ≤ xs.length) :
    ∃ st stm spans, pushAll ltCmp (new d) xs = some st ∧
      pushAll ltCmp (new d) (xs.take m) = some stm ∧
      cutSpans stm._sizes (st._container.take m) = some spans ∧
      ∀ span ∈ spans, isHeapSpan d span = true := by
  obtain ⟨st, ts, h1, -, h3, h4, -, h6⟩ := pushAll_heap d hd xs (new d) [] rfl (rep_new d)
    (heaps_nil d)
  obtain ⟨stm, tsm0, g1, -, -, -, -, g6⟩ := pushAll_heap d hd (xs.take m) (new d) [] rfl
    (rep_new d) (heaps_nil d)
  have hlen : (xs.take m).length = m := by
    rw [List.length_take]
    omega
  rw [hlen] at g6
  have g7 : stm._sizes = Nat.iterate (pushLedger d) m [] := g6
  have hmap : ts.map List.length = Nat.iterate (pushLedger d) (m + (xs.length - m)) [] := by
    rw [← h3.2, h6]
    congr 1
    omega
  obtain ⟨tsm, k1, k2, k3⟩ := initial_slots_forest d hd m (xs.length - m) ts h4 hmap
  refine ⟨st, stm, tsm, h1, g1, ?_, ?_⟩
  · rw [g7, h3.1, ← k3, ← k2]
    exact cutSpans_flatten tsm
  · intro span hspan
    obtain ⟨k, hk⟩ := k1 span hspan
    exact hk.isHeapSpan hd

theorem buffer_initial_slots_are_forest_witness :
    2 ≤ 3 ∧ 4 ≤ [5, 1, 4, 2, 8].length ∧
    ∃ st stm spans, pushAll ltCmp (new 3) [5, 1, 4, 2, 8] = some st ∧
      pushAll ltCmp (new 3) ([5, 1, 4, 2, 8].take 4) = some stm ∧
      cutSpans stm._sizes (st._container.take 4) = some spans ∧
      ∀ span ∈ spans, isHeapSpan 3 span = true :=
  ⟨by decide, by decide, buffer_initial_slots_are_forest 3 (by decide) [5, 1, 4, 2, 8] 4 (by decide)⟩

/-- C2 at a failing input: with degree 3 and the comparator `<`, pushing 1 and 2 and polling
twice returns 2 before 1. -/
theorem poll_degree3_not_sorted : pushThenPoll ltCmp 3 [1, 2] 2 = some [2, 1] := by
  decide

/-- C3 at a failing input: with degree 2 and the comparator `<`, after the pushes
5, 6, 2, 1, 3 the call `top()` returns 2 although the buffer holds 1 and the next `poll()`
returns 1. -/
theorem top_not_least :
    pushAll ltCmp (new 2) [5, 6, 2, 1, 3]
      = some { _container := [5, 6, 2, 1, 3], _degree := 2, _sizes := [3, 1, 1] } ∧
    top ltCmp { _container := [5, 6, 2, 1, 3], _degree := 2, _sizes := [3, 1, 1] }
      = some (2, { _container := [5, 6, 2, 1, 3], _degree := 2, _sizes := [3, 1, 1] }) ∧
    poll ltCmp { _container := [5, 6, 2, 1, 3], _degree := 2, _sizes := [3, 1, 1] }
      = some (1, { _container := [5, 6, 2, 3], _degree := 2, _sizes := [3, 1] }) := by
  decide

/-- C4 at failing inputs: with degree 2 and the comparator `<` the values read by `top()`
before each `pop()` go down from 1 to 0, and with degree 3 and the comparator `>` they go up
from 1 to 2. -/
theorem top_sequence_not_monotone :
    pushThenTopPop ltCmp 2 [1, 1, 1, 1, 1, 1, 1, 0, 0, 0, 2]
      = some [1, 0, 1, 1, 1, 1, 1, 1, 1, 1, 2] ∧
    pushThenTopPop gtCmp 3 [2, 1] = some [1, 2] := by
  decide

/-- C5 at its input: with degree 3 and the comparator `<`, after the pushes 5, 1, 4, 2, 8
the first three polls return 8, 1, 2. -/
theorem scenario_degree3_polls : pushThenPoll ltCmp 3 [5, 1, 4, 2, 8] 3 = some [8, 1, 2] := by
  decide

/-! ## The ledger as a counter -/

theorem treeSize_mono (d : Nat) (hd : 1 ≤ d) {h1 h2 : Nat} (h : h1 ≤ h2) :
    treeSize d h1 ≤ treeSize d h2 :=
  (treeSize_strictMono d hd).monotone h

theorem treeSize_succ_le_of_lt (d : Nat) (hd : 1 ≤ d) {h1 h2 : Nat}
    (h : treeSize d h1 < treeSize d h2) : treeSize d (h1 + 1) ≤ treeSize d h2 := by
  have : h1 < h2 := (treeSize_strictMono d hd).lt_iff_lt.mp h
  exact treeSize_mono d hd this

/-- In a non-increasing list the occurrences of a least element form the end of the list. -/
theorem sorted_min_suffix (y : Nat) : ∀ (L : List Nat),
    List.Pairwise (fun a b : Nat => b ≤ a) L → (∀ z ∈ L, y ≤ z) →
    ∃ A, L = A ++ List.replicate (L.count y) y := by
  intro L
  induction L with
  | nil =>
    intro _ _
    exact ⟨[], rfl⟩
  | cons a L ih =>
    intro hs hmin
    obtain ⟨h1, h2⟩ := List.pairwise_cons.mp hs
    obtain ⟨A, hA⟩ := ih h2 (fun z hz => hmin z (List.mem_cons_of_mem _ hz))
    by_cases hay : a = y
    · subst hay
      have hall : ∀ z ∈ L, z = a := by
        intro z hz
        have := h1 z hz
        have := hmin z (List.mem_cons_of_mem _ hz)
        omega
      have hL : L = List.replicate L.length a := List.eq_replicate_iff.mpr ⟨rfl, hall⟩
      refine ⟨[], ?_⟩
      have hc : L.count a = L.length := by
        conv => lhs; rw [hL]
        simp
      simp only [List.count_cons_self, hc, List.nil_append, List.replicate_succ]
      rw [← hL]
    · refine ⟨a :: A, ?_⟩
      have hc : (a :: L).count y = L.count y := by
        rw [List.count_cons]
        simp [hay]
      rw [hc, List.cons_append, ← hA]

theorem pushLedger_merge (d : Nat) (hd : 1 ≤ d) (P : List Nat) (s : Nat) :
    pushLedger d (P ++ List.replicate d s) = P ++ [1 + d * s] := by
  have hlast : (P ++ List.replicate d s).getLastD 0 = s := by
    obtain ⟨n, rfl⟩ : ∃ n, d = n + 1 := ⟨d - 1, by omega⟩
    rw [List.replicate_succ']
    simp
  have hlen : (P ++ List.replicate d s).length - d = P.length := by simp
  have hdrop : (P ++ List.replicate d s).drop P.length = List.replicate d s := by simp
  have htake : (P ++ List.replicate d s).take P.length = P := by simp
  unfold pushLedger
  rw [hlen, hdrop, htake, hlast]
  have hc : d ≤ (P ++ List.replicate d s).length ∧ ∀ y ∈ List.replicate d s, y = s := by
    refine ⟨by simp, ?_⟩
    intro y hy
    exact (List.mem_replicate.mp hy).2
  rw [if_pos hc]

theorem pushLedger_plain (d : Nat) (L : List Nat)
    (hm : ¬ ∃ P s, L = P ++ List.replicate d s) : pushLedger d L = L ++ [1] := by
  rcases pushLedger_cases d L with ⟨P, s, h1, -⟩ | h2
  · exact absurd ⟨P, s, h1⟩ hm
  · exact h2

theorem LedgerInv.nil (d : Nat) : LedgerInv d [] := by
  refine ⟨List.Pairwise.nil, ?_, ?_, ?_⟩
  · intro s hs
    simp at hs
  · intro s
    simp
  · intro s _ y hy
    simp at hy

theorem LedgerInv.push {d : Nat} (hd : 2 ≤ d) {L : List Nat} (hinv : LedgerInv d L) :
    LedgerInv d (pushLedger d L) := by
  obtain ⟨hsort, htree, hcnt, hmin⟩ := hinv
  by_cases hm : ∃ P s, L = P ++ List.replicate d s
  · obtain ⟨P, s, rfl⟩ := hm
    rw [pushLedger_merge d (by omega) P s]
    have hsmem : s ∈ P ++ List.replicate d s := by
      apply List.mem_append_right
      exact List.mem_replicate.mpr ⟨by omega, rfl⟩
    obtain ⟨h, hs⟩ := htree s hsmem
    have hs1 : 1 + d * s = treeSize d (h + 1) := by simp only [treeSize, hs]
    have hsP : s ∉ P := by
      have := hcnt s
      rw [List.count_append, List.count_replicate_self] at this
      exact List.count_eq_zero.mp (by omega)
    obtain ⟨hsortP, -, hcross⟩ := List.pairwise_append.mp hsort
    have hPge : ∀ p ∈ P, 1 + d * s ≤ p := by
      intro p hp
      have h1 : s ≤ p := hcross p hp s (List.mem_replicate.mpr ⟨by omega, rfl⟩)
      have h2 : p ≠ s := fun h0 => hsP (h0 ▸ hp)
      obtain ⟨hp1, hp2⟩ := htree p (List.mem_append_left _ hp)
      rw [hs1, hp2]
      apply treeSize_succ_le_of_lt d (by omega)
      rw [← hs, ← hp2]
      omega
    have hds : s < 1 + d * s := by
      have : s ≤ d * s := Nat.le_mul_of_pos_left _ (by omega)
      omega
    have hcntP : ∀ y, y ≠ s → (P ++ List.replicate d s).count y = P.count y := by
      intro y hy
      rw [List.count_append, List.count_replicate]
      have : (s == y) = false := by simpa using fun h0 : s = y => hy h0.symm
      simp [this]
    refine ⟨?_, ?_, ?_, ?_⟩
    · rw [List.pairwise_append]
      refine ⟨hsortP, List.pairwise_singleton _ _, ?_⟩
      intro a ha b hb
      simp only [List.mem_singleton] at hb
      subst hb
      exact hPge a ha
    · intro y hy
      rcases List.mem_append.mp hy with hy | hy
      · exact htree y (List.mem_append_left _ hy)
      · simp only [List.mem_singleton] at hy
        exact ⟨h + 1, hy.trans hs1⟩
    · intro y
      rw [List.count_append, List.count_singleton]
      by_cases hy : y = 1 + d * s
      · subst hy
        have h1 := hcntP (1 + d * s) (by omega)
        have h2 := hcnt (1 + d * s)
        have h3 : P.count (1 + d * s) ≠ d := by
          intro h0
          have := hmin (1 + d * s) (by omega) s hsmem
          omega
        simp only [beq_self_eq_true, if_true]
        omega
      · have h1 : ((1 + d * s) == y) = false := by simpa using fun h0 : 1 + d * s = y => hy h0.symm
        have h2 := hcnt y
        have h3 : P.count y ≤ (P ++ List.replicate d s).count y := by
          rw [List.count_append]
          omega
        simp only [h1]
        simp only [Bool.false_eq_true, if_false]
        omega
    · intro y hy z hz
      rw [List.count_append, List.count_singleton] at hy
      by_cases hy1 : y = 1 + d * s
      · subst hy1
        rcases List.mem_append.mp hz with hz | hz
        · exact hPge z hz
        · simp only [List.mem_singleton] at hz
          omega
      · have h1 : ((1 + d * s) == y) = false := by simpa using fun h0 : 1 + d * s = y => hy1 h0.symm
        simp only [h1, Bool.false_eq_true, if_false, Nat.add_zero] at hy
        have hyP : y ∈ P := List.count_pos_iff.mp (by omega)
        have hys : y ≠ s := fun h0 => hsP (h0 ▸ hyP)
        have h2 := hcntP y hys
        have h3 := hmin y (by omega) s hsmem
        have h4 := hPge y hyP
        omega
  · rw [pushLedger_plain d L hm]
    have hpos : ∀ a ∈ L, 1 ≤ a := by
      intro a ha
      obtain ⟨h, rfl⟩ := htree a ha
      exact treeSize_pos d h
    have hlt : ∀ y, L.count y ≠ d := by
      intro y hy
      obtain ⟨A, hA⟩ := sorted_min_suffix y L hsort (hmin y hy)
      rw [hy] at hA
      exact hm ⟨A, y, hA⟩
    refine ⟨?_, ?_, ?_, ?_⟩
    · rw [List.pairwise_append]
      refine ⟨hsort, List.pairwise_singleton _ _, ?_⟩
      intro a ha b hb
      simp only [List.mem_singleton] at hb
      subst hb
      exact hpos a ha
    · intro y hy
      rcases List.mem_append.mp hy with hy | hy
      · exact htree y hy
      · simp only [List.mem_singleton] at hy
        exact ⟨0, hy⟩
    · intro y
      rw [List.count_append, List.count_singleton]
      have h1 := hcnt y
      have h2 := hlt y
      split <;> omega
    · intro y hy z hz
      rw [List.count_append, List.count_singleton] at hy
      by_cases hy1 : y = 1
      · subst hy1
        rcases List.mem_append.mp hz with hz | hz
        · exact hpos z hz
        · simp only [List.mem_singleton] at hz
          omega
      · have h1 : ((1 : Nat) == y) = false := by simpa using fun h0 : 1 = y => hy1 h0.symm
        simp only [h1, Bool.false_eq_true, if_false, Nat.add_zero] at hy
        exact absurd hy (hlt y)

theorem pollLedger_concat (d : Nat) (hd : 2 ≤ d) (S : List Nat) (h : Nat) :
    pollLedger d (S ++ [treeSize d h])
      = match h with
        | 0 => S
        | k + 1 => S ++ List.replicate d (treeSize d k) := by
  cases h with
  | zero =>
    have h0 : treeSize d 0 / d = 0 := treeSize_zero_div d hd
    simp only [pollLedger, List.getLastD_concat, h0, ne_eq, not_true_eq_false, if_false,
      List.dropLast_concat]
  | succ k =>
    have h0 : treeSize d (k + 1) / d = treeSize d k := treeSize_succ_div d k hd
    have h1 : treeSize d k ≠ 0 := by
      have := treeSize_pos d k
      omega
    simp only [pollLedger, List.getLastD_concat, h0, ne_eq, h1, not_false_eq_true, if_true,
      List.dropLast_concat]

theorem LedgerInv.poll {d : Nat} (hd : 2 ≤ d) {L : List Nat} (hinv : LedgerInv d L) :
    LedgerInv d (pollLedger d L) := by
  rcases Nat.eq_zero_or_pos L.length with h0 | h0
  · have hnil : L = [] := List.length_eq_zero.mp h0
    subst hnil
    have : pollLedger d [] = [] := by simp [pollLedger]
    rw [this]
    exact LedgerInv.nil d
  · obtain ⟨S, back, rfl⟩ := exists_concat_of_length_pos L h0
    obtain ⟨hsort, htree, hcnt, hmin⟩ := hinv
    obtain ⟨h, hb⟩ := htree back (by simp)
    subst hb
    obtain ⟨hsortS, -, hcross⟩ := List.pairwise_append.mp hsort
    have hSge : ∀ z ∈ S, treeSize d h ≤ z := fun z hz => hcross z hz _ (by simp)
    have htreeS : ∀ s ∈ S, ∃ h, s = treeSize d h := fun s hs => htree s (by simp [hs])
    have hcntS : ∀ y, S.count y ≤ (S ++ [treeSize d h]).count y := by
      intro y
      rw [List.count_append]
      omega
    rw [pollLedger_concat d hd S h]
    cases h with
    | zero =>
      simp only
      refine ⟨hsortS, htreeS, ?_, ?_⟩
      · intro y
        have := hcnt y
        have := hcntS y
        omega
      · intro y hy z hz
        have h1 := hcnt y
        have h2 := hcntS y
        exact hmin y (by omega) z (by simp [hz])
    | succ k =>
      simp only
      have hlt : treeSize d k < treeSize d (k + 1) := treeSize_lt_succ d k (by omega)
      have htS : treeSize d k ∉ S := by
        intro h0
        have := hSge _ h0
        omega
      refine ⟨?_, ?_, ?_, ?_⟩
      · rw [List.pairwise_append]
        refine ⟨hsortS, ?_, ?_⟩
        · rw [List.pairwise_replicate]
          right
          exact Nat.le_refl _
        · intro a ha b hb
          have := hSge a ha
          rw [(List.mem_replicate.mp hb).2]
          omega
      · intro y hy
        rcases List.mem_append.mp hy with hy | hy
        · exact htreeS y hy
        · exact ⟨k, (List.mem_replicate.mp hy).2⟩
      · intro y
        rw [List.count_append, List.count_replicate]
        by_cases hy : treeSize d k = y
        · subst hy
          have := List.count_eq_zero.mpr htS
          simp only [beq_self_eq_true, if_true]
          omega
        · have h1 : (treeSize d k == y) = false := by simpa using hy
          have := hcnt y
          have := hcntS y
          simp only [h1, Bool.false_eq_true, if_false]
          omega
      · intro y hy z hz
        rw [List.count_append, List.count_replicate] at hy
        by_cases hy1 : treeSize d k = y
        · subst hy1
          rcases List.mem_append.mp hz with hz | hz
          · have := hSge z hz
            omega
          · rw [(List.mem_replicate.mp hz).2]
        · have h1 : (treeSize d k == y) = false := by simpa using hy1
          simp only [h1, Bool.false_eq_true, if_false, Nat.add_zero] at hy
          have hyS : y ∈ S := List.count_pos_iff.mp (by omega)
          have h2 := hcnt y
          have h3 : (S ++ [treeSize d (k + 1)]).count y
              = S.count y + (if treeSize d (k + 1) == y then 1 else 0) := by
            rw [List.count_append, List.count_singleton]
          have h4 : (treeSize d (k + 1) == y) = false := by
            by_contra h0
            simp only [Bool.not_eq_false] at h0
            rw [h0] at h3
            simp only [if_true] at h3
            omega
          simp only [h4, Bool.false_eq_true, if_false, Nat.add_zero] at h3
          have h5 := hmin y (by omega) (treeSize d (k + 1)) (by simp)
          have h6 := hSge y hyS
          have h7 : treeSize d (k + 1) ≠ y := by simpa using h4
          omega

theorem Reachable.ledgerInv {cmp : Int → Int → Bool} {d : Nat} (hd : 2 ≤ d)
    {st : postorder_heap} (hr : Reachable cmp d st) : LedgerInv d st._sizes := by
  induction hr with
  | init => exact LedgerInv.nil d
  | step_push hr0 hp ih =>
    obtain ⟨st2, h1, -, -, h4⟩ := push_shape cmp d hd _ _ (hr0.shapeInv hd)
    rw [hp] at h1
    cases h1
    rw [h4]
    exact ih.push hd
  | step_poll hr0 hp ih =>
    rename_i st0 st1 v
    have hne : st0._container ≠ [] := by
      intro h0
      unfold postorder_heap.poll at hp
      simp [h0, readAt] at hp
    obtain ⟨v2, st2, h1, -, -, h4, -⟩ := poll_shape cmp d hd _ (hr0.shapeInv hd) hne
    rw [hp] at h1
    cases h1
    rw [h4]
    exact ih.poll hd

/-- The closed form of the sizes of complete trees. -/
theorem treeSize_closed_form (d : Nat) (hd : 2 ≤ d) (h : Nat) :
    treeSize d h = (d ^ (h + 1) - 1) / (d - 1) := by
  have key : ∀ h, (d - 1) * treeSize d h + 1 = d ^ (h + 1) := by
    intro h
    induction h with
    | zero =>
      simp only [treeSize, Nat.mul_one, Nat.zero_add, Nat.pow_one]
      omega
    | succ k ih =>
      obtain ⟨e, rfl⟩ : ∃ e, d = e + 1 := ⟨d - 1, by omega⟩
      simp only [Nat.add_sub_cancel] at ih ⊢
      rw [Nat.pow_succ, ← ih]
      simp only [treeSize]
      ring
  have := key h
  have h1 : d ^ (h + 1) - 1 = (d - 1) * treeSize d h := by omega
  rw [h1, Nat.mul_div_cancel_left _ (by omega)]

theorem pollLedger_pushLedger (d : Nat) (hd : 2 ≤ d) (L : List Nat) (hpos : ∀ s ∈ L, 0 < s) :
    pollLedger d (pushLedger d L) = L := by
  rcases pushLedger_cases d L with ⟨P, s, h1, h2⟩ | h2
  · have hs : 0 < s := hpos s (by
      rw [h1]
      apply List.mem_append_right
      exact List.mem_replicate.mpr ⟨by omega, rfl⟩)
    have hdiv : (1 + d * s) / d = s := by
      have h0 : 1 / d = 0 := Nat.div_eq_of_lt (by omega)
      rw [Nat.add_mul_div_left _ _ (by omega), h0]
      omega
    rw [h2, h1]
    simp only [pollLedger, List.getLastD_concat, hdiv, ne_eq, List.dropLast_concat]
    rw [if_pos (by omega)]
  · have hdiv : 1 / d = 0 := Nat.div_eq_of_lt (by omega)
    rw [h2]
    simp only [pollLedger, List.getLastD_concat, hdiv, ne_eq, not_true_eq_false, if_false,
      List.dropLast_concat]

/-- Whatever the state, the ledger that a returning `push` leaves is the ledger of the
merge-on-insert rule. -/
theorem push_sizes (cmp : Int → Int → Bool) (st st1 : postorder_heap) (x : Int)
    (hd : 1 ≤ st._degree) (hp : push cmp st x = some st1) :
    st1._sizes = pushLedger st._degree st._sizes := by
  unfold push at hp
  by_cases hle : st._degree ≤ st._sizes.length
  · obtain ⟨pre, a, hpa, -⟩ := exists_concat_of_length_succ st._sizes (st._sizes.length - 1)
      (by omega)
    have hprelen : st._degree - 1 ≤ pre.length := by
      have := congrArg List.length hpa
      simp at this
      omega
    obtain ⟨b1, hb1, hb1iff⟩ := pushShouldMerge_spec (st._degree - 1) pre a [] true hprelen
    have hlast : st._sizes.getLastD 0 = a := by simp [hpa]
    have hdropL : st._sizes.drop (st._sizes.length - st._degree)
        = pre.drop (pre.length - (st._degree - 1)) ++ [a] := by
      rw [hpa]
      have : (pre ++ [a]).length - st._degree = pre.length - (st._degree - 1) := by
        simp
        omega
      rw [this, List.drop_append_of_le_length (by omega)]
    have hcond : (st._degree ≤ st._sizes.length ∧
        ∀ y ∈ st._sizes.drop (st._sizes.length - st._degree), y = st._sizes.getLastD 0)
        ↔ b1 = true := by
      rw [hb1iff, hdropL, hlast]
      simp only [List.mem_append, List.mem_singleton, true_and]
      constructor
      · rintro ⟨-, h⟩ y hy
        exact h y (Or.inl hy)
      · intro h
        refine ⟨hle, ?_⟩
        rintro y (hy | rfl)
        · exact h y hy
        · rfl
    have hb1b : pushShouldMerge st._sizes (st._degree - 1) 1 true = some b1 := by
      rw [hpa]
      simpa using hb1
    simp only [hle, if_true, hb1b] at hp
    cases hbv : b1 with
    | false =>
      subst hbv
      simp only [Bool.false_eq_true, if_false, Option.some.injEq] at hp
      have hc : ¬ (st._degree ≤ st._sizes.length ∧
          ∀ y ∈ st._sizes.drop (st._sizes.length - st._degree), y = st._sizes.getLastD 0) := by
        rw [hcond]
        simp
      subst hp
      simp only [pushLedger, hc, if_false]
    | true =>
      subst hbv
      have hreadlast : readAt st._sizes ((st._sizes.length : Int) - 1) = some a := by
        rw [hpa]
        apply readAt_mid
        simp
      have hpop := popBackN_spec st._degree st._sizes hle
      simp only [if_true, hreadlast, hpop] at hp
      have hc := hcond.mpr rfl
      cases hh : heapify cmp st._degree (st._container ++ [x])
          (((st._container ++ [x]).length : Int) - 1) (1 + st._degree * a) with
      | none =>
        rw [hh] at hp
        simp at hp
      | some c1 =>
        rw [hh] at hp
        simp only [Option.some.injEq] at hp
        subst hp
        have hall : ∀ y ∈ st._sizes.drop (st._sizes.length - st._degree), y = a := by
          rw [← hlast]
          exact hc.2
        simp only [pushLedger, hlast, hle, true_and]
        rw [if_pos hall]
  · simp only [hle, if_false, Option.some.injEq] at hp
    have hc : ¬ (st._degree ≤ st._sizes.length ∧
        ∀ y ∈ st._sizes.drop (st._sizes.length - st._degree), y = st._sizes.getLastD 0) :=
      fun h => hle h.1
    subst hp
    simp only [pushLedger, hc, if_false]

/-- C13: for every degree `d ≥ 2` and every comparator, in every state reached from the
empty heap by pushes and polls the ledger entries add up to the buffer length; every push
and, on a non-empty state, every poll returns and leads to a state in which they add up to
the buffer length again. -/
theorem ledger_sum_eq_buffer_length (cmp : Int → Int → Bool) (d : Nat) (hd : 2 ≤ d)
    (st : postorder_heap) (hr : Reachable cmp d st) :
    st._sizes.sum = st._container.length ∧
    (∀ x : Int, ∃ st1, push cmp st x = some st1 ∧ st1._sizes.sum = st1._container.length) ∧
    (st.size ≠ 0 →
      ∃ v st1, poll cmp st = some (v, st1) ∧ st1._sizes.sum = st1._container.length) := by
  have hinv := hr.shapeInv hd
  refine ⟨hinv.2.1, ?_, ?_⟩
  · intro x
    obtain ⟨st1, h1, h2, -⟩ := push_shape cmp d hd st x hinv
    exact ⟨st1, h1, h2.2.1⟩
  · intro hne
    obtain ⟨v, st1, h1, h2, -⟩ := poll_shape cmp d hd st hinv ((size_ne_zero_iff st).mp hne)
    exact ⟨v, st1, h1, h2.2.1⟩

theorem ledger_sum_eq_buffer_length_witness :
    2 ≤ 3 ∧ Reachable ltCmp 3 (postorder_heap.mk [5, 1] 3 [1, 1]) ∧
    ((postorder_heap.mk [5, 1] 3 [1, 1])._sizes.sum
        = (postorder_heap.mk [5, 1] 3 [1, 1])._container.length ∧
      (∀ x : Int, ∃ st1, push ltCmp (postorder_heap.mk [5, 1] 3 [1, 1]) x = some st1 ∧
        st1._sizes.sum = st1._container.length) ∧
      (size (postorder_heap.mk [5, 1] 3 [1, 1]) ≠ 0 →
        ∃ v st1, poll ltCmp (postorder_heap.mk [5, 1] 3 [1, 1]) = some (v, st1) ∧
          st1._sizes.sum = st1._container.length)) :=
  have hr : Reachable ltCmp 3 (postorder_heap.mk [5, 1] 3 [1, 1]) :=
    @Reachable.step_push ltCmp 3 (postorder_heap.mk [5] 3 [1]) _ 1
      (@Reachable.step_push ltCmp 3 (new 3) _ 5 Reachable.init (by decide)) (by decide)
  ⟨by decide, hr,
    ledger_sum_eq_buffer_length ltCmp 3 (by decide) (postorder_heap.mk [5, 1] 3 [1, 1]) hr⟩

/-- C14 as stated fails: with degree 2, after the two pushes 5 and 7 the ledger is `[1, 1]`,
so its last 2 entries are all equal. -/
theorem last_d_entries_equal_after_two_pushes :
    pushAll ltCmp (new 2) [5, 7] = some (postorder_heap.mk [5, 7] 2 [1, 1]) ∧
    lastAllEqual 2 (postorder_heap.mk [5, 7] 2 [1, 1])._sizes = true := by
  decide

/-- C14 as amended: for every degree `d ≥ 2` and every comparator, in every state reached
from the empty heap by pushes and polls the last `d + 1` entries of the ledger are not all
equal. -/
theorem last_entries_not_all_equal (cmp : Int → Int → Bool) (d : Nat) (hd : 2 ≤ d)
    (st : postorder_heap) (hr : Reachable cmp d st) :
    lastAllEqual (d + 1) st._sizes = false := by
  obtain ⟨-, -, hcnt, -⟩ := hr.ledgerInv hd
  by_contra hne
  simp only [Bool.not_eq_false] at hne
  simp only [lastAllEqual, Bool.and_eq_true, decide_eq_true_eq, List.all_eq_true,
    beq_iff_eq] at hne
  obtain ⟨hlen, hall⟩ := hne
  have hdrop : st._sizes.drop (st._sizes.length - (d + 1))
      = List.replicate (d + 1) (st._sizes.getLastD 0) := by
    rw [List.eq_replicate_iff]
    refine ⟨?_, hall⟩
    simp
    omega
  have h1 := hcnt (st._sizes.getLastD 0)
  have h2 : (st._sizes.drop (st._sizes.length - (d + 1))).count (st._sizes.getLastD 0)
      ≤ st._sizes.count (st._sizes.getLastD 0) :=
    (List.drop_sublist _ _).count_le _
  rw [hdrop, List.count_replicate_self] at h2
  omega

theorem last_entries_not_all_equal_witness :
    2 ≤ 2 ∧ Reachable ltCmp 2 (postorder_heap.mk [5, 7] 2 [1, 1]) ∧
    lastAllEqual (2 + 1) (postorder_heap.mk [5, 7] 2 [1, 1])._sizes = false :=
  have hr : Reachable ltCmp 2 (postorder_heap.mk [5, 7] 2 [1, 1]) :=
    @Reachable.step_push ltCmp 2 (postorder_heap.mk [5] 2 [1]) _ 7
      (@Reachable.step_push ltCmp 2 (new 2) _ 5 Reachable.init (by decide)) (by decide)
  ⟨by decide, hr,
    last_entries_not_all_equal ltCmp 2 (by decide) (postorder_heap.mk [5, 7] 2 [1, 1]) hr⟩

/-- C16: the merge-on-insert rule on the ledger.  For every degree `d ≥ 2`, every state of
that degree with ledger `L` and every pushed value: when `push` returns, the new ledger is
`L` with its last `d` entries removed and the entry `1 + d * s` appended if the last `d`
entries of `L` exist and all equal `s`, and `L` with the entry `1` appended otherwise; and
`push` does return on every state whose ledger fits its buffer. -/
theorem push_ledger_rule (cmp : Int → Int → Bool) (d : Nat) (hd : 2 ≤ d) (st : postorder_heap)
    (x : Int) (hdeg : st._degree = d) :
    (∀ st1, push cmp st x = some st1 →
      (∀ P s, st._sizes = P ++ List.replicate d s → st1._sizes = P ++ [1 + d * s]) ∧
      ((¬ ∃ P s, st._sizes = P ++ List.replicate d s) → st1._sizes = st._sizes ++ [1])) ∧
    (ShapeInv d st → ∃ st1, push cmp st x = some st1) := by
  constructor
  · intro st1 hp
    have h1 := push_sizes cmp st st1 x (by omega) hp
    rw [hdeg] at h1
    constructor
    · intro P s hL
      rw [h1, hL]
      exact pushLedger_merge d (by omega) P s
    · intro hm
      rw [h1]
      exact pushLedger_plain d _ hm
  · intro hinv
    obtain ⟨st1, h1, -⟩ := push_shape cmp d hd st x hinv
    exact ⟨st1, h1⟩

theorem push_ledger_rule_witness :
    2 ≤ 2 ∧ (postorder_heap.mk [5, 6, 2, 1, 3] 2 [3, 1, 1])._degree = 2 ∧
    ((∀ st1, push ltCmp (postorder_heap.mk [5, 6, 2, 1, 3] 2 [3, 1, 1]) 4 = some st1 →
      (∀ P s, (postorder_heap.mk [5, 6, 2, 1, 3] 2 [3, 1, 1])._sizes = P ++ List.replicate 2 s →
        st1._sizes = P ++ [1 + 2 * s]) ∧
      ((¬ ∃ P s, (postorder_heap.mk [5, 6, 2, 1, 3] 2 [3, 1, 1])._sizes
          = P ++ List.replicate 2 s) →
        st1._sizes = (postorder_heap.mk [5, 6, 2, 1, 3] 2 [3, 1, 1])._sizes ++ [1])) ∧
    (ShapeInv 2 (postorder_heap.mk [5, 6, 2, 1, 3] 2 [3, 1, 1]) →
      ∃ st1, push ltCmp (postorder_heap.mk [5, 6, 2, 1, 3] 2 [3, 1, 1]) 4 = some st1)) :=
  ⟨by decide, rfl,
    push_ledger_rule ltCmp 2 (by decide) (postorder_heap.mk [5, 6, 2, 1, 3] 2 [3, 1, 1]) 4 rfl⟩

/-- C19: the ledger shape invariant.  For every degree `d ≥ 2` and every comparator, in every
state reached from the empty heap by pushes and polls every ledger entry is the size
`(d ^ k - 1) / (d - 1)` of a complete tree with `k ≥ 1` levels, the entries are
non-increasing from left to right, the smallest size occurs at most `d` times and every
other size occurs at most `d - 1` times. -/
theorem ledger_shape (cmp : Int → Int → Bool) (d : Nat) (hd : 2 ≤ d) (st : postorder_heap)
    (hr : Reachable cmp d st) :
    (∀ s ∈ st._sizes, ∃ k, 1 ≤ k ∧ s = (d ^ k - 1) / (d - 1)) ∧
    List.Pairwise (fun a b : Nat => b ≤ a) st._sizes ∧
    (∀ s ∈ st._sizes, (∀ y ∈ st._sizes, s ≤ y) → st._sizes.count s ≤ d) ∧
    (∀ s ∈ st._sizes, (∃ y ∈ st._sizes, y < s) → st._sizes.count s ≤ d - 1) := by
  obtain ⟨hsort, htree, hcnt, hmin⟩ := hr.ledgerInv hd
  refine ⟨?_, hsort, fun s _ _ => hcnt s, ?_⟩
  · intro s hs
    obtain ⟨h, rfl⟩ := htree s hs
    exact ⟨h + 1, by omega, treeSize_closed_form d hd h⟩
  · rintro s - ⟨y, hy, hys⟩
    have h1 := hcnt s
    have h2 : st._sizes.count s ≠ d := by
      intro h0
      have := hmin s h0 y hy
      omega
    omega

theorem ledger_shape_witness :
    2 ≤ 2 ∧ Reachable ltCmp 2 (postorder_heap.mk [5, 7] 2 [1, 1]) ∧
    ((∀ s ∈ (postorder_heap.mk [5, 7] 2 [1, 1])._sizes,
        ∃ k, 1 ≤ k ∧ s = (2 ^ k - 1) / (2 - 1)) ∧
    List.Pairwise (fun a b : Nat => b ≤ a) (postorder_heap.mk [5, 7] 2 [1, 1])._sizes ∧
    (∀ s ∈ (postorder_heap.mk [5, 7] 2 [1, 1])._sizes,
      (∀ y ∈ (postorder_heap.mk [5, 7] 2 [1, 1])._sizes, s ≤ y) →
      (postorder_heap.mk [5, 7] 2 [1, 1])._sizes.count s ≤ 2) ∧
    (∀ s ∈ (postorder_heap.mk [5, 7] 2 [1, 1])._sizes,
      (∃ y ∈ (postorder_heap.mk [5, 7] 2 [1, 1])._sizes, y < s) →
      (postorder_heap.mk [5, 7] 2 [1, 1])._sizes.count s ≤ 2 - 1)) :=
  have hr : Reachable ltCmp 2 (postorder_heap.mk [5, 7] 2 [1, 1]) :=
    @Reachable.step_push ltCmp 2 (postorder_heap.mk [5] 2 [1]) _ 7
      (@Reachable.step_push ltCmp 2 (new 2) _ 5 Reachable.init (by decide)) (by decide)
  ⟨by decide, hr, ledger_shape ltCmp 2 (by decide) (postorder_heap.mk [5, 7] 2 [1, 1]) hr⟩

/-- C20: `poll` undoes `push` on the ledger.  For every degree `d ≥ 2`, every comparator,
every state reached from the empty heap by pushes and polls and every value `x`, `push(x)`
returns, the following `poll()` returns, and the ledger after the two calls is the ledger
before them. -/
theorem poll_undoes_push_on_ledger (cmp : Int → Int → Bool) (d : Nat) (hd : 2 ≤ d)
    (st : postorder_heap) (hr : Reachable cmp d st) (x : Int) :
    ∃ st1 v st2, push cmp st x = some st1 ∧ poll cmp st1 = some (v, st2) ∧
      st2._sizes = st._sizes := by
  have hinv := hr.shapeInv hd
  obtain ⟨st1, h1, h2, h3, h4⟩ := push_shape cmp d hd st x hinv
  have hne : st1._container ≠ [] := by
    intro h0
    have := h3.length_eq
    rw [h0] at this
    simp at this
  obtain ⟨v, st2, g1, -, -, g4, -⟩ := poll_shape cmp d hd st1 h2 hne
  refine ⟨st1, v, st2, h1, g1, ?_⟩
  rw [g4, h4]
  exact pollLedger_pushLedger d hd st._sizes hinv.sizes_pos

theorem poll_undoes_push_on_ledger_witness :
    2 ≤ 2 ∧ Reachable ltCmp 2 (postorder_heap.mk [5, 7] 2 [1, 1]) ∧
    ∃ st1 v st2, push ltCmp (postorder_heap.mk [5, 7] 2 [1, 1]) 3 = some st1 ∧
      poll ltCmp st1 = some (v, st2) ∧
      st2._sizes = (postorder_heap.mk [5, 7] 2 [1, 1])._sizes :=
  have hr : Reachable ltCmp 2 (postorder_heap.mk [5, 7] 2 [1, 1]) :=
    @Reachable.step_push ltCmp 2 (postorder_heap.mk [5] 2 [1]) _ 7
      (@Reachable.step_push ltCmp 2 (new 2) _ 5 Reachable.init (by decide)) (by decide)
  ⟨by decide, hr,
    poll_undoes_push_on_ledger ltCmp 2 (by decide) (postorder_heap.mk [5, 7] 2 [1, 1]) hr 3⟩

/-- C18: `poll()` removes exactly the element it returns.  For degree 2, every comparator
and every non-empty state reached from the empty heap by pushes and polls, `poll()` returns,
the returned value occurs in the buffer before the call, and the buffer after the call is a
rearrangement of the buffer before the call with one occurrence of that value removed. -/
theorem poll_removes_returned_value (cmp : Int → Int → Bool) (st : postorder_heap)
    (hr : Reachable cmp 2 st) (hne : st.size ≠ 0) :
    ∃ v st1, poll cmp st = some (v, st1) ∧ v ∈ st._container ∧
      st1._container.Perm (st._container.erase v) := by
  obtain ⟨v, st1, h1, -, -, -, h5⟩ := poll_shape cmp 2 (Nat.le_refl 2) st
    (hr.shapeInv (Nat.le_refl 2)) ((size_ne_zero_iff st).mp hne)
  refine ⟨v, st1, h1, ?_, ?_⟩
  · exact h5.symm.subset (List.mem_cons_self v _)
  · have := h5.erase v
    rw [List.erase_cons_head] at this
    exact this.symm

theorem poll_removes_returned_value_witness :
    Reachable ltCmp 2 (postorder_heap.mk [5, 7] 2 [1, 1]) ∧
    size (postorder_heap.mk [5, 7] 2 [1, 1]) ≠ 0 ∧
    ∃ v st1, poll ltCmp (postorder_heap.mk [5, 7] 2 [1, 1]) = some (v, st1) ∧
      v ∈ (postorder_heap.mk [5, 7] 2 [1, 1])._container ∧
      st1._container.Perm ((postorder_heap.mk [5, 7] 2 [1, 1])._container.erase v) :=
  have hr : Reachable ltCmp 2 (postorder_heap.mk [5, 7] 2 [1, 1]) :=
    @Reachable.step_push ltCmp 2 (postorder_heap.mk [5] 2 [1]) _ 7
      (@Reachable.step_push ltCmp 2 (new 2) _ 5 Reachable.init (by decide)) (by decide)
  ⟨hr, by decide,
    poll_removes_returned_value ltCmp (postorder_heap.mk [5, 7] 2 [1, 1]) hr (by decide)⟩

/-! ## Slices of the buffer -/

theorem slice_length (buf : List Int) (a n : Nat) (h : a + n ≤ buf.length) :
    (slice buf a n).length = n := by
  simp only [slice, List.length_take, List.length_drop]
  omega

theorem slice_add (buf : List Int) (a n m : Nat) :
    slice buf a (n + m) = slice buf a n ++ slice buf (a + n) m := by
  simp only [slice, List.take_add, List.drop_drop]

theorem slice_decomp (buf : List Int) (a n : Nat) :
    buf = buf.take a ++ slice buf a n ++ buf.drop (a + n) := by
  have h1 : slice buf a n ++ buf.drop (a + n) = buf.drop a := by
    simp only [slice]
    rw [← List.drop_drop, List.take_append_drop]
  rw [List.append_assoc, h1, List.take_append_drop]

theorem slice_of_append (pre l post : List Int) :
    slice (pre ++ l ++ post) pre.length l.length = l := by
  simp [slice]

theorem slice_chunks (buf : List Int) (n : Nat) : ∀ (m a : Nat),
    slice buf a (m * n) = ((List.range m).map (fun i => slice buf (a + i * n) n)).flatten := by
  intro m
  induction m with
  | zero =>
    intro a
    simp [slice]
  | succ m ih =>
    intro a
    rw [Nat.succ_mul, slice_add, ih a, List.range_succ, List.map_append, List.flatten_append]
    simp

theorem slice_last (buf : List Int) (a n : Nat) (b : List Int) (x : Int)
    (hs : slice buf a n = b ++ [x]) (i : Int) (hi : i = ((a + n : Nat) : Int) - 1)
    (hle : a + n ≤ buf.length) : readAt buf i = some x := by
  have hlen := slice_length buf a n hle
  rw [hs] at hlen
  simp only [List.length_append, List.length_singleton] at hlen
  have hdec := slice_decomp buf a n
  rw [hs] at hdec
  have hdec2 : buf = (buf.take a ++ b) ++ x :: buf.drop (a + n) := by
    conv => lhs; rw [hdec]
    simp
  rw [hdec2]
  apply readAt_mid
  rw [hi]
  simp only [List.length_append, List.length_take]
  omega

/-! ## The sift-down under an arbitrary strict weak ordering -/

theorem IsHeapC.length_eq_treeSize {cmp : Int → Int → Bool} {d : Nat} :
    ∀ {h : Nat} {l : List Int}, IsHeapC cmp d h l →
    l.length = treeSize d h := by
  intro h
  induction h with
  | zero =>
    rintro l ⟨v, rfl⟩
    rfl
  | succ k ih =>
    rintro l ⟨cs, v, rfl, hlen, hcs⟩
    have h1 := length_flatten_chunks (treeSize d k) cs (fun c hc => ih (hcs c hc).1)
    simp [treeSize, h1, hlen]
    omega

theorem IsHeapC.children_subHeaps {cmp : Int → Int → Bool} {d h : Nat} {b : List Int} {r : Int}
    (hl : IsHeapC cmp d h (b ++ [r])) :
    SubHeapsC cmp d h b := by
  cases h with
  | zero =>
    obtain ⟨v, hv⟩ := hl
    have := congrArg List.length hv
    simp at this
    simpa [SubHeapsC] using this
  | succ k =>
    obtain ⟨cs, v, hv, hlen, hcs⟩ := hl
    obtain ⟨h1, -⟩ := List.append_inj' hv (by simp)
    exact ⟨cs, h1, hlen, fun c hc => (hcs c hc).1⟩

theorem IsHeapC.root_first {cmp : Int → Int → Bool} {d h : Nat} {b : List Int} {r : Int}
    (hl : IsHeapC cmp d h (b ++ [r])) : ∀ y ∈ b, cmp y r = false := by
  cases h with
  | zero =>
    obtain ⟨v, hv⟩ := hl
    have := congrArg List.length hv
    simp at this
    subst this
    simp
  | succ k =>
    obtain ⟨cs, v, hv, hlen, hcs⟩ := hl
    obtain ⟨h1, h2⟩ := List.append_inj' hv (by simp)
    simp at h2
    subst h1 h2
    intro y hy
    obtain ⟨c, hc, hyc⟩ := List.mem_flatten.mp hy
    exact (hcs c hc).2 y hyc

theorem IsHeapC.root_first_of_all {cmp : Int → Int → Bool} (hswo : StrictWeakOrder cmp)
    {d h : Nat}
    {c b : List Int} {r : Int} (hc : IsHeapC cmp d h c) (hbr : c = b ++ [r]) :
    ∀ y ∈ c, cmp y r = false := by
  subst hbr
  intro y hy
  rcases List.mem_append.mp hy with hy | hy
  · exact hc.root_first y hy
  · simp at hy
    subst hy
    exact hswo.1 _

theorem IsHeapC.nonempty {cmp : Int → Int → Bool} {d h : Nat} {t : List Int}
    (ht : IsHeapC cmp d h t) : t ≠ [] := by
  have h1 := ht.length_eq_treeSize
  have h2 := treeSize_pos d h
  intro h0
  rw [h0] at h1
  simp at h1
  omega

theorem heapifyChildren_specC (cmp : Int → Int → Bool) (hswo : StrictWeakOrder cmp)
    (pre post : List Int) (x : Int) (n : Nat)
    (hn : 0 < n) :
    ∀ (m : Nat) (rest scanned L R : List (List Int)) (cb : List Int) (pc : Int) (rci pi : Int),
      rest.length = m → (∀ c ∈ rest, c.length = n) → (∀ c ∈ scanned, c.length = n) →
      scanned = L ++ (cb ++ [pc]) :: R →
      rci = ((pre.length + (rest ++ scanned).flatten.length : Nat) : Int) - 1 →
      pi = ((pre.length + rest.flatten.length + L.flatten.length + cb.length : Nat) : Int) →
      ∃ (L1 R1 : List (List Int)) (cb1 : List Int) (pc1 : Int),
        heapifyChildren cmp (pre ++ (rest ++ scanned).flatten ++ x :: post) rci n m
          scanned.length pi pc
          = some (((pre.length + L1.flatten.length + cb1.length : Nat) : Int), pc1) ∧
        rest ++ scanned = L1 ++ (cb1 ++ [pc1]) :: R1 ∧
        ((∀ c ∈ scanned, ∀ b r, c = b ++ [r] → cmp r pc = false) →
          ∀ c ∈ rest ++ scanned, ∀ b r, c = b ++ [r] → cmp r pc1 = false) := by
  intro m
  induction m with
  | zero =>
    intro rest scanned L R cb pc rci pi hlen _ _ hsc _ hpi
    have hnil : rest = [] := List.length_eq_zero.mp hlen
    subst hnil
    refine ⟨L, R, cb, pc, ?_, by simpa using hsc, ?_⟩
    · simp [heapifyChildren, hpi]
    · intro hle
      simpa using hle
  | succ m ih =>
    intro rest scanned L R cb pc rci pi hlen hrest hscan hsc hrci hpi
    obtain ⟨rest1, c, rfl, hr1⟩ := exists_concat_of_length_succ rest m hlen
    have hc : c.length = n := hrest c (by simp)
    obtain ⟨cb0, r0, rfl⟩ := exists_concat_of_length_pos c (by omega)
    have hl : (rest1 ++ [cb0 ++ [r0]]) ++ scanned = rest1 ++ (cb0 ++ [r0]) :: scanned := by simp
    rw [hl] at hrci ⊢
    have hflat : scanned.flatten.length = scanned.length * n :=
      length_flatten_chunks n scanned hscan
    have hscan1 : ∀ c ∈ (cb0 ++ [r0]) :: scanned, c.length = n := by
      intro c1 hc1
      rcases List.mem_cons.mp hc1 with rfl | hc1
      · exact hc
      · exact hscan c1 hc1
    have hrest1 : ∀ c ∈ rest1, c.length = n := fun c1 hc1 => hrest c1 (by simp [hc1])
    have hidx : rci - ((scanned.length : Int) * (n : Int))
        = (((pre ++ rest1.flatten ++ cb0).length : Nat) : Int) := by
      simp at hc
      subst hrci
      simp only [List.flatten_append, List.flatten_cons, List.length_append, List.length_cons,
        List.length_nil, hflat]
      push_cast
      omega
    have hread : readAt (pre ++ (rest1 ++ (cb0 ++ [r0]) :: scanned).flatten ++ x :: post)
        (rci - ((scanned.length : Int) * (n : Int))) = some r0 := by
      have hbuf : pre ++ (rest1 ++ (cb0 ++ [r0]) :: scanned).flatten ++ x :: post
          = (pre ++ rest1.flatten ++ cb0) ++ r0 :: (scanned.flatten ++ x :: post) := by simp
      rw [hbuf]
      exact readAt_mid _ _ _ _ hidx
    rw [heapifyChildren]
    simp only [hread]
    by_cases hcmp : cmp r0 pc = true
    · simp only [hcmp, if_true]
      obtain ⟨L1, R1, cb1, pc1, h1, h2, h3⟩ :=
        ih rest1 ((cb0 ++ [r0]) :: scanned) [] scanned cb0 r0
        rci (rci - ((scanned.length : Int) * (n : Int))) hr1 hrest1 hscan1 (by simp) hrci
        (by rw [hidx]; simp; omega)
      refine ⟨L1, R1, cb1, pc1, ?_, h2, ?_⟩
      · simpa using h1
      · intro hle
        apply h3
        intro c1 hc1 b r hbr
        rcases List.mem_cons.mp hc1 with rfl | hc1
        · obtain ⟨-, h5⟩ := List.append_inj' hbr (by simp)
          simp at h5
          subst h5
          exact hswo.1 _
        · have h6 := hle c1 hc1 b r hbr
          cases h7 : cmp r r0 with
          | false => rfl
          | true =>
            have h8 := hswo.2.1 r r0 pc h7 hcmp
            rw [h6] at h8
            exact absurd h8 (by simp)
    · simp only [hcmp]
      obtain ⟨L1, R1, cb1, pc1, h1, h2, h3⟩ := ih rest1 ((cb0 ++ [r0]) :: scanned)
        ((cb0 ++ [r0]) :: L) R cb pc rci pi hr1 hrest1 hscan1 (by simp [hsc]) hrci
        (by rw [hpi]; simp; omega)
      refine ⟨L1, R1, cb1, pc1, ?_, h2, ?_⟩
      · simpa using h1
      · intro hle
        apply h3
        intro c1 hc1 b r hbr
        rcases List.mem_cons.mp hc1 with rfl | hc1
        · obtain ⟨-, h5⟩ := List.append_inj' hbr (by simp)
          simp at h5
          subst h5
          simpa using hcmp
        · exact hle c1 hc1 b r hbr

theorem heapifyLoop_specC (cmp : Int → Int → Bool) (hswo : StrictWeakOrder cmp) (d : Nat)
    (hd : 2 ≤ d) (v : Int) :
    ∀ (h fuel : Nat) (pre body post : List Int) (x : Int) (index : Int),
      body.length + 1 = treeSize d h → h + 1 ≤ fuel →
      index = ((pre.length + body.length : Nat) : Int) →
      ∃ l1, heapifyLoop cmp d v fuel (pre ++ body ++ x :: post) index (treeSize d h)
            = some (pre ++ l1 ++ post) ∧
          l1.Perm (body ++ [v]) ∧
          (SubHeapsC cmp d h body → IsHeapC cmp d h l1) := by
  intro h
  induction h with
  | zero =>
    intro fuel pre body post x index hlen hfuel hidx
    obtain ⟨f, rfl⟩ : ∃ f, fuel = f + 1 := ⟨fuel - 1, by omega⟩
    have hb : body = [] := by
      simp [treeSize] at hlen
      exact hlen
    subst hb
    refine ⟨[v], ?_, List.Perm.refl _, fun _ => ⟨v, rfl⟩⟩
    rw [heapifyLoop]
    simp only [treeSize, gt_iff_lt, lt_self_iff_false, if_false]
    have := writeAt_mid pre x post v index (by simpa using hidx)
    simpa using this
  | succ k ih =>
    intro fuel pre body post x index hlen hfuel hidx
    obtain ⟨f, rfl⟩ : ∃ f, fuel = f + 1 := ⟨fuel - 1, by omega⟩
    have hn : 0 < treeSize d k := treeSize_pos d k
    have hbody : body.length = d * treeSize d k := by
      simp only [treeSize] at hlen
      omega
    -- the child spans
    have key : ∃ cs : List (List Int), body = cs.flatten ∧ cs.length = d ∧
        (∀ c ∈ cs, c.length = treeSize d k) ∧
        (SubHeapsC cmp d (k + 1) body → ∀ c ∈ cs, IsHeapC cmp d k c) := by
      by_cases hs : SubHeapsC cmp d (k + 1) body
      · obtain ⟨cs, h1, h2, h3⟩ := hs
        exact ⟨cs, h1, h2, fun c hc => (h3 c hc).length_eq_treeSize, fun _ => h3⟩
      · obtain ⟨cs, h1, h2, h3⟩ := exists_chunks (treeSize d k) d body hbody
        exact ⟨cs, h3.symm, h1, h2, fun hs1 => absurd hs1 hs⟩
    obtain ⟨cs, rfl, hcslen, hcs, hheap⟩ := key
    obtain ⟨rest, clast, rfl, hrest⟩ := exists_concat_of_length_succ cs (d - 1) (by omega)
    have hclast : clast.length = treeSize d k := hcs clast (by simp)
    obtain ⟨cbL, rL, rfl⟩ := exists_concat_of_length_pos clast (by omega)
    have hrestlen : ∀ c ∈ rest, c.length = treeSize d k := fun c hc => hcs c (by simp [hc])
    have hidx1 : index - 1
        = (((pre ++ rest.flatten ++ cbL).length : Nat) : Int) := by
      subst hidx
      simp only [List.flatten_append, List.flatten_cons, List.length_append, List.length_cons,
        List.length_nil, List.flatten_nil]
      push_cast
      omega
    have hread : readAt (pre ++ (rest ++ [cbL ++ [rL]]).flatten ++ x :: post) (index - 1)
        = some rL := by
      have hbuf : pre ++ (rest ++ [cbL ++ [rL]]).flatten ++ x :: post
          = (pre ++ rest.flatten ++ cbL) ++ rL :: (x :: post) := by simp
      rw [hbuf]
      exact readAt_mid _ _ _ _ hidx1
    obtain ⟨L1, R1, cb1, pc1, hch, hdec, hmin⟩ := heapifyChildren_specC cmp hswo pre post x
      (treeSize d k) hn (d - 1) rest [cbL ++ [rL]] [] [] cbL rL (index - 1) (index - 1) hrest
      hrestlen (by simpa using hclast) (by simp) (by rw [hidx]) (by rw [hidx1]; simp; omega)
    have hmin1 : ∀ c ∈ rest ++ [cbL ++ [rL]], ∀ b r, c = b ++ [r] → cmp r pc1 = false := by
      apply hmin
      intro c hc b r hbr
      simp at hc
      subst hc
      obtain ⟨-, h5⟩ := List.append_inj' hbr (by simp)
      simp at h5
      subst h5
      exact hswo.1 _
    have hd0 : d ≠ 0 := by omega
    have hgt : treeSize d (k + 1) > 1 := by
      have := treeSize_lt_succ d k (by omega)
      omega
    rw [heapifyLoop]
    simp only [hgt, if_true, hd0, if_false, treeSize_succ_div d k hd, hread]
    simp only [List.length_singleton] at hch
    simp only [hch]
    have hwrite : ∀ y, writeAt (pre ++ (rest ++ [cbL ++ [rL]]).flatten ++ x :: post) index y
        = some (pre ++ (rest ++ [cbL ++ [rL]]).flatten ++ y :: post) := by
      intro y
      have := writeAt_mid (pre ++ (rest ++ [cbL ++ [rL]]).flatten) x post y index
        (by rw [hidx]; simp)
      simpa using this
    by_cases hcmp : cmp pc1 v = true
    · -- the prioritised child moves up and the loop descends into its span
      simp only [hcmp, Bool.not_true, hwrite]
      have hcb1 : (cb1 ++ [pc1]).length = treeSize d k := hcs _ (by rw [hdec]; simp)
      have hB1 : pre ++ (rest ++ [cbL ++ [rL]]).flatten ++ pc1 :: post
          = (pre ++ L1.flatten) ++ cb1 ++ pc1 :: (R1.flatten ++ pc1 :: post) := by
        rw [hdec]
        simp
      obtain ⟨l2, hl2, hperm, hheap2⟩ := ih f (pre ++ L1.flatten) cb1
        (R1.flatten ++ pc1 :: post) pc1
        (((pre.length + L1.flatten.length + cb1.length : Nat) : Int))
        (by simpa using hcb1) (by omega) (by simp)
      refine ⟨(L1 ++ l2 :: R1).flatten ++ [pc1], ?_, ?_, ?_⟩
      · simp only [Bool.false_eq_true, if_false]
        rw [hB1, hl2]
        simp
      · rw [hdec]
        rw [List.perm_iff_count]
        intro a
        have := hperm.count_eq a
        simp only [List.flatten_append, List.flatten_cons, List.count_append, List.count_cons,
          List.count_nil] at this ⊢
        omega
      · intro hs
        have hall := hheap hs
        have hcs1 : IsHeapC cmp d k (cb1 ++ [pc1]) := hall _ (by rw [hdec]; simp)
        refine ⟨L1 ++ l2 :: R1, pc1, rfl, ?_, ?_⟩
        · have := congrArg List.length hdec
          simp at this ⊢
          simp at hcslen
          omega
        · intro c hc
          have hc1 : c = l2 ∨ c ∈ rest ++ [cbL ++ [rL]] := by
            rw [hdec]
            simp at hc ⊢
            tauto
          rcases hc1 with rfl | hc1
          · refine ⟨hheap2 hcs1.children_subHeaps, ?_⟩
            intro y hy
            have hy1 := hperm.mem_iff.mp hy
            rcases List.mem_append.mp hy1 with hy2 | hy2
            · exact hcs1.root_first y hy2
            · simp at hy2
              subst hy2
              cases h7 : cmp y pc1 with
              | false => rfl
              | true =>
                have h8 := hswo.2.1 pc1 y pc1 hcmp h7
                rw [hswo.1 pc1] at h8
                exact absurd h8 (by simp)
          · refine ⟨hall c hc1, ?_⟩
            have hclen : c.length = treeSize d k := hcs c hc1
            obtain ⟨b, r, hbr⟩ := exists_concat_of_length_pos c (by omega)
            intro y hy
            have h7 := (hall c hc1).root_first_of_all hswo hbr y hy
            have h8 := hmin1 c hc1 b r hbr
            exact hswo.2.2 y r pc1 h7 h8
    · -- the held value already has priority over every child
      simp only [hcmp, Bool.not_false, if_true, hwrite]
      refine ⟨(rest ++ [cbL ++ [rL]]).flatten ++ [v], by simp, List.Perm.refl _, ?_⟩
      intro hs
      have hall := hheap hs
      refine ⟨rest ++ [cbL ++ [rL]], v, rfl, hcslen, ?_⟩
      intro c hc
      refine ⟨hall c hc, ?_⟩
      have hclen : c.length = treeSize d k := hcs c hc
      obtain ⟨b, r, hbr⟩ := exists_concat_of_length_pos c (by omega)
      intro y hy
      have h7 := (hall c hc).root_first_of_all hswo hbr y hy
      have h8 := hmin1 c hc b r hbr
      have h9 : cmp pc1 v = false := by simpa using hcmp
      exact hswo.2.2 y pc1 v (hswo.2.2 y r pc1 h7 h8) h9

theorem heapify_specC (cmp : Int → Int → Bool) (hswo : StrictWeakOrder cmp) (d : Nat)
    (hd : 2 ≤ d) (h : Nat)
    (pre body post : List Int) (x : Int) (index : Int)
    (hlen : body.length + 1 = treeSize d h)
    (hidx : index = ((pre.length + body.length : Nat) : Int)) :
    ∃ l1, heapify cmp d (pre ++ body ++ x :: post) index (treeSize d h)
          = some (pre ++ l1 ++ post) ∧
        l1.Perm (body ++ [x]) ∧
        (SubHeapsC cmp d h body → IsHeapC cmp d h l1) := by
  have hread : readAt (pre ++ body ++ x :: post) index = some x :=
    readAt_mid (pre ++ body) x post index (by rw [hidx]; simp)
  have hfuel : h + 1 ≤ treeSize d h + 1 := by
    have := lt_treeSize d h (by omega)
    omega
  obtain ⟨l1, h1, h2, h3⟩ :=
    heapifyLoop_specC cmp hswo d hd x h (treeSize d h + 1) pre body post x
    index hlen hfuel hidx
  refine ⟨l1, ?_, h2, h3⟩
  unfold heapify
  simp only [hread]
  exact h1

/-! ## The index check and the list form of heap order -/

theorem IsHeapC.heapOrderedAtC_eq_true {cmp : Int → Int → Bool} {d : Nat} (hd : 2 ≤ d) :
    ∀ (h : Nat) (l : List Int), IsHeapC cmp d h l →
      ∀ (pre post : List Int) (fuel : Nat) (r : Int),
      h + 1 ≤ fuel → r = ((pre.length + l.length : Nat) : Int) - 1 →
      heapOrderedAtC cmp d (pre ++ l ++ post) fuel r (treeSize d h) = true := by
  intro h
  induction h with
  | zero =>
    rintro l ⟨v, rfl⟩ pre post fuel r hfuel hr
    obtain ⟨f, rfl⟩ : ∃ f, fuel = f + 1 := ⟨fuel - 1, by omega⟩
    have hread : readAt (pre ++ v :: post) r = some v := by
      apply readAt_mid
      simp at hr
      omega
    simp [heapOrderedAtC, treeSize, hread]
  | succ k ih =>
    rintro l ⟨cs, v, rfl, hcslen, hcs⟩ pre post fuel r hfuel hr
    obtain ⟨f, rfl⟩ : ∃ f, fuel = f + 1 := ⟨fuel - 1, by omega⟩
    have hn := treeSize_pos d k
    have hne1 : treeSize d (k + 1) ≠ 1 := by
      have := treeSize_lt_succ d k (by omega)
      omega
    have hdiv : (treeSize d (k + 1) - 1) / d = treeSize d k := by
      simp only [treeSize, Nat.add_sub_cancel_left]
      exact Nat.mul_div_cancel_left _ (by omega)
    have hchunks : ∀ c ∈ cs, c.length = treeSize d k :=
      fun c hc => (hcs c hc).1.length_eq_treeSize
    have hreadr : readAt (pre ++ (cs.flatten ++ [v]) ++ post) r = some v := by
      have : pre ++ (cs.flatten ++ [v]) ++ post = (pre ++ cs.flatten) ++ v :: post := by simp
      rw [this]
      apply readAt_mid
      simp only [List.length_append, List.length_singleton] at hr ⊢
      omega
    rw [heapOrderedAtC]
    simp only [hne1, if_false, hdiv]
    have hsz : treeSize d (k + 1) = 1 + d * treeSize d k := rfl
    simp only [hsz, decide_True, hn, Bool.true_and, List.all_eq_true, List.mem_range,
      Bool.and_eq_true, hreadr]
    intro k0 hk0
    obtain ⟨L, c, R, hdec, hR⟩ := exists_split_from_right cs k0 (by omega)
    have hc : c ∈ cs := by rw [hdec]; simp
    obtain ⟨cb, rc, hcb⟩ := exists_concat_of_length_pos c (by rw [hchunks c hc]; exact hn)
    have hRchunks : ∀ c1 ∈ R, c1.length = treeSize d k := fun c1 hc1 =>
      hchunks c1 (by rw [hdec]; simp [hc1])
    have hRflat := length_flatten_chunks (treeSize d k) R hRchunks
    have hclen : cb.length + 1 = treeSize d k := by
      have := hchunks c hc
      rw [hcb] at this
      simpa using this
    have hbuf : pre ++ (cs.flatten ++ [v]) ++ post
        = (pre ++ L.flatten ++ cb) ++ rc :: (R.flatten ++ v :: post) := by
      rw [hdec, hcb]
      simp
    have hci : r - 1 - (k0 : Int) * (treeSize d k : Int)
        = (((pre ++ L.flatten ++ cb).length : Nat) : Int) := by
      rw [hr, hdec, hcb]
      simp only [List.flatten_append, List.flatten_cons, List.length_append, List.length_cons,
        List.length_nil, hRflat, hR]
      push_cast
      omega
    have hreadc : readAt (pre ++ (cs.flatten ++ [v]) ++ post)
        (r - 1 - (k0 : Int) * (treeSize d k : Int)) = some rc := by
      rw [hbuf]
      exact readAt_mid _ _ _ _ hci
    have hle : cmp rc v = false := (hcs c hc).2 rc (by rw [hcb]; simp)
    refine ⟨?_, ?_⟩
    · simp only [hreadc, hle]
      rfl
    · have hbuf2 : pre ++ (cs.flatten ++ [v]) ++ post
          = (pre ++ L.flatten) ++ c ++ (R.flatten ++ v :: post) := by
        rw [hdec]
        simp
      rw [hbuf2]
      apply ih c (hcs c hc).1 (pre ++ L.flatten) (R.flatten ++ v :: post) f _ (by omega)
      rw [hci, hcb]
      simp only [List.length_append, List.length_singleton]
      omega

/-- The spans of `d` heap-ordered child trees of `cs` nodes each, addressed from the parent
index `r`, are the `d` consecutive chunks of the `d * cs` slots in front of `r`. -/
theorem children_assemble (cmp : Int → Int → Bool) (d : Nat) (hd : 2 ≤ d) (buf : List Int)
    (r cs : Nat)
    (hch : ∀ k0, k0 < d → ∃ (h : Nat) (a : Nat), cs = treeSize d h ∧
        (r : Int) - 1 - (k0 : Int) * (cs : Int) = ((a + cs : Nat) : Int) - 1 ∧
        a + cs ≤ buf.length ∧ IsHeapC cmp d h (slice buf a cs)) :
    ∃ (h a : Nat) (cl : List (List Int)), cs = treeSize d h ∧ r = a + d * cs ∧
      slice buf a (d * cs) = cl.flatten ∧ cl.length = d ∧
      ∀ c ∈ cl, IsHeapC cmp d h c ∧
        ∀ b rc, c = b ++ [rc] → ∃ k0, k0 < d ∧
          readAt buf ((r : Int) - 1 - (k0 : Int) * (cs : Int)) = some rc := by
  obtain ⟨h, -, hh, -, -, -⟩ := hch 0 (by omega)
  obtain ⟨-, a, -, ha, -, -⟩ := hch (d - 1) (by omega)
  have hprod : ((d - 1 : Nat) : Int) * (cs : Int) + (cs : Int) = (d : Int) * (cs : Int) := by
    have e : ((d - 1 : Nat) : Int) = (d : Int) - 1 := by omega
    rw [e]
    ring
  have hra : r = a + d * cs := by
    have : (r : Int) = (a : Int) + (d : Int) * (cs : Int) := by
      push_cast at ha
      linarith
    exact_mod_cast this
  refine ⟨h, a, (List.range d).map (fun i => slice buf (a + i * cs) cs), hh, hra, ?_, by simp,
    ?_⟩
  · exact slice_chunks buf cs d a
  · intro c hc
    obtain ⟨i, hi, rfl⟩ := List.mem_map.mp hc
    have hid : i < d := List.mem_range.mp hi
    obtain ⟨hk, ak, hhk, hak, hakle, hheap⟩ := hch (d - 1 - i) (by omega)
    have hkh : hk = h := treeSize_inj d (by omega) (hhk.symm.trans hh)
    subst hkh
    have hak2 : ak = a + i * cs := by
      have e : ((d - 1 - i : Nat) : Int) = (d : Int) - 1 - (i : Int) := by omega
      have : (ak : Int) = (a : Int) + (i : Int) * (cs : Int) := by
        rw [e, hra] at hak
        push_cast at hak
        linarith
      exact_mod_cast this
    subst hak2
    refine ⟨hheap, ?_⟩
    intro b rc hbr
    exact ⟨d - 1 - i, by omega, slice_last buf (a + i * cs) cs b rc hbr _ hak hakle⟩

/-- A tree that passes the index check is a heap-ordered complete tree in the sense of
`IsHeapC`, and its span lies inside the buffer. -/
theorem heapOrderedAtC_isHeapC (cmp : Int → Int → Bool) (hswo : StrictWeakOrder cmp) (d : Nat)
    (hd : 2 ≤ d) (buf : List Int) :
    ∀ (fuel : Nat) (r : Int) (s : Nat), heapOrderedAtC cmp d buf fuel r s = true →
      ∃ (h a : Nat), s = treeSize d h ∧ r = ((a + s : Nat) : Int) - 1 ∧
        a + s ≤ buf.length ∧ IsHeapC cmp d h (slice buf a s) := by
  intro fuel
  induction fuel with
  | zero =>
    intro r s hs
    simp [heapOrderedAtC] at hs
  | succ f ih =>
    intro r s hs
    rw [heapOrderedAtC] at hs
    by_cases h1 : s = 1
    · subst h1
      simp only [if_true] at hs
      obtain ⟨x, hx⟩ := Option.isSome_iff_exists.mp hs
      obtain ⟨A, B, hAB, hA⟩ := (readAt_eq_some_iff buf r x).mp hx
      refine ⟨0, A.length, rfl, by omega, ?_, ?_⟩
      · rw [hAB]
        simp
      · have : slice buf A.length 1 = [x] := by
          rw [hAB]
          simp [slice]
        rw [this]
        exact ⟨x, rfl⟩
    · simp only [h1, if_false, Bool.and_eq_true, decide_eq_true_eq, List.all_eq_true,
        List.mem_range] at hs
      obtain ⟨⟨hs1, hcs⟩, hall⟩ := hs
      generalize hcsdef : (s - 1) / d = cs at hs1 hcs hall
      -- the root is inside the buffer
      have hroot : ∃ v, readAt buf r = some v := by
        have := (hall 0 (by omega)).1
        cases hrr : readAt buf r with
        | none =>
          rw [hrr] at this
          simp at this
        | some v => exact ⟨v, rfl⟩
      obtain ⟨v, hv⟩ := hroot
      obtain ⟨A, B, hAB, hA⟩ := (readAt_eq_some_iff buf r v).mp hv
      subst hA
      obtain ⟨h, a, cl, hh, hra, hfl, hlen, hcl⟩ := children_assemble cmp d hd buf A.length cs
        (fun k0 hk0 => ih _ _ (hall k0 hk0).2)
      have hbuflen : buf.length = A.length + 1 + B.length := by
        rw [hAB]
        simp
        omega
      refine ⟨h + 1, a, ?_, ?_, ?_, ?_⟩
      · simp only [treeSize, ← hh, hs1]
      · rw [hs1, hra]
        push_cast
        omega
      · rw [hs1]
        omega
      · have hs2 : s = d * cs + 1 := by omega
        have hlastslot : slice buf (a + d * cs) 1 = [v] := by
          rw [← hra, hAB]
          simp [slice]
        refine ⟨cl, v, ?_, hlen, ?_⟩
        · rw [hs2, slice_add, hfl, hlastslot]
        · intro c hc
          obtain ⟨hheap, hrootc⟩ := hcl c hc
          refine ⟨hheap, ?_⟩
          obtain ⟨b, rc, hbr⟩ :=
            exists_concat_of_length_pos c (List.length_pos.mpr hheap.nonempty)
          obtain ⟨k0, hk0, hread⟩ := hrootc b rc hbr
          have hchk := (hall k0 hk0).1
          rw [hv, hread] at hchk
          simp only [Bool.not_eq_true'] at hchk
          intro y hy
          exact hswo.2.2 y rc v (hheap.root_first_of_all hswo hbr y hy) hchk

/-- With the comparator `<` the comparator-generic index check is the index check
`heapOrderedAt`. -/
theorem heapOrderedAtC_ltCmp (d : Nat) (buf : List Int) :
    ∀ (fuel : Nat) (r : Int) (s : Nat),
      heapOrderedAtC ltCmp d buf fuel r s = heapOrderedAt d buf fuel r s := by
  intro fuel
  induction fuel with
  | zero => intro r s; rfl
  | succ f ih =>
    intro r s
    simp only [heapOrderedAtC, heapOrderedAt, ih]

/-- The comparator `<` on integers is a strict weak order. -/
theorem strictWeakOrder_ltCmp : StrictWeakOrder ltCmp := by
  refine ⟨fun a => ?_, fun a b c hab hbc => ?_, fun a b c hab hbc => ?_⟩
  · simp [ltCmp]
  · simp only [ltCmp, decide_eq_true_eq] at *
    omega
  · simp only [ltCmp, decide_eq_false_iff_not, not_lt] at *
    omega

/-- C15: sift-down restores the heap property.  For every degree `d ≥ 2`, every tree size
`s = 1 + d * cs` and every buffer in which the `d` child subtrees of the tree rooted at index
`r` (roots at `r - 1 - (k - 1) * cs`, `k = 1, ..., d`, `cs` nodes each) are heap-ordered
complete trees under the comparator (any strict weak order), `heapify(r, s)` returns, the
tree rooted at `r` is heap-ordered under the comparator afterwards, the span of `s` slots
ending at `r` is a rearrangement of its previous contents, and no slot outside the span
changes. -/
theorem heapify_restores_heap (cmp : Int → Int → Bool) (hswo : StrictWeakOrder cmp) (d : Nat)
    (hd : 2 ≤ d) (buf : List Int) (r cs : Nat) (hr : r < buf.length)
    (hch : 0 < cs → ∀ k : Nat, 1 ≤ k → k ≤ d →
      heapOrderedTree cmp d buf ((r : Int) - 1 - ((k - 1 : Nat) : Int) * (cs : Int)) cs = true) :
    ∃ buf1, heapify cmp d buf (r : Int) (1 + d * cs) = some buf1 ∧
      heapOrderedTree cmp d buf1 (r : Int) (1 + d * cs) = true ∧
      (slice buf1 (r - d * cs) (1 + d * cs)).Perm (slice buf (r - d * cs) (1 + d * cs)) ∧
      buf1.length = buf.length ∧
      ∀ i : Nat, (i < r - d * cs ∨ r < i) → buf1[i]? = buf[i]? := by
  -- the child spans, read off the index checks
  have hsub : ∃ (H a : Nat), 1 + d * cs = treeSize d H ∧ r = a + d * cs ∧
      SubHeapsC cmp d H (slice buf a (d * cs)) := by
    by_cases hcs : 0 < cs
    · have hch1 : ∀ k0, k0 < d → ∃ (h : Nat) (a : Nat), cs = treeSize d h ∧
          (r : Int) - 1 - (k0 : Int) * (cs : Int) = ((a + cs : Nat) : Int) - 1 ∧
          a + cs ≤ buf.length ∧ IsHeapC cmp d h (slice buf a cs) := by
        intro k0 hk0
        have := hch hcs (k0 + 1) (by omega) (by omega)
        simp only [Nat.add_sub_cancel] at this
        exact heapOrderedAtC_isHeapC cmp hswo d hd buf cs _ cs this
      obtain ⟨h, a, cl, hh, hra, hfl, hlen, hcl⟩ := children_assemble cmp d hd buf r cs hch1
      refine ⟨h + 1, a, ?_, hra, ⟨cl, hfl, hlen, fun c hc => (hcl c hc).1⟩⟩
      simp only [treeSize, ← hh]
    · have hcs0 : cs = 0 := by omega
      subst hcs0
      refine ⟨0, r, rfl, by simp, ?_⟩
      simp [SubHeapsC, slice]
  obtain ⟨H, a, hH, hra, hsubH⟩ := hsub
  have hale : a + d * cs ≤ buf.length := by omega
  have hbodylen := slice_length buf a (d * cs) hale
  obtain ⟨x, post, hdrop⟩ : ∃ x post, buf.drop (a + d * cs) = x :: post := by
    cases hdr : buf.drop (a + d * cs) with
    | nil =>
      have := congrArg List.length hdr
      simp only [List.length_drop, List.length_nil] at this
      omega
    | cons x post => exact ⟨x, post, rfl⟩
  have hbuf : buf = buf.take a ++ slice buf a (d * cs) ++ x :: post := by
    rw [← hdrop]
    exact slice_decomp buf a (d * cs)
  have hprelen : (buf.take a).length = a := by
    rw [List.length_take]
    omega
  obtain ⟨l1, hl1, hperm, hheap⟩ := heapify_specC cmp hswo d hd H (buf.take a)
    (slice buf a (d * cs)) post x (r : Int) (by rw [hbodylen, ← hH]; omega)
    (by rw [hprelen, hbodylen, hra])
  rw [← hbuf, ← hH] at hl1
  have hl1len : l1.length = 1 + d * cs := by
    rw [hperm.length_eq]
    simp only [List.length_append, List.length_singleton, hbodylen]
    omega
  have ha : r - d * cs = a := by omega
  refine ⟨buf.take a ++ l1 ++ post, hl1, ?_, ?_, ?_, ?_⟩
  · have hfuel : H + 1 ≤ 1 + d * cs := by
      have := lt_treeSize d H (by omega)
      omega
    have := IsHeapC.heapOrderedAtC_eq_true hd H l1 (hheap hsubH) (buf.take a) post
      (1 + d * cs) (r : Int) hfuel (by rw [hprelen, hl1len, hra]; push_cast; omega)
    rw [← hH] at this
    exact this
  · rw [ha]
    have h1 : slice (buf.take a ++ l1 ++ post) a (1 + d * cs) = l1 := by
      have := slice_of_append (buf.take a) l1 post
      rw [hprelen, hl1len] at this
      exact this
    have h2 : slice buf a (1 + d * cs) = slice buf a (d * cs) ++ [x] := by
      have h3 : buf = buf.take a ++ (slice buf a (d * cs) ++ [x]) ++ post := by
        conv => lhs; rw [hbuf]
        simp
      have := slice_of_append (buf.take a) (slice buf a (d * cs) ++ [x]) post
      rw [← h3, hprelen] at this
      simp only [List.length_append, List.length_singleton, hbodylen] at this
      rw [Nat.add_comm] at this
      exact this
    rw [h1, h2]
    exact hperm
  · have := congrArg List.length hbuf
    simp only [List.length_append, List.length_cons] at this ⊢
    omega
  · intro i hi
    rw [ha] at hi
    rcases hi with hi | hi
    · rw [List.append_assoc, List.getElem?_append_left (by omega),
        List.getElem?_take_of_lt hi]
    · have h1 : (buf.take a ++ l1).length ≤ i := by
        simp only [List.length_append, hprelen, hl1len]
        omega
      have h2 : (buf.take a ++ slice buf a (d * cs) ++ [x]).length ≤ i := by
        simp only [List.length_append, hprelen, hbodylen, List.length_singleton]
        omega
      have h3 : buf = (buf.take a ++ slice buf a (d * cs) ++ [x]) ++ post := by
        conv => lhs; rw [hbuf]
        simp
      conv => rhs; rw [h3]
      rw [List.getElem?_append_right h1, List.getElem?_append_right h2]
      congr 1
      simp only [List.length_append, hprelen, hl1len, hbodylen, List.length_singleton]
      omega

theorem heapify_restores_heap_witness :
    StrictWeakOrder ltCmp ∧ 2 ≤ 2 ∧ 6 < [4, 5, 3, 6, 7, 3, 9].length ∧
    (0 < 3 → ∀ k : Nat, 1 ≤ k → k ≤ 2 →
      heapOrderedTree ltCmp 2 [4, 5, 3, 6, 7, 3, 9]
        ((6 : Nat) - 1 - ((k - 1 : Nat) : Int) * ((3 : Nat) : Int)) 3 = true) ∧
    ∃ buf1, heapify ltCmp 2 [4, 5, 3, 6, 7, 3, 9] ((6 : Nat) : Int) (1 + 2 * 3) = some buf1 ∧
      heapOrderedTree ltCmp 2 buf1 ((6 : Nat) : Int) (1 + 2 * 3) = true ∧
      (slice buf1 (6 - 2 * 3) (1 + 2 * 3)).Perm
        (slice [4, 5, 3, 6, 7, 3, 9] (6 - 2 * 3) (1 + 2 * 3)) ∧
      buf1.length = [4, 5, 3, 6, 7, 3, 9].length ∧
      ∀ i : Nat, (i < 6 - 2 * 3 ∨ 6 < i) → buf1[i]? = [4, 5, 3, 6, 7, 3, 9][i]? :=
  have hch : 0 < 3 → ∀ k : Nat, 1 ≤ k → k ≤ 2 →
      heapOrderedTree ltCmp 2 [4, 5, 3, 6, 7, 3, 9]
        ((6 : Nat) - 1 - ((k - 1 : Nat) : Int) * ((3 : Nat) : Int)) 3 = true := by
    intro _ k h1 h2
    have hk : k = 1 ∨ k = 2 := by omega
    rcases hk with rfl | rfl <;> decide
  ⟨strictWeakOrder_ltCmp, by decide, by decide, hch,
    heapify_restores_heap ltCmp strictWeakOrder_ltCmp 2 (by decide) [4, 5, 3, 6, 7, 3, 9] 6 3
      (by decide) hch⟩

/-! ## The two source variants -/

/-- C17 (the two variants differ): at degree 2 with the comparator `<`, inserting 1, 2, 3 into
an empty `post_order_heap` leaves the buffer `[1, 3, 2]`, while pushing the same values into
an empty `postorder_heap` leaves the buffer `[3, 2, 1]`; both ledgers are `[3]`.  The sift-down
of `post_order_heap.cpp` skips its child loop (`index < _degree` is false at index 2) and so
looks at the right child only; the span it leaves is not heap-ordered, the span of
`postorder_heap` is. -/
theorem variants_differ_on_one_two_three :
    post_order_heap.insertAll ltCmp (post_order_heap.new 2) [1, 2, 3]
      = some (post_order_heap.mk [1, 3, 2] 2 [3]) ∧
    pushAll ltCmp (new 2) [1, 2, 3] = some (postorder_heap.mk [3, 2, 1] 2 [3]) ∧
    isHeapSpan 2 [1, 3, 2] = false ∧ isHeapSpan 2 [3, 2, 1] = true := by
  decide

/-! ## Construction and calls on an empty heap -/

/-- C11 (as stated, refuted at degree 1): the constructor call with degree 1 returns a
container with an empty buffer and an empty ledger in both variants and signals no error, and
the returned container accepts a `push`. -/
theorem degree_one_is_constructed :
    construct 1 = Outcome.returned (postorder_heap.mk [] 1 []) ∧
    construct 1 ≠ Outcome.signalled ∧
    post_order_heap.construct 1 = Outcome.returned (post_order_heap.mk [] 1 []) ∧
    post_order_heap.construct 1 ≠ Outcome.signalled ∧
    push ltCmp (postorder_heap.mk [] 1 []) 5 = some (postorder_heap.mk [5] 1 [1]) := by
  decide

/-- C11 (amended): neither constructor inspects the degree or signals an error.  For every
degree, the degrees 0 and 1 included, the constructor returns a container with an empty
buffer and an empty ledger that stores the degree as given. -/
theorem constructor_accepts_every_degree (degree : Nat) :
    (∃ h, construct degree = Outcome.returned h ∧ h._container = [] ∧ h._sizes = [] ∧
      h._degree = degree ∧ h.size = 0 ∧ h.empty = true) ∧
    construct degree ≠ Outcome.signalled ∧
    (∃ h, post_order_heap.construct degree = Outcome.returned h ∧ h._container = [] ∧
      h._sizes = [] ∧ h._degree = degree) ∧
    post_order_heap.construct degree ≠ Outcome.signalled := by
  refine ⟨⟨new degree, rfl, rfl, rfl, rfl, rfl, rfl⟩, ?_, ⟨post_order_heap.new degree, rfl, rfl,
    rfl, rfl⟩, ?_⟩
  · simp [construct]
  · simp [post_order_heap.construct]

/-- C12 (as stated, refuted on the empty heap of degree 2): `top()`, `poll()` and `pop()`
called on a freshly constructed heap do not signal an error; each of them reads
`_sizes.back()` of the empty ledger and `_container[-1]`, which is undefined behaviour. -/
theorem empty_heap_calls_do_not_signal :
    topOutcome ltCmp (new 2) = Outcome.undefined ∧
    topOutcome ltCmp (new 2) ≠ Outcome.signalled ∧
    pollOutcome ltCmp (new 2) = Outcome.undefined ∧
    pollOutcome ltCmp (new 2) ≠ Outcome.signalled ∧
    popOutcome ltCmp (new 2) = Outcome.undefined ∧
    popOutcome ltCmp (new 2) ≠ Outcome.signalled := by
  decide

/-- C12 (amended): the code has no emptiness guard and signals no error.  For every
comparator and every state whose buffer is empty, `top()`, `poll()` and `pop()` have undefined
behaviour (they read `_container[-1]`), so neither a result nor a state after the call is
defined. -/
theorem empty_heap_calls_undefined (cmp : Int → Int → Bool) (st : postorder_heap)
    (hempty : st.size = 0) :
    topOutcome cmp st = Outcome.undefined ∧ pollOutcome cmp st = Outcome.undefined ∧
      popOutcome cmp st = Outcome.undefined := by
  have hc : st._container = [] := List.length_eq_zero.mp hempty
  have hread : readAt st._container ((st._container.length : Int) - 1) = none := by
    rw [hc]
    rfl
  have htop : top cmp st = none := by
    unfold top
    simp only [hread]
    cases st._sizes.getLast? <;> rfl
  have hpoll : poll cmp st = none := by
    unfold poll
    simp only [hread]
    cases st._sizes.getLast? <;> rfl
  have hpop : pop cmp st = none := by
    unfold pop
    rw [hpoll]
  refine ⟨?_, ?_, ?_⟩
  · unfold topOutcome
    rw [htop]
    rfl
  · unfold pollOutcome
    rw [hpoll]
    rfl
  · unfold popOutcome
    rw [hpop]
    rfl

theorem empty_heap_calls_undefined_witness :
    (new 3).size = 0 ∧ topOutcome gtCmp (new 3) = Outcome.undefined ∧
      pollOutcome gtCmp (new 3) = Outcome.undefined ∧
      popOutcome gtCmp (new 3) = Outcome.undefined :=
  ⟨rfl, empty_heap_calls_undefined gtCmp (new 3) rfl⟩

end postorder_heap
